import Mathlib

/-!
Shallow embedding of `ai_pathfinder.py` (repository f230613/AI-pathfinder).

The embedded core consists of the grid model (`Grid`, `is_valid`,
`get_neighbors`), step recording (`Step`, `make_step`), path reconstruction
(`reconstruct_path`, `merge_paths`) and the six search strategies
(`bfs`, `dfs`, `ucs`, `dls`, `iddfs`, `bidirectional`).

Modelling conventions:
- Python `(row, col)` int tuples become `Pos := ℤ × ℤ`.
- Python sets of positions become `Finset Pos`; every `add` in the source is
  guarded by a membership test (or the element is freshly popped), so insert
  order is irrelevant and `Finset` is faithful.
- Python dicts (`came_from`, `cost_so_far`) become association lists with
  front-insertion shadowing; `pmLookup`/`pmGet` mirror `in` and `.get`.
- The float costs `1.0` and `1.414` become the exact rationals `1` and
  `1414/1000`.  All cost values arising in a run are of the form
  `m + k * 1.414` with small natural `m, k`, where the double-precision
  comparisons performed by the source agree with the exact rational ones.
- The `while` loops become fuel-indexed recursions returning `Option`;
  `none` means the fuel bound was hit.  Each top-level function passes a fuel
  bound proved sufficient below, so the `Option` layer never fires.
- Python's `heapq` in `ucs` is modelled by a list kept sorted by the
  lexicographic key `(cost, counter)`.  Since every pushed counter is unique,
  this key is a total order with no ties, so the popped entry is exactly the
  entry `heapq.heappop` returns.  Only the internal storage order of the
  remaining heap (echoed into `Step.frontier` by `ucs`) differs from CPython's
  array layout; no claim concerns that order.
-/

namespace AIPF

abbrev Pos : Type := ℤ × ℤ

/-- Grid record: `{rows, cols, start, goal, walls}` as built by `build_grid`. -/
structure Grid where
  rows : ℕ
  cols : ℕ
  start : Pos
  goal : Pos
  walls : Finset Pos
deriving DecidableEq

/-- Module constant `ROWS = 10`. -/
def ROWS : ℕ := 10

/-- Module constant `COLS = 10`. -/
def COLS : ℕ := 10

/-- Module constant `START = (1, 1)`. -/
def START : Pos := (1, 1)

/-- Module constant `GOAL = (8, 8)`. -/
def GOAL : Pos := (8, 8)

/-- Module constant `STATIC_WALLS`. -/
def STATIC_WALLS : Finset Pos :=
  {(2, 3), (3, 3), (4, 3), (4, 4), (4, 5), (6, 5), (6, 6), (6, 7), (5, 7), (3, 7)}

/-- Function `build_grid()`. -/
def build_grid : Grid :=
  { rows := ROWS, cols := COLS, start := START, goal := GOAL, walls := STATIC_WALLS }

/-- Module constant `DIRECTIONS`: up, right, down, down-right, left, up-left. -/
def DIRECTIONS : List (ℤ × ℤ) := [(-1, 0), (0, 1), (1, 0), (1, 1), (0, -1), (-1, -1)]

/-- Function `is_valid(grid, pos)`. -/
def is_valid (g : Grid) (p : Pos) : Bool :=
  if p.1 < 0 ∨ (g.rows : ℤ) ≤ p.1 ∨ p.2 < 0 ∨ (g.cols : ℤ) ≤ p.2 then false
  else if p ∈ g.walls then false
  else true

/-- Function `get_neighbors(grid, pos)`: the source's loop appends, for each
direction in `DIRECTIONS` whose target is valid, the pair of the target and its
cost (`1.414` when the direction is diagonal, else `1.0`); filter-then-map
builds the same list in the same order. -/
def get_neighbors (g : Grid) (p : Pos) : List (Pos × ℚ) :=
  (DIRECTIONS.filter fun d => is_valid g (p.1 + d.1, p.2 + d.2)).map
    fun d => ((p.1 + d.1, p.2 + d.2), if d.1 ≠ 0 ∧ d.2 ≠ 0 then 1.414 else 1.0)

/-- Step record produced by `make_step`. -/
structure Step where
  current : Pos
  frontier : List Pos
  visited : Finset Pos
deriving DecidableEq

/-- Function `make_step(current, frontier, visited)`; the `.copy()` of the
source is value semantics here. -/
def make_step (current : Pos) (frontier : List Pos) (visited : Finset Pos) : Step :=
  { current := current, frontier := frontier, visited := visited }

/-- Python dict from `Position` to `Optional[Position]` as an association list;
the most recent binding (front-most) shadows earlier ones. -/
abbrev ParentMap : Type := List (Pos × Option Pos)

/-- Dict lookup distinguishing "absent" (`none`) from "maps to `None`"
(`some none`). -/
def pmLookup : ParentMap → Pos → Option (Option Pos)
  | [], _ => none
  | (k, v) :: rest, x => if k = x then some v else pmLookup rest x

/-- Python's `came_from.get(node)`: absent keys and keys mapped to `None`
both give `none`. -/
def pmGet (m : ParentMap) (x : Pos) : Option Pos :=
  match pmLookup m x with
  | some v => v
  | none => none

/-- Membership `x in came_from`. -/
def pmMem (m : ParentMap) (x : Pos) : Bool :=
  (pmLookup m x).isSome

/-- Cost dict of `ucs` as an association list. -/
abbrev CostMap : Type := List (Pos × ℚ)

def csLookup : CostMap → Pos → Option ℚ
  | [], _ => none
  | (k, v) :: rest, x => if k = x then some v else csLookup rest x

/-- Tail of `reconstruct_path`: the source appends parents to `path` and
reverses at the end; consing while walking builds the reversed list directly.
The fuel only guards against cyclic parent maps, which the algorithms never
produce: every chain of an acyclic map has at most `m.length + 1` nodes, so
the fuel passed by `reconstruct_path` is never exhausted in reachable states
(`reconstruct_path_of_chain` below). -/
def reconstructGo (m : ParentMap) : ℕ → Pos → List Pos → List Pos
  | 0, _, acc => acc
  | fuel + 1, node, acc =>
    match pmGet m node with
    | none => acc
    | some y => reconstructGo m fuel y (y :: acc)

/-- Function `reconstruct_path(came_from, goal)`. -/
def reconstruct_path (m : ParentMap) (goal : Pos) : List Pos :=
  reconstructGo m (m.length + 1) goal [goal]

/-- Parent-chain walk of `merge_paths` (both `while node is not None` loops);
fuel as in `reconstructGo`. -/
def walkParents (m : ParentMap) : ℕ → Option Pos → List Pos
  | 0, _ => []
  | _ + 1, none => []
  | fuel + 1, some node => node :: walkParents m fuel (pmGet m node)

/-- Function `merge_paths(fwd_parent, bwd_parent, meeting)`. -/
def merge_paths (fwdParent bwdParent : ParentMap) (meeting : Pos) : List Pos :=
  (walkParents fwdParent (fwdParent.length + 1) (some meeting)).reverse ++
    walkParents bwdParent (bwdParent.length + 1) (pmGet bwdParent meeting)

/-! The in-bounds non-wall cells of a grid; used for fuel bounds. -/

def validCells (g : Grid) : Finset Pos :=
  ((Finset.range g.rows ×ˢ Finset.range g.cols).image
    fun rc => ((rc.1 : ℤ), (rc.2 : ℤ))).filter fun p => is_valid g p

/-! Breadth-first search. -/

structure BfsState where
  queue : List Pos
  in_queue : Finset Pos
  came_from : ParentMap
  visited : Finset Pos
  steps : List Step

def bfsInit (g : Grid) : BfsState :=
  { queue := [g.start], in_queue := {g.start}, came_from := [(g.start, none)],
    visited := ∅, steps := [] }

/-- The neighbor loop of `bfs`: enqueue each neighbor not visited and not
already queued, recording its parent. -/
def bfsPush (current : Pos) (visited : Finset Pos) :
    List (Pos × ℚ) → List Pos → Finset Pos → ParentMap →
    List Pos × Finset Pos × ParentMap
  | [], q, iq, cf => (q, iq, cf)
  | (nbr, _) :: rest, q, iq, cf =>
    if nbr ∉ visited ∧ nbr ∉ iq then
      bfsPush current visited rest (q ++ [nbr]) (insert nbr iq) ((nbr, some current) :: cf)
    else
      bfsPush current visited rest q iq cf

/-- Main loop of `bfs`, one fuel unit per iteration. -/
def bfsLoop (g : Grid) : ℕ → BfsState → Option (List Step × List Pos)
  | 0, _ => none
  | fuel + 1, s =>
    match s.queue with
    | [] => some (s.steps, [])
    | current :: rest =>
      let iq := s.in_queue.erase current
      let steps := s.steps ++ [make_step current rest s.visited]
      if current = g.goal then
        some (steps, reconstruct_path s.came_from current)
      else if current ∈ s.visited then
        bfsLoop g fuel { queue := rest, in_queue := iq, came_from := s.came_from,
                         visited := s.visited, steps := steps }
      else
        let visited := insert current s.visited
        let r := bfsPush current visited (get_neighbors g current) rest iq s.came_from
        bfsLoop g fuel { queue := r.1, in_queue := r.2.1, came_from := r.2.2,
                         visited := visited, steps := steps }

/-- Fuel sufficient for `bfs`: each position is enqueued at most once, so the
loop runs at most `|validCells| + 2` times (`bfsLoop_total` below). -/
def bfsFuel (g : Grid) : ℕ := (validCells g).card + 2

/-- Function `bfs(grid)`. -/
def bfs (g : Grid) : List Step × List Pos :=
  (bfsLoop g (bfsFuel g) (bfsInit g)).getD ([], [])

/-! Depth-first search. -/

structure DfsState where
  stack : List Pos
  came_from : ParentMap
  visited : Finset Pos
  steps : List Step

def dfsInit (g : Grid) : DfsState :=
  { stack := [g.start], came_from := [(g.start, none)], visited := ∅, steps := [] }

/-- The neighbor loop of `dfs`: iterate `reversed(get_neighbors(...))`, push
each unvisited neighbor, and record its parent on first discovery only. -/
def dfsPush (current : Pos) (visited : Finset Pos) :
    List (Pos × ℚ) → List Pos → ParentMap → List Pos × ParentMap
  | [], st, cf => (st, cf)
  | (nbr, _) :: rest, st, cf =>
    if nbr ∉ visited then
      dfsPush current visited rest (nbr :: st)
        (if pmMem cf nbr then cf else (nbr, some current) :: cf)
    else
      dfsPush current visited rest st cf

/-- Main loop of `dfs`.  The Python list-stack pops at the end; the list head
here is the stack top, so the recorded frontier (bottom-to-top iteration of
the Python list) is `rest.reverse`. -/
def dfsLoop (g : Grid) : ℕ → DfsState → Option (List Step × List Pos)
  | 0, _ => none
  | fuel + 1, s =>
    match s.stack with
    | [] => some (s.steps, [])
    | current :: rest =>
      let steps := s.steps ++ [make_step current rest.reverse s.visited]
      if current = g.goal then
        some (steps, reconstruct_path s.came_from current)
      else if current ∈ s.visited then
        dfsLoop g fuel { stack := rest, came_from := s.came_from,
                         visited := s.visited, steps := steps }
      else
        let visited := insert current s.visited
        let r := dfsPush current visited (get_neighbors g current).reverse rest s.came_from
        dfsLoop g fuel { stack := r.1, came_from := r.2, visited := visited, steps := steps }

/-- Fuel sufficient for `dfs`: at most `|validCells|` expansions, each pushing
at most six entries, bound proved in `dfsLoop_total`. -/
def dfsFuel (g : Grid) : ℕ := 7 * (validCells g).card + 8

/-- Function `dfs(grid)`. -/
def dfs (g : Grid) : List Step × List Pos :=
  (dfsLoop g (dfsFuel g) (dfsInit g)).getD ([], [])

/-! Depth-limited search. -/

structure DlsState where
  stack : List (Pos × ℕ)
  came_from : ParentMap
  visited : Finset Pos
  steps : List Step

def dlsInit (g : Grid) : DlsState :=
  { stack := [(g.start, 0)], came_from := [(g.start, none)], visited := ∅, steps := [] }

/-- The neighbor loop of `dls`: like `dfsPush` but entries carry `depth + 1`. -/
def dlsPush (current : Pos) (depth : ℕ) (visited : Finset Pos) :
    List (Pos × ℚ) → List (Pos × ℕ) → ParentMap → List (Pos × ℕ) × ParentMap
  | [], st, cf => (st, cf)
  | (nbr, _) :: rest, st, cf =>
    if nbr ∉ visited then
      dlsPush current depth visited rest ((nbr, depth + 1) :: st)
        (if pmMem cf nbr then cf else (nbr, some current) :: cf)
    else
      dlsPush current depth visited rest st cf

/-- Main loop of `dls`; as in `dfs`, the recorded frontier lists the stacked
positions bottom-to-top. -/
def dlsLoop (g : Grid) (limit : ℕ) : ℕ → DlsState → Option (List Step × List Pos)
  | 0, _ => none
  | fuel + 1, s =>
    match s.stack with
    | [] => some (s.steps, [])
    | (current, depth) :: rest =>
      let steps := s.steps ++ [make_step current (rest.reverse.map Prod.fst) s.visited]
      if current = g.goal then
        some (steps, reconstruct_path s.came_from current)
      else if current ∈ s.visited ∨ limit ≤ depth then
        dlsLoop g limit fuel { stack := rest, came_from := s.came_from,
                               visited := s.visited, steps := steps }
      else
        let visited := insert current s.visited
        let r := dlsPush current depth visited (get_neighbors g current).reverse rest s.came_from
        dlsLoop g limit fuel { stack := r.1, came_from := r.2, visited := visited, steps := steps }

def dlsFuel (g : Grid) : ℕ := 7 * (validCells g).card + 8

/-- Function `dls(grid, limit)`; the source's default limit is `15`. -/
def dls (g : Grid) (limit : ℕ) : List Step × List Pos :=
  (dlsLoop g limit (dlsFuel g) (dlsInit g)).getD ([], [])

/-! Iterative deepening DFS. -/

/-- The `for depth_limit in range(ROWS * COLS)` loop of `iddfs`: note the
source uses the module constants `ROWS`, `COLS`, not the grid's own size. -/
def iddfsGo (g : Grid) : List ℕ → List Step → List Step × List Pos
  | [], acc => (acc, [])
  | l :: ls, acc =>
    let r := dls g l
    if r.2 ≠ [] then (acc ++ r.1, r.2) else iddfsGo g ls (acc ++ r.1)

/-- Function `iddfs(grid)`. -/
def iddfs (g : Grid) : List Step × List Pos :=
  iddfsGo g (List.range (ROWS * COLS)) []

/-! Uniform cost search. -/

/-- Heap entry `(accumulated cost, insertion counter, position)`. -/
abbrev UEntry : Type := ℚ × ℕ × Pos

/-- Lexicographic key order on `(cost, counter)`; the position never decides a
comparison because counters are unique. -/
def entryLE (a b : UEntry) : Prop :=
  a.1 < b.1 ∨ (a.1 = b.1 ∧ a.2.1 ≤ b.2.1)

instance : DecidableRel entryLE := fun a b =>
  inferInstanceAs (Decidable (_ ∨ _))

instance : IsTotal UEntry entryLE where
  total a b := by
    unfold entryLE
    rcases lt_trichotomy a.1 b.1 with h | h | h
    · exact Or.inl (Or.inl h)
    · rcases le_total a.2.1 b.2.1 with h2 | h2
      · exact Or.inl (Or.inr ⟨h, h2⟩)
      · exact Or.inr (Or.inr ⟨h.symm, h2⟩)
    · exact Or.inr (Or.inl h)

instance : IsTrans UEntry entryLE where
  trans a b c hab hbc := by
    unfold entryLE at *
    rcases hab with h | ⟨he, hc⟩ <;> rcases hbc with h' | ⟨he', hc'⟩
    · exact Or.inl (h.trans h')
    · exact Or.inl (he' ▸ h)
    · exact Or.inl (he ▸ h')
    · exact Or.inr ⟨he.trans he', hc.trans hc'⟩

structure UcsState where
  counter : ℕ
  heap : List UEntry
  came_from : ParentMap
  cost_so_far : CostMap
  visited : Finset Pos
  steps : List Step

def ucsInit (g : Grid) : UcsState :=
  { counter := 0, heap := [(0, 0, g.start)], came_from := [(g.start, none)],
    cost_so_far := [(g.start, 0)], visited := ∅, steps := [] }

/-- The relaxation loop of `ucs`: for each neighbor whose new cost is absent
or strictly lower, record the cost, push a fresh heap entry, and set the
parent. -/
def ucsRelax (current : Pos) (curCost : ℚ) :
    List (Pos × ℚ) → ℕ → List UEntry → ParentMap → CostMap →
    ℕ × List UEntry × ParentMap × CostMap
  | [], ctr, h, cf, cs => (ctr, h, cf, cs)
  | (nbr, edgeCost) :: rest, ctr, h, cf, cs =>
    let newCost := curCost + edgeCost
    match csLookup cs nbr with
    | some old =>
      if newCost < old then
        ucsRelax current curCost rest (ctr + 1)
          (h.orderedInsert entryLE (newCost, ctr + 1, nbr))
          ((nbr, some current) :: cf) ((nbr, newCost) :: cs)
      else
        ucsRelax current curCost rest ctr h cf cs
    | none =>
      ucsRelax current curCost rest (ctr + 1)
        (h.orderedInsert entryLE (newCost, ctr + 1, nbr))
        ((nbr, some current) :: cf) ((nbr, newCost) :: cs)

/-- Main loop of `ucs`.  The sorted list's head is the entry `heapq.heappop`
would return (keys are distinct); the recorded frontier lists the remaining
entries' positions. -/
def ucsLoop (g : Grid) : ℕ → UcsState → Option (List Step × List Pos)
  | 0, _ => none
  | fuel + 1, s =>
    match s.heap with
    | [] => some (s.steps, [])
    | (curCost, _, current) :: rest =>
      let steps := s.steps ++ [make_step current (rest.map fun e => e.2.2) s.visited]
      if current = g.goal then
        some (steps, reconstruct_path s.came_from current)
      else if current ∈ s.visited then
        ucsLoop g fuel { counter := s.counter, heap := rest, came_from := s.came_from,
                         cost_so_far := s.cost_so_far, visited := s.visited, steps := steps }
      else
        let visited := insert current s.visited
        let r := ucsRelax current curCost (get_neighbors g current)
          s.counter rest s.came_from s.cost_so_far
        ucsLoop g fuel { counter := r.1, heap := r.2.1, came_from := r.2.2.1,
                         cost_so_far := r.2.2.2, visited := visited, steps := steps }

def ucsFuel (g : Grid) : ℕ := 7 * (validCells g).card + 8

/-- Function `ucs(grid)`. -/
def ucs (g : Grid) : List Step × List Pos :=
  (ucsLoop g (ucsFuel g) (ucsInit g)).getD ([], [])

/-! Bidirectional search. -/

structure BidiState where
  fwd_queue : List Pos
  fwd_visited : Finset Pos
  fwd_parent : ParentMap
  bwd_queue : List Pos
  bwd_visited : Finset Pos
  bwd_parent : ParentMap
  steps : List Step

def bidiInit (g : Grid) : BidiState :=
  { fwd_queue := [g.start], fwd_visited := {g.start}, fwd_parent := [(g.start, none)],
    bwd_queue := [g.goal], bwd_visited := {g.goal}, bwd_parent := [(g.goal, none)],
    steps := [] }

/-- One side's neighbor loop in `bidirectional`: enqueue, mark visited, and
set the parent of each neighbor not yet visited on that side. -/
def bidiPush (current : Pos) :
    List (Pos × ℚ) → List Pos → Finset Pos → ParentMap →
    List Pos × Finset Pos × ParentMap
  | [], q, vis, par => (q, vis, par)
  | (nbr, _) :: rest, q, vis, par =>
    if nbr ∉ vis then
      bidiPush current rest (q ++ [nbr]) (insert nbr vis) ((nbr, some current) :: par)
    else
      bidiPush current rest q vis par

/-- The forward half of one `bidirectional` iteration: skipped when the
forward queue is empty; `Sum.inl` is the early return at a meeting point. -/
def bidiFwd (g : Grid) (s : BidiState) : (List Step × List Pos) ⊕ BidiState :=
  match s.fwd_queue with
  | [] => Sum.inr s
  | curF :: restF =>
    let steps := s.steps ++
      [make_step curF (restF ++ s.bwd_queue) (s.fwd_visited ∪ s.bwd_visited)]
    if curF ∈ s.bwd_visited then
      Sum.inl (steps, merge_paths s.fwd_parent s.bwd_parent curF)
    else
      let r := bidiPush curF (get_neighbors g curF) restF s.fwd_visited s.fwd_parent
      Sum.inr { s with fwd_queue := r.1, fwd_visited := r.2.1, fwd_parent := r.2.2,
                       steps := steps }

/-- The backward half of one `bidirectional` iteration. -/
def bidiBwd (g : Grid) (s : BidiState) : (List Step × List Pos) ⊕ BidiState :=
  match s.bwd_queue with
  | [] => Sum.inr s
  | curB :: restB =>
    let steps := s.steps ++
      [make_step curB (s.fwd_queue ++ restB) (s.fwd_visited ∪ s.bwd_visited)]
    if curB ∈ s.fwd_visited then
      Sum.inl (steps, merge_paths s.fwd_parent s.bwd_parent curB)
    else
      let r := bidiPush curB (get_neighbors g curB) restB s.bwd_visited s.bwd_parent
      Sum.inr { s with bwd_queue := r.1, bwd_visited := r.2.1, bwd_parent := r.2.2,
                       steps := steps }

/-- Main loop of `bidirectional`: per iteration one forward expansion (if the
forward queue is non-empty, possibly returning a merged path) followed by one
backward expansion (if the backward queue is non-empty). -/
def bidiLoop (g : Grid) : ℕ → BidiState → Option (List Step × List Pos)
  | 0, _ => none
  | fuel + 1, s =>
    if s.fwd_queue = [] ∧ s.bwd_queue = [] then some (s.steps, [])
    else
      match bidiFwd g s with
      | Sum.inl r => some r
      | Sum.inr s1 =>
        match bidiBwd g s1 with
        | Sum.inl r => some r
        | Sum.inr s2 => bidiLoop g fuel s2

def bidiFuel (g : Grid) : ℕ := 2 * (validCells g).card + 4

/-- Function `bidirectional(grid)`. -/
def bidirectional (g : Grid) : List Step × List Pos :=
  (bidiLoop g (bidiFuel g) (bidiInit g)).getD ([], [])

/-! Derived notions used to state the claims. -/

/-- Well-formed grid in the sense of the spec's precondition: start and goal
are in-bounds non-wall cells. -/
def WellFormed (g : Grid) : Prop :=
  is_valid g g.start = true ∧ is_valid g g.goal = true

instance (g : Grid) : Decidable (WellFormed g) :=
  inferInstanceAs (Decidable (_ ∧ _))

/-- One move of the 6-neighbor relation: `b` is produced by
`get_neighbors g a`. -/
def stepRel (g : Grid) (a b : Pos) : Prop :=
  b ∈ (get_neighbors g a).map Prod.fst

instance (g : Grid) : DecidableRel (stepRel g) := fun _ b =>
  inferInstanceAs (Decidable (b ∈ _))

/-- Every consecutive pair of the list is a valid neighbor transition. -/
def ValidSteps (g : Grid) (l : List Pos) : Prop :=
  List.Chain' (stepRel g) l

/-- Executable check for `ValidSteps`. -/
def validStepsB (g : Grid) : List Pos → Bool
  | [] => true
  | [_] => true
  | a :: b :: rest => decide (stepRel g a b) && validStepsB g (b :: rest)

theorem validStepsB_iff (g : Grid) : ∀ l, validStepsB g l = true ↔ ValidSteps g l
  | [] => by simp [validStepsB, ValidSteps]
  | [a] => by simp [validStepsB, ValidSteps]
  | a :: b :: rest => by
    rw [ValidSteps, List.chain'_cons]
    simp only [validStepsB, Bool.and_eq_true, decide_eq_true_eq]
    rw [validStepsB_iff g (b :: rest)]
    rfl

instance : ∀ g l, Decidable (ValidSteps g l) := fun g l =>
  decidable_of_iff _ (validStepsB_iff g l)

/-- A walk: a non-empty position list with valid transitions from `a` to `b`. -/
def WalkFrom (g : Grid) (a : Pos) (l : List Pos) (b : Pos) : Prop :=
  l.head? = some a ∧ l.getLast? = some b ∧ ValidSteps g l

/-- Reachability over the move relation. -/
def Reach (g : Grid) (a b : Pos) : Prop :=
  Relation.ReflTransGen (stepRel g) a b

/-- Cost of a single move as `ucs` accounts it: `1.414` for the two diagonal
directions, `1.0` for the four orthogonal ones. -/
def moveCost (a b : Pos) : ℚ :=
  if a.1 ≠ b.1 ∧ a.2 ≠ b.2 then 1.414 else 1

/-- Accumulated cost of a walk. -/
def walkCost : List Pos → ℚ
  | a :: b :: rest => moveCost a b + walkCost (b :: rest)
  | _ => 0

end AIPF

namespace AIPF

/-! Basic lemmas about the grid model. -/

theorem is_valid_iff (g : Grid) (p : Pos) :
    is_valid g p = true ↔
      0 ≤ p.1 ∧ p.1 < (g.rows : ℤ) ∧ 0 ≤ p.2 ∧ p.2 < (g.cols : ℤ) ∧ p ∉ g.walls := by
  unfold is_valid
  split_ifs with h1 h2 <;> push_neg at h1 <;> simp_all <;> omega

/-- Spec-side neighbor list, written from the spec's words: "returns valid
neighbors of `pos` in a fixed clockwise order: up, right, down, down-right
(diagonal), left, up-left (diagonal).  Orthogonal moves cost `1.0`; the two
diagonal moves cost `1.414`." -/
def neighborsSpec (g : Grid) (p : Pos) : List (Pos × ℚ) :=
  [((p.1 - 1, p.2), (1 : ℚ)), ((p.1, p.2 + 1), 1), ((p.1 + 1, p.2), 1),
   ((p.1 + 1, p.2 + 1), 1.414), ((p.1, p.2 - 1), 1), ((p.1 - 1, p.2 - 1), 1.414)].filter
    fun e => is_valid g e.1

theorem map_filter_comm {α β : Type _} (f : α → β) (p : α → Bool) (q : β → Bool) (l : List α)
    (h : ∀ a ∈ l, q (f a) = p a) :
    (l.filter p).map f = (l.map f).filter q := by
  induction l with
  | nil => rfl
  | cons a t ih =>
    have ha := h a (List.mem_cons_self a t)
    have ih2 := ih fun x hx => h x (List.mem_cons_of_mem a hx)
    cases hp : p a <;> simp [List.filter_cons, hp, ha, ih2]

theorem get_neighbors_eq_spec (g : Grid) (p : Pos) :
    get_neighbors g p = neighborsSpec g p := by
  unfold get_neighbors neighborsSpec
  rw [map_filter_comm
      (fun d => ((p.1 + d.1, p.2 + d.2), if d.1 ≠ 0 ∧ d.2 ≠ 0 then (1.414 : ℚ) else 1.0))
      (fun d => is_valid g (p.1 + d.1, p.2 + d.2)) (fun e => is_valid g e.1) DIRECTIONS
      fun a _ => rfl]
  congr 1
  simp only [DIRECTIONS, List.map_cons, List.map_nil]
  norm_num [Prod.ext_iff]
  omega

theorem mem_get_neighbors_iff (g : Grid) (p q : Pos) (c : ℚ) :
    (q, c) ∈ get_neighbors g p ↔
      (q.1 - p.1, q.2 - p.2) ∈ DIRECTIONS ∧ is_valid g q = true ∧
        c = (if q.1 ≠ p.1 ∧ q.2 ≠ p.2 then (1.414 : ℚ) else 1) := by
  obtain ⟨q1, q2⟩ := q
  obtain ⟨p1, p2⟩ := p
  rw [get_neighbors_eq_spec]
  unfold neighborsSpec DIRECTIONS
  simp only [List.mem_filter, List.mem_cons, List.not_mem_nil, or_false, Prod.mk.injEq]
  constructor
  · rintro ⟨hmem, hv⟩
    rcases hmem with ⟨⟨h1, h2⟩, hc⟩ | ⟨⟨h1, h2⟩, hc⟩ | ⟨⟨h1, h2⟩, hc⟩ | ⟨⟨h1, h2⟩, hc⟩ |
      ⟨⟨h1, h2⟩, hc⟩ | ⟨⟨h1, h2⟩, hc⟩ <;>
      exact ⟨by omega, hv, by rw [hc]; split_ifs with hd <;> first | rfl | (exfalso; omega)⟩
  · rintro ⟨hdir, hv, hc⟩
    subst hc
    refine ⟨?_, hv⟩
    rcases hdir with h | h | h | h | h | h
    · exact Or.inl ⟨⟨by omega, by omega⟩,
        by split_ifs with hd <;> first | rfl | (exfalso; omega)⟩
    · exact Or.inr (Or.inl ⟨⟨by omega, by omega⟩,
        by split_ifs with hd <;> first | rfl | (exfalso; omega)⟩)
    · exact Or.inr (Or.inr (Or.inl ⟨⟨by omega, by omega⟩,
        by split_ifs with hd <;> first | rfl | (exfalso; omega)⟩))
    · exact Or.inr (Or.inr (Or.inr (Or.inl ⟨⟨by omega, by omega⟩,
        by split_ifs with hd <;> first | rfl | (exfalso; omega)⟩)))
    · exact Or.inr (Or.inr (Or.inr (Or.inr (Or.inl ⟨⟨by omega, by omega⟩,
        by split_ifs with hd <;> first | rfl | (exfalso; omega)⟩))))
    · exact Or.inr (Or.inr (Or.inr (Or.inr (Or.inr ⟨⟨by omega, by omega⟩,
        by split_ifs with hd <;> first | rfl | (exfalso; omega)⟩))))

theorem stepRel_iff (g : Grid) (a b : Pos) :
    stepRel g a b ↔ (b.1 - a.1, b.2 - a.2) ∈ DIRECTIONS ∧ is_valid g b = true := by
  unfold stepRel
  rw [List.mem_map]
  constructor
  · rintro ⟨e, he, rfl⟩
    obtain ⟨e1, e2⟩ := e
    have := (mem_get_neighbors_iff g a e1 e2).1 he
    exact ⟨this.1, this.2.1⟩
  · rintro ⟨hd, hv⟩
    exact ⟨(b, if b.1 ≠ a.1 ∧ b.2 ≠ a.2 then (1.414 : ℚ) else 1),
      (mem_get_neighbors_iff g a b _).2 ⟨hd, hv, rfl⟩, rfl⟩

theorem stepRel_valid (g : Grid) (a b : Pos) (h : stepRel g a b) : is_valid g b = true :=
  ((stepRel_iff g a b).1 h).2

/-- The direction set is closed under negation, so the move relation is
symmetric between valid cells. -/
theorem stepRel_symm (g : Grid) (a b : Pos) (h : stepRel g a b)
    (ha : is_valid g a = true) : stepRel g b a := by
  rw [stepRel_iff] at h ⊢
  refine ⟨?_, ha⟩
  have hd := h.1
  simp only [DIRECTIONS, List.mem_cons, Prod.mk.injEq, List.not_mem_nil, or_false] at hd ⊢
  omega

theorem moveCost_pos (a b : Pos) : 0 < moveCost a b := by
  unfold moveCost
  split_ifs <;> norm_num

theorem moveCost_of_mem (g : Grid) (a b : Pos) (c : ℚ) (h : (b, c) ∈ get_neighbors g a) :
    c = moveCost a b := by
  have := ((mem_get_neighbors_iff g a b c).1 h).2.2
  unfold moveCost
  rw [this]
  split_ifs with h1 h2 <;> first | rfl | (exfalso; omega)

theorem moveCost_mem (g : Grid) (a b : Pos) (h : stepRel g a b) :
    (b, moveCost a b) ∈ get_neighbors g a := by
  rw [stepRel_iff] at h
  refine (mem_get_neighbors_iff g a b _).2 ⟨h.1, h.2, ?_⟩
  unfold moveCost
  split_ifs with h1 h2 <;> first | rfl | (exfalso; omega)

/-! Walks. -/

theorem walkFrom_singleton (g : Grid) (a : Pos) : WalkFrom g a [a] a := by
  refine ⟨rfl, rfl, ?_⟩
  simp [ValidSteps]

theorem walkFrom_ne_nil (g : Grid) (a b : Pos) (l : List Pos) (h : WalkFrom g a l b) :
    l ≠ [] := by
  rintro rfl
  simp [WalkFrom] at h

theorem chain'_append_singleton {α : Type _} (R : α → α → Prop) (l : List α) (x y : α)
    (h : List.Chain' R l) (hl : l.getLast? = some x) (hr : R x y) :
    List.Chain' R (l ++ [y]) := by
  rw [List.chain'_append]
  refine ⟨h, List.chain'_singleton y, ?_⟩
  intro a ha b hb
  rw [hl] at ha
  simp at ha hb
  subst ha
  subst hb
  exact hr

theorem walkFrom_snoc (g : Grid) (a b y : Pos) (l : List Pos) (h : WalkFrom g a l b)
    (hs : stepRel g b y) : WalkFrom g a (l ++ [y]) y := by
  obtain ⟨h1, h2, h3⟩ := h
  refine ⟨?_, ?_, chain'_append_singleton _ _ _ _ h3 h2 hs⟩
  · rw [List.head?_append_of_ne_nil]
    · exact h1
    · exact walkFrom_ne_nil g a b l ⟨h1, h2, h3⟩
  · simp

theorem chain'_reflTransGen {α : Type _} (R : α → α → Prop) :
    ∀ (l : List α) (a b : α), l.head? = some a → l.getLast? = some b → List.Chain' R l →
      Relation.ReflTransGen R a b
  | [], _, _, h, _, _ => by simp at h
  | [x], a, b, h1, h2, _ => by
    simp at h1 h2
    subst h1
    subst h2
    exact Relation.ReflTransGen.refl
  | x :: y :: t, a, b, h1, h2, h3 => by
    simp only [List.head?_cons, Option.some.injEq] at h1
    subst h1
    rw [List.chain'_cons] at h3
    have h2b : (y :: t).getLast? = some b := by rwa [List.getLast?_cons_cons] at h2
    exact Relation.ReflTransGen.head h3.1 (chain'_reflTransGen R (y :: t) y b rfl h2b h3.2)

theorem walkFrom_reach (g : Grid) (a b : Pos) (l : List Pos) (h : WalkFrom g a l b) :
    Reach g a b :=
  chain'_reflTransGen (stepRel g) l a b h.1 h.2.1 h.2.2

theorem reach_walkFrom (g : Grid) (a b : Pos) (h : Reach g a b) :
    ∃ l, WalkFrom g a l b := by
  induction h with
  | refl => exact ⟨[a], walkFrom_singleton g a⟩
  | tail _ hs ih =>
    obtain ⟨l, hl⟩ := ih
    exact ⟨l ++ [_], walkFrom_snoc g _ _ _ l hl hs⟩

theorem walkCost_nonneg (l : List Pos) : 0 ≤ walkCost l := by
  induction l with
  | nil => simp [walkCost]
  | cons a t ih =>
    cases t with
    | nil => simp [walkCost]
    | cons b r =>
      rw [walkCost]
      have := moveCost_pos a b
      linarith [ih]

/-! Parent maps and parent chains. -/

theorem pmMem_iff_keys (m : ParentMap) (x : Pos) :
    pmMem m x = true ↔ x ∈ m.map Prod.fst := by
  induction m with
  | nil => simp [pmMem, pmLookup]
  | cons e rest ih =>
    obtain ⟨k, v⟩ := e
    show (pmLookup ((k, v) :: rest) x).isSome = true ↔ _
    rw [pmLookup]
    by_cases h : k = x
    · subst h
      simp
    · rw [if_neg h]
      simp only [List.map_cons, List.mem_cons]
      rw [show (pmLookup rest x).isSome = true ↔ pmMem rest x = true from Iff.rfl, ih]
      constructor
      · exact Or.inr
      · rintro (h1 | h1)
        · exact absurd h1.symm h
        · exact h1

/-- The full parent chain of `x`: the list runs from the chain's root (a node
whose `get` is `None`) down to `x`, each node recorded as the `get` of its
successor. -/
inductive Chain (m : ParentMap) : Pos → List Pos → Prop
  | root (x : Pos) : pmGet m x = none → Chain m x [x]
  | step (x y : Pos) (l : List Pos) : pmGet m x = some y → Chain m y l → Chain m x (l ++ [x])

theorem chain_getLast (m : ParentMap) (x : Pos) (l : List Pos) (h : Chain m x l) :
    l.getLast? = some x := by
  cases h with
  | root _ _ => rfl
  | step _ y l hg hc => simp

theorem chain_ne_nil (m : ParentMap) (x : Pos) (l : List Pos) (h : Chain m x l) :
    l ≠ [] := by
  intro he
  have := chain_getLast m x l h
  rw [he] at this
  simp at this

theorem chain_mem_self (m : ParentMap) (x : Pos) (l : List Pos) (h : Chain m x l) :
    x ∈ l := by
  cases h with
  | root _ _ => exact List.mem_singleton_self x
  | step _ y l2 hg hc => exact List.mem_append_right l2 (List.mem_singleton_self x)

/-- A parent chain survives any map extension whose new key lies outside the
chain: every lookup the chain makes is unchanged. -/
theorem chain_cons_of_not_mem (m : ParentMap) (k : Pos) (v : Option Pos) (x : Pos)
    (l : List Pos) (h : Chain m x l) (hk : k ∉ l) : Chain ((k, v) :: m) x l := by
  induction h with
  | root z hz =>
    refine Chain.root z ?_
    have hne : k ≠ z := by
      intro he
      subst he
      exact hk (List.mem_singleton_self k)
    rw [pmGet, pmLookup, if_neg hne]
    rw [pmGet] at hz
    exact hz
  | step z y l2 hg hc ih =>
    have hkz : k ≠ z := by
      intro he
      subst he
      exact hk (List.mem_append_right l2 (List.mem_singleton_self k))
    have hkl : k ∉ l2 := fun hm => hk (List.mem_append_left [z] hm)
    refine Chain.step z y l2 ?_ (ih hkl)
    rw [pmGet, pmLookup, if_neg hkz]
    rw [pmGet] at hg
    exact hg

theorem nodup_length_le_keys (m : ParentMap) (l : List Pos) (hnd : l.Nodup)
    (h : ∀ y ∈ l, pmMem m y = true) : l.length ≤ m.length := by
  have h1 : l.length = l.toFinset.card := (List.toFinset_card_of_nodup hnd).symm
  have h2 : l.toFinset ⊆ (m.map Prod.fst).toFinset := by
    intro y hy
    rw [List.mem_toFinset] at hy ⊢
    exact (pmMem_iff_keys m y).1 (h y hy)
  calc l.length = l.toFinset.card := h1
    _ ≤ (m.map Prod.fst).toFinset.card := Finset.card_le_card h2
    _ ≤ (m.map Prod.fst).length := (m.map Prod.fst).toFinset_card_le
    _ = m.length := List.length_map m Prod.fst

theorem reconstructGo_of_chain (m : ParentMap) :
    ∀ (x : Pos) (l : List Pos), Chain m x l → ∀ (fuel : ℕ) (acc : List Pos),
      l.length ≤ fuel + 1 → reconstructGo m fuel x acc = l.dropLast ++ acc := by
  intro x l h
  induction h with
  | root z hz =>
    intro fuel acc _
    cases fuel with
    | zero => rfl
    | succ f => simp [reconstructGo, hz]
  | step z y l2 hg hc ih =>
    intro fuel acc hlen
    have hl2 : l2 ≠ [] := chain_ne_nil m y l2 hc
    have hlp : 1 ≤ l2.length := List.length_pos.2 hl2
    cases fuel with
    | zero =>
      exfalso
      rw [List.length_append, List.length_singleton] at hlen
      omega
    | succ f =>
      have hred : reconstructGo m (f + 1) z acc = reconstructGo m f y (y :: acc) := by
        rw [reconstructGo, hg]
      rw [hred, ih f (y :: acc) (by
        rw [List.length_append, List.length_singleton] at hlen; omega)]
      have hlast : l2.getLast? = some y := chain_getLast m y l2 hc
      have hsplit : l2.dropLast ++ [y] = l2 := by
        conv_rhs => rw [← List.dropLast_append_getLast hl2]
        congr 1
        rw [List.getLast?_eq_getLast _ hl2] at hlast
        simp at hlast
        rw [hlast]
      calc l2.dropLast ++ y :: acc = (l2.dropLast ++ [y]) ++ acc := by simp
        _ = l2 ++ acc := by rw [hsplit]
        _ = (l2 ++ [z]).dropLast ++ acc := by rw [List.dropLast_concat]

/-- With the fuel `reconstruct_path` passes, a duplicate-free chain whose
nodes are all keys of the map is reproduced exactly. -/
theorem reconstruct_path_of_chain (m : ParentMap) (x : Pos) (l : List Pos)
    (h : Chain m x l) (hnd : l.Nodup) (hkeys : ∀ y ∈ l, pmMem m y = true) :
    reconstruct_path m x = l := by
  unfold reconstruct_path
  have hlen : l.length ≤ m.length := nodup_length_le_keys m l hnd hkeys
  rw [reconstructGo_of_chain m x l h (m.length + 1) [x] (by omega)]
  have hlast : l.getLast? = some x := chain_getLast m x l h
  have hne : l ≠ [] := chain_ne_nil m x l h
  conv_rhs => rw [← List.dropLast_append_getLast hne]
  congr 1
  rw [List.getLast?_eq_getLast _ hne] at hlast
  simp at hlast
  rw [hlast]

theorem walkParents_of_chain (m : ParentMap) :
    ∀ (x : Pos) (l : List Pos), Chain m x l → ∀ fuel : ℕ, l.length ≤ fuel →
      walkParents m fuel (some x) = l.reverse := by
  intro x l h
  induction h with
  | root z hz =>
    intro fuel hlen
    cases fuel with
    | zero => simp at hlen
    | succ f =>
      rw [walkParents, hz]
      cases f <;> simp [walkParents]
  | step z y l2 hg hc ih =>
    intro fuel hlen
    cases fuel with
    | zero =>
      exfalso
      rw [List.length_append, List.length_singleton] at hlen
      omega
    | succ f =>
      have hred : walkParents m (f + 1) (some z) = z :: walkParents m f (pmGet m z) := by
        rw [walkParents]
      rw [hred, hg, ih f (by
        rw [List.length_append, List.length_singleton] at hlen; omega)]
      simp

/-! Step-trace predicates. -/

/-- Sizes of the visited snapshots are non-decreasing from each step to the
next. -/
def SizesMono (steps : List Step) : Prop :=
  List.Chain' (fun a b => a.visited.card ≤ b.visited.card) steps

/-- Executable check for `SizesMono`. -/
def sizesMonoB : List Step → Bool
  | [] => true
  | [_] => true
  | a :: b :: rest => decide (a.visited.card ≤ b.visited.card) && sizesMonoB (b :: rest)

theorem sizesMonoB_iff : ∀ steps : List Step, sizesMonoB steps = true ↔ SizesMono steps
  | [] => by simp [sizesMonoB, SizesMono]
  | [st] => by simp [sizesMonoB, SizesMono]
  | a :: b :: rest => by
    rw [SizesMono, List.chain'_cons]
    simp only [sizesMonoB, Bool.and_eq_true, decide_eq_true_eq]
    rw [sizesMonoB_iff (b :: rest)]
    rfl

instance (steps : List Step) : Decidable (SizesMono steps) :=
  decidable_of_iff _ (sizesMonoB_iff steps)

/-- Every snapshot's visited set contains only positions that appeared as the
`current` of a strictly earlier step. -/
def VisitedOnlyPopped (steps : List Step) : Prop :=
  ∀ i (h : i < steps.length), ∀ p ∈ (steps.get ⟨i, h⟩).visited,
    p ∈ (steps.take i).map Step.current

/-- Executable check for `VisitedOnlyPopped`, accumulating the earlier
currents. -/
def vopB : List Pos → List Step → Bool
  | _, [] => true
  | cs, st :: rest =>
    decide (∀ p ∈ st.visited, p ∈ cs) && vopB (cs ++ [st.current]) rest

theorem vopB_iff :
    ∀ (steps : List Step) (cs : List Pos),
      vopB cs steps = true ↔
        ∀ i (h : i < steps.length), ∀ p ∈ (steps.get ⟨i, h⟩).visited,
          p ∈ cs ++ (steps.take i).map Step.current
  | [], cs => by simp [vopB]
  | st :: rest, cs => by
    simp only [vopB, Bool.and_eq_true, decide_eq_true_eq]
    rw [vopB_iff rest (cs ++ [st.current])]
    constructor
    · rintro ⟨h0, hr⟩ i hi p hp
      match i, hi with
      | 0, _ => simpa using h0 p hp
      | j + 1, hj =>
        have := hr j (by simpa using hj) p hp
        simpa [List.append_assoc] using this
    · intro h
      refine ⟨fun p hp => by simpa using h 0 (by simp) p hp, fun j hj p hp => ?_⟩
      have := h (j + 1) (by simpa using hj) p hp
      simpa [List.append_assoc] using this

instance (steps : List Step) : Decidable (VisitedOnlyPopped steps) :=
  decidable_of_iff _ ((vopB_iff steps []).trans (Iff.of_eq (by rfl)))

theorem sizesMono_append (steps : List Step) (st : Step)
    (h : SizesMono steps) (hle : ∀ s ∈ steps, s.visited.card ≤ st.visited.card) :
    SizesMono (steps ++ [st]) := by
  unfold SizesMono at *
  rw [List.chain'_append]
  refine ⟨h, List.chain'_singleton st, ?_⟩
  intro a ha b hb
  simp at hb
  subst hb
  exact hle a (List.mem_of_mem_getLast? ha)

theorem vop_append (steps : List Step) (st : Step)
    (h : VisitedOnlyPopped steps)
    (hsub : ∀ p ∈ st.visited, p ∈ steps.map Step.current) :
    VisitedOnlyPopped (steps ++ [st]) := by
  intro i hi p hp
  rw [List.length_append, List.length_singleton] at hi
  by_cases hlt : i < steps.length
  · have hget : (steps ++ [st]).get ⟨i, by rw [List.length_append]; omega⟩ =
        steps.get ⟨i, hlt⟩ := List.get_append i hlt
    rw [List.take_append_of_le_length (by omega)]
    exact h i hlt p (by rw [← hget]; exact hp)
  · have hieq : i = steps.length := by omega
    subst hieq
    have hget : (steps ++ [st]).get ⟨steps.length, by simp⟩ = st := by
      rw [List.get_append_right] <;> simp
    rw [hget] at hp
    rw [List.take_append_of_le_length (le_refl _), List.take_length]
    exact hsub p hp

/-! Concrete grids used as witnesses and counterexamples. -/

/-- A 2 by 2 wall-free grid. -/
def gridA : Grid := { rows := 2, cols := 2, start := (0, 0), goal := (1, 1), walls := ∅ }

/-- A 1 by 3 wall-free corridor. -/
def gridLine3 : Grid := { rows := 1, cols := 3, start := (0, 0), goal := (0, 2), walls := ∅ }

/-- A 1 by 2 wall-free corridor. -/
def gridPair : Grid := { rows := 1, cols := 2, start := (0, 0), goal := (0, 1), walls := ∅ }

/-- A 1 by 3 corridor whose middle cell is a wall: goal unreachable. -/
def gridBlocked : Grid :=
  { rows := 1, cols := 3, start := (0, 0), goal := (0, 2), walls := {(0, 1)} }

/-- A 4 by 4 wall-free grid on which `dls` with limit 5 returns a 7-cell path. -/
def gridC4 : Grid := { rows := 4, cols := 4, start := (0, 2), goal := (3, 0), walls := ∅ }

/-- A 1 by 18 corridor: the only route has 17 edges, beyond `dls`'s default
limit of 15. -/
def gridLine18 : Grid := { rows := 1, cols := 18, start := (0, 0), goal := (0, 17), walls := ∅ }

/-! Claim C8: `get_neighbors` characterization. -/

/-- C8: for every grid and position, `get_neighbors` returns exactly the
in-bounds non-wall neighbors, in the fixed clockwise order up, right, down,
down-right, left, up-left, with cost `1.0` on orthogonal moves and `1.414` on
the two diagonal moves (`neighborsSpec` is that spec-side list, and the
membership equivalence spells out "exactly"). -/
theorem get_neighbors_exact :
    ∀ (g : Grid) (p : Pos),
      get_neighbors g p = neighborsSpec g p ∧
      ∀ q c, (q, c) ∈ get_neighbors g p ↔
        ((q.1 - p.1, q.2 - p.2) ∈ DIRECTIONS ∧ is_valid g q = true ∧
          c = if q.1 ≠ p.1 ∧ q.2 ≠ p.2 then (1.414 : ℚ) else 1) :=
  fun g p => ⟨get_neighbors_eq_spec g p, fun q c => mem_get_neighbors_iff g p q c⟩

/-! Claim C9: determinism. -/

/-- Identical results: traces of the same length with equal current, frontier
and visited at every index, and equal paths. -/
def TraceIdent (r1 r2 : List Step × List Pos) : Prop :=
  r1.1.length = r2.1.length ∧
  (∀ i (h1 : i < r1.1.length) (h2 : i < r2.1.length),
    (r1.1.get ⟨i, h1⟩).current = (r2.1.get ⟨i, h2⟩).current ∧
    (r1.1.get ⟨i, h1⟩).frontier = (r2.1.get ⟨i, h2⟩).frontier ∧
    (r1.1.get ⟨i, h1⟩).visited = (r2.1.get ⟨i, h2⟩).visited) ∧
  r1.2 = r2.2

theorem traceIdent_refl (r : List Step × List Pos) : TraceIdent r r :=
  ⟨rfl, fun _ _ _ => ⟨rfl, rfl, rfl⟩, rfl⟩

/-- C9: each of the six search functions is deterministic — two invocations on
equal grids produce identical step traces and identical paths. -/
theorem search_deterministic :
    ∀ g1 g2 : Grid, WellFormed g1 → g1 = g2 →
      TraceIdent (bfs g1) (bfs g2) ∧ TraceIdent (dfs g1) (dfs g2) ∧
      TraceIdent (ucs g1) (ucs g2) ∧ (∀ L, TraceIdent (dls g1 L) (dls g2 L)) ∧
      TraceIdent (iddfs g1) (iddfs g2) ∧ TraceIdent (bidirectional g1) (bidirectional g2) := by
  rintro g1 g2 _ rfl
  exact ⟨traceIdent_refl _, traceIdent_refl _, traceIdent_refl _, fun _ => traceIdent_refl _,
    traceIdent_refl _, traceIdent_refl _⟩

/-- Witness for C9 at the concrete 2 by 2 grid. -/
theorem search_deterministic_witness :
    WellFormed gridA ∧ TraceIdent (bfs gridA) (bfs gridA) ∧
      TraceIdent (dls gridA 15) (dls gridA 15) :=
  ⟨by decide, (search_deterministic gridA gridA (by decide) rfl).1,
    (search_deterministic gridA gridA (by decide) rfl).2.2.2.1 15⟩


/-! Fuel sufficiency: the loops never exhaust the fuel their wrappers pass. -/

theorem mem_validCells (g : Grid) (p : Pos) : p ∈ validCells g ↔ is_valid g p = true := by
  unfold validCells
  rw [Finset.mem_filter]
  constructor
  · rintro ⟨_, hv⟩
    exact hv
  · intro hv
    refine ⟨?_, hv⟩
    rw [Finset.mem_image]
    have hb := (is_valid_iff g p).1 hv
    refine ⟨(p.1.toNat, p.2.toNat), ?_, ?_⟩
    · rw [Finset.mem_product, Finset.mem_range, Finset.mem_range]
      constructor <;> omega
    · have h1 : (p.1.toNat : ℤ) = p.1 := Int.toNat_of_nonneg hb.1
      have h2 : (p.2.toNat : ℤ) = p.2 := Int.toNat_of_nonneg hb.2.2.1
      exact Prod.ext h1 h2

theorem get_neighbors_valid (g : Grid) (p : Pos) :
    ∀ e ∈ get_neighbors g p, is_valid g e.1 = true := by
  intro e he
  obtain ⟨e1, e2⟩ := e
  exact ((mem_get_neighbors_iff g p e1 e2).1 he).2.1

theorem get_neighbors_length_le (g : Grid) (p : Pos) : (get_neighbors g p).length ≤ 6 := by
  unfold get_neighbors
  rw [List.length_map]
  calc (DIRECTIONS.filter _).length ≤ DIRECTIONS.length := List.length_filter_le _ _
    _ = 6 := rfl

theorem bfsPush_measure (g : Grid) (c : Pos) (vis : Finset Pos) :
    ∀ (list : List (Pos × ℚ)) (q : List Pos) (iq : Finset Pos) (cf : ParentMap),
      (∀ e ∈ list, is_valid g e.1 = true) →
      (bfsPush c vis list q iq cf).1.length +
          (validCells g \ (vis ∪ (bfsPush c vis list q iq cf).2.1)).card ≤
        q.length + (validCells g \ (vis ∪ iq)).card := by
  intro list
  induction list with
  | nil =>
    intro q iq cf _
    simp [bfsPush]
  | cons e rest ih =>
    intro q iq cf h
    obtain ⟨nbr, cost⟩ := e
    rw [bfsPush]
    by_cases hg : nbr ∉ vis ∧ nbr ∉ iq
    · rw [if_pos hg]
      refine (ih (q ++ [nbr]) (insert nbr iq) ((nbr, some c) :: cf)
        (fun e he => h e (List.mem_cons_of_mem _ he))).trans ?_
      rw [List.length_append, List.length_singleton]
      have hnm : nbr ∈ validCells g \ (vis ∪ iq) := by
        rw [Finset.mem_sdiff, Finset.mem_union]
        exact ⟨(mem_validCells g nbr).2 (h _ (List.mem_cons_self _ _)), by tauto⟩
      have hcard : (validCells g \ (vis ∪ insert nbr iq)).card + 1 =
          (validCells g \ (vis ∪ iq)).card := by
        rw [Finset.union_insert, Finset.sdiff_insert,
          Finset.card_erase_of_mem hnm]
        have : 0 < (validCells g \ (vis ∪ iq)).card := Finset.card_pos.2 ⟨nbr, hnm⟩
        omega
      omega
    · rw [if_neg hg]
      exact ih q iq cf fun e he => h e (List.mem_cons_of_mem _ he)

/-- The loop measure of `bfs`: strictly decreases every iteration. -/
def bfsMeasure (g : Grid) (s : BfsState) : ℕ :=
  s.queue.length + 1 + (validCells g \ (s.visited ∪ s.in_queue)).card

theorem bfsLoop_total (g : Grid) :
    ∀ (fuel : ℕ) (s : BfsState), bfsMeasure g s ≤ fuel → bfsLoop g fuel s ≠ none := by
  intro fuel
  induction fuel with
  | zero =>
    intro s hm
    unfold bfsMeasure at hm
    omega
  | succ f ih =>
    intro s hm
    rw [bfsLoop]
    cases hq : s.queue with
    | nil => simp
    | cons current rest =>
      dsimp only
      split_ifs with hgoal hvis
      · simp
      · -- skip branch
        apply ih
        unfold bfsMeasure at hm ⊢
        dsimp only
        have hsets : s.visited ∪ s.in_queue.erase current = s.visited ∪ s.in_queue := by
          ext x
          simp only [Finset.mem_union, Finset.mem_erase]
          constructor
          · rintro (hx | ⟨_, hx⟩)
            · exact Or.inl hx
            · exact Or.inr hx
          · rintro (hx | hx)
            · exact Or.inl hx
            · by_cases hxc : x = current
              · exact Or.inl (hxc ▸ hvis)
              · exact Or.inr ⟨hxc, hx⟩
        rw [hsets]
        rw [hq] at hm
        rw [List.length_cons] at hm
        omega
      · -- expand branch
        apply ih
        unfold bfsMeasure at hm ⊢
        dsimp only
        have hpush := bfsPush_measure g current (insert current s.visited)
          (get_neighbors g current) rest (s.in_queue.erase current) s.came_from
          (get_neighbors_valid g current)
        have hmono : (validCells g \ (insert current s.visited ∪ s.in_queue.erase current)).card ≤
            (validCells g \ (s.visited ∪ s.in_queue)).card := by
          apply Finset.card_le_card
          apply Finset.sdiff_subset_sdiff (Finset.Subset.refl _)
          intro x hx
          rw [Finset.mem_union] at hx ⊢
          rcases hx with hx | hx
          · exact Or.inl (Finset.mem_insert_of_mem hx)
          · by_cases hxc : x = current
            · exact Or.inl (hxc ▸ Finset.mem_insert_self _ _)
            · exact Or.inr (Finset.mem_erase.2 ⟨hxc, hx⟩)
        rw [hq, List.length_cons] at hm
        omega

theorem bfs_run (g : Grid) : bfsLoop g (bfsFuel g) (bfsInit g) = some (bfs g) := by
  have htot : bfsLoop g (bfsFuel g) (bfsInit g) ≠ none := by
    apply bfsLoop_total
    unfold bfsMeasure bfsInit bfsFuel
    dsimp only
    have : (validCells g \ (∅ ∪ {g.start})).card ≤ (validCells g).card :=
      Finset.card_le_card Finset.sdiff_subset
    simp only [List.length_singleton]
    omega
  cases hr : bfsLoop g (bfsFuel g) (bfsInit g) with
  | none => exact absurd hr htot
  | some r =>
    unfold bfs
    rw [hr]
    rfl


theorem dfsPush_stack (c : Pos) (vis : Finset Pos) :
    ∀ (list : List (Pos × ℚ)) (st : List Pos) (cf : ParentMap),
      (dfsPush c vis list st cf).1.length ≤ st.length + list.length ∧
      ∀ x ∈ (dfsPush c vis list st cf).1, x ∈ st ∨ ∃ e ∈ list, e.1 = x := by
  intro list
  induction list with
  | nil =>
    intro st cf
    exact ⟨by simp [dfsPush], fun x hx => Or.inl (by simpa [dfsPush] using hx)⟩
  | cons e rest ih =>
    intro st cf
    obtain ⟨nbr, cost⟩ := e
    rw [dfsPush]
    by_cases hg : nbr ∉ vis
    · rw [if_pos hg]
      obtain ⟨hlen, hmem⟩ := ih (nbr :: st) (if pmMem cf nbr then cf else (nbr, some c) :: cf)
      refine ⟨by simpa using Nat.le_trans hlen (by simp [Nat.succ_le_succ_iff]; omega), ?_⟩
      intro x hx
      rcases hmem x hx with hx2 | ⟨e2, he2, hee⟩
      · rcases List.mem_cons.1 hx2 with rfl | hx3
        · exact Or.inr ⟨(x, cost), List.mem_cons_self _ _, rfl⟩
        · exact Or.inl hx3
      · exact Or.inr ⟨e2, List.mem_cons_of_mem _ he2, hee⟩
    · rw [if_neg hg]
      obtain ⟨hlen, hmem⟩ := ih st cf
      refine ⟨by simp only [List.length_cons]; omega, ?_⟩
      intro x hx
      rcases hmem x hx with hx2 | ⟨e2, he2, hee⟩
      · exact Or.inl hx2
      · exact Or.inr ⟨e2, List.mem_cons_of_mem _ he2, hee⟩

/-- The loop measure of `dfs`. -/
def dfsMeasure (g : Grid) (s : DfsState) : ℕ :=
  s.stack.length + 1 + 7 * (validCells g \ s.visited).card

theorem dfsLoop_total (g : Grid) :
    ∀ (fuel : ℕ) (s : DfsState), (∀ x ∈ s.stack, is_valid g x = true) →
      dfsMeasure g s ≤ fuel → dfsLoop g fuel s ≠ none := by
  intro fuel
  induction fuel with
  | zero =>
    intro s _ hm
    unfold dfsMeasure at hm
    omega
  | succ f ih =>
    intro s hsv hm
    rw [dfsLoop]
    cases hq : s.stack with
    | nil => simp
    | cons current rest =>
      dsimp only
      split_ifs with hgoal hvis
      · simp
      · apply ih
        · intro x hx
          exact hsv x (hq ▸ List.mem_cons_of_mem _ hx)
        · unfold dfsMeasure at hm ⊢
          rw [hq, List.length_cons] at hm
          dsimp only
          omega
      · have hcur : current ∈ validCells g :=
          (mem_validCells g current).2 (hsv current (hq ▸ List.mem_cons_self _ _))
        obtain ⟨hlen, hmem⟩ := dfsPush_stack current (insert current s.visited)
          (get_neighbors g current).reverse rest s.came_from
        apply ih
        · intro x hx
          rcases hmem x hx with hx2 | ⟨e2, he2, hee⟩
          · exact hsv x (hq ▸ List.mem_cons_of_mem _ hx2)
          · rw [List.mem_reverse] at he2
            exact hee ▸ get_neighbors_valid g current e2 he2
        · unfold dfsMeasure at hm ⊢
          rw [hq, List.length_cons] at hm
          dsimp only
          have hc1 : current ∈ validCells g \ s.visited := by
            rw [Finset.mem_sdiff]
            exact ⟨hcur, hvis⟩
          have hc2 : (validCells g \ insert current s.visited).card + 1 =
              (validCells g \ s.visited).card := by
            rw [Finset.sdiff_insert, Finset.card_erase_of_mem hc1]
            have : 0 < (validCells g \ s.visited).card := Finset.card_pos.2 ⟨current, hc1⟩
            omega
          have hn6 : (get_neighbors g current).reverse.length ≤ 6 := by
            rw [List.length_reverse]
            exact get_neighbors_length_le g current
          omega

theorem dfs_run (g : Grid) (hw : is_valid g g.start = true) :
    dfsLoop g (dfsFuel g) (dfsInit g) = some (dfs g) := by
  have htot : dfsLoop g (dfsFuel g) (dfsInit g) ≠ none := by
    apply dfsLoop_total g _ _ (by
      intro x hx
      simp only [dfsInit, List.mem_singleton] at hx
      exact hx ▸ hw)
    unfold dfsMeasure dfsInit dfsFuel
    dsimp only
    have : (validCells g \ ∅).card ≤ (validCells g).card :=
      Finset.card_le_card Finset.sdiff_subset
    simp only [List.length_singleton]
    omega
  cases hr : dfsLoop g (dfsFuel g) (dfsInit g) with
  | none => exact absurd hr htot
  | some r =>
    unfold dfs
    rw [hr]
    rfl

theorem dlsPush_stack (c : Pos) (d : ℕ) (vis : Finset Pos) :
    ∀ (list : List (Pos × ℚ)) (st : List (Pos × ℕ)) (cf : ParentMap),
      (dlsPush c d vis list st cf).1.length ≤ st.length + list.length ∧
      ∀ x ∈ (dlsPush c d vis list st cf).1, x ∈ st ∨ ∃ e ∈ list, e.1 = x.1 := by
  intro list
  induction list with
  | nil =>
    intro st cf
    exact ⟨by simp [dlsPush], fun x hx => Or.inl (by simpa [dlsPush] using hx)⟩
  | cons e rest ih =>
    intro st cf
    obtain ⟨nbr, cost⟩ := e
    rw [dlsPush]
    by_cases hg : nbr ∉ vis
    · rw [if_pos hg]
      obtain ⟨hlen, hmem⟩ := ih ((nbr, d + 1) :: st) (if pmMem cf nbr then cf else (nbr, some c) :: cf)
      refine ⟨by simpa using Nat.le_trans hlen (by simp [Nat.succ_le_succ_iff]; omega), ?_⟩
      intro x hx
      rcases hmem x hx with hx2 | ⟨e2, he2, hee⟩
      · rcases List.mem_cons.1 hx2 with rfl | hx3
        · exact Or.inr ⟨(nbr, cost), List.mem_cons_self _ _, rfl⟩
        · exact Or.inl hx3
      · exact Or.inr ⟨e2, List.mem_cons_of_mem _ he2, hee⟩
    · rw [if_neg hg]
      obtain ⟨hlen, hmem⟩ := ih st cf
      refine ⟨by simp only [List.length_cons]; omega, ?_⟩
      intro x hx
      rcases hmem x hx with hx2 | ⟨e2, he2, hee⟩
      · exact Or.inl hx2
      · exact Or.inr ⟨e2, List.mem_cons_of_mem _ he2, hee⟩

/-- The loop measure of `dls`. -/
def dlsMeasure (g : Grid) (s : DlsState) : ℕ :=
  s.stack.length + 1 + 7 * (validCells g \ s.visited).card

theorem dlsLoop_total (g : Grid) (limit : ℕ) :
    ∀ (fuel : ℕ) (s : DlsState), (∀ x ∈ s.stack, is_valid g x.1 = true) →
      dlsMeasure g s ≤ fuel → dlsLoop g limit fuel s ≠ none := by
  intro fuel
  induction fuel with
  | zero =>
    intro s _ hm
    unfold dlsMeasure at hm
    omega
  | succ f ih =>
    intro s hsv hm
    rw [dlsLoop]
    cases hq : s.stack with
    | nil => simp
    | cons ent rest =>
      obtain ⟨current, depth⟩ := ent
      dsimp only
      split_ifs with hgoal hvis
      · simp
      · apply ih
        · intro x hx
          exact hsv x (hq ▸ List.mem_cons_of_mem _ hx)
        · unfold dlsMeasure at hm ⊢
          rw [hq, List.length_cons] at hm
          dsimp only
          omega
      · push_neg at hvis
        have hcur : current ∈ validCells g :=
          (mem_validCells g current).2 (hsv (current, depth) (hq ▸ List.mem_cons_self _ _))
        obtain ⟨hlen, hmem⟩ := dlsPush_stack current depth (insert current s.visited)
          (get_neighbors g current).reverse rest s.came_from
        apply ih
        · intro x hx
          rcases hmem x hx with hx2 | ⟨e2, he2, hee⟩
          · exact hsv x (hq ▸ List.mem_cons_of_mem _ hx2)
          · rw [List.mem_reverse] at he2
            exact hee ▸ get_neighbors_valid g current e2 he2
        · unfold dlsMeasure at hm ⊢
          rw [hq, List.length_cons] at hm
          dsimp only
          have hc1 : current ∈ validCells g \ s.visited := by
            rw [Finset.mem_sdiff]
            exact ⟨hcur, hvis.1⟩
          have hc2 : (validCells g \ insert current s.visited).card + 1 =
              (validCells g \ s.visited).card := by
            rw [Finset.sdiff_insert, Finset.card_erase_of_mem hc1]
            have : 0 < (validCells g \ s.visited).card := Finset.card_pos.2 ⟨current, hc1⟩
            omega
          have hn6 : (get_neighbors g current).reverse.length ≤ 6 := by
            rw [List.length_reverse]
            exact get_neighbors_length_le g current
          omega

theorem dls_run (g : Grid) (limit : ℕ) (hw : is_valid g g.start = true) :
    dlsLoop g limit (dlsFuel g) (dlsInit g) = some (dls g limit) := by
  have htot : dlsLoop g limit (dlsFuel g) (dlsInit g) ≠ none := by
    apply dlsLoop_total g limit _ _ (by
      intro x hx
      simp only [dlsInit, List.mem_singleton] at hx
      rw [hx]
      exact hw)
    · unfold dlsMeasure dlsInit dlsFuel
      dsimp only
      have : (validCells g \ ∅).card ≤ (validCells g).card :=
        Finset.card_le_card Finset.sdiff_subset
      simp only [List.length_singleton]
      omega
  cases hr : dlsLoop g limit (dlsFuel g) (dlsInit g) with
  | none => exact absurd hr htot
  | some r =>
    unfold dls
    rw [hr]
    rfl


theorem ucsRelax_heap (c : Pos) (cc : ℚ) :
    ∀ (list : List (Pos × ℚ)) (ctr : ℕ) (h : List UEntry) (cf : ParentMap) (cs : CostMap),
      (ucsRelax c cc list ctr h cf cs).2.1.length ≤ h.length + list.length ∧
      ∀ e ∈ (ucsRelax c cc list ctr h cf cs).2.1, e ∈ h ∨ ∃ d ∈ list, d.1 = e.2.2 := by
  intro list
  induction list with
  | nil =>
    intro ctr h cf cs
    exact ⟨by simp [ucsRelax], fun e he => Or.inl (by simpa [ucsRelax] using he)⟩
  | cons d rest ih =>
    intro ctr h cf cs
    obtain ⟨nbr, ec⟩ := d
    rw [ucsRelax]
    have hcase : ∀ ctr2 h2 cf2 cs2, h2.length ≤ h.length + 1 →
        (∀ e ∈ h2, e ∈ h ∨ e.2.2 = nbr) →
        (ucsRelax c cc rest ctr2 h2 cf2 cs2).2.1.length ≤ h.length + (rest.length + 1) ∧
        ∀ e ∈ (ucsRelax c cc rest ctr2 h2 cf2 cs2).2.1,
          e ∈ h ∨ ∃ d2 ∈ (nbr, ec) :: rest, d2.1 = e.2.2 := by
      intro ctr2 h2 cf2 cs2 hlen2 hmem2
      obtain ⟨hlen, hmem⟩ := ih ctr2 h2 cf2 cs2
      constructor
      · omega
      · intro e he
        rcases hmem e he with he2 | ⟨d2, hd2, hdd⟩
        · rcases hmem2 e he2 with he3 | he3
          · exact Or.inl he3
          · exact Or.inr ⟨(nbr, ec), List.mem_cons_self _ _, he3.symm⟩
        · exact Or.inr ⟨d2, List.mem_cons_of_mem _ hd2, hdd⟩
    have hins : ∀ val ctr3, (h.orderedInsert entryLE (val, ctr3, nbr)).length ≤ h.length + 1 ∧
        ∀ e ∈ h.orderedInsert entryLE (val, ctr3, nbr), e ∈ h ∨ e.2.2 = nbr := by
      intro val ctr3
      constructor
      · rw [List.orderedInsert_length]
      · intro e he
        rcases (List.mem_orderedInsert entryLE).1 he with he2 | he2
        · exact Or.inr (by rw [he2])
        · exact Or.inl he2
    cases hlk : csLookup cs nbr with
    | some old =>
      dsimp only
      split_ifs with hlt
      · obtain ⟨h1, h2⟩ := hins (cc + ec) (ctr + 1)
        exact hcase _ _ _ _ h1 h2
      · have := hcase ctr h cf cs (by omega) (fun e he => Or.inl he)
        simpa [List.length_cons] using this
    | none =>
      dsimp only
      obtain ⟨h1, h2⟩ := hins (cc + ec) (ctr + 1)
      exact hcase _ _ _ _ h1 h2

/-- The loop measure of `ucs`. -/
def ucsMeasure (g : Grid) (s : UcsState) : ℕ :=
  s.heap.length + 1 + 7 * (validCells g \ s.visited).card

theorem ucsLoop_total (g : Grid) :
    ∀ (fuel : ℕ) (s : UcsState), (∀ e ∈ s.heap, is_valid g e.2.2 = true) →
      ucsMeasure g s ≤ fuel → ucsLoop g fuel s ≠ none := by
  intro fuel
  induction fuel with
  | zero =>
    intro s _ hm
    unfold ucsMeasure at hm
    omega
  | succ f ih =>
    intro s hsv hm
    rw [ucsLoop]
    cases hq : s.heap with
    | nil => simp
    | cons ent rest =>
      obtain ⟨curCost, ctr0, current⟩ := ent
      dsimp only
      split_ifs with hgoal hvis
      · simp
      · apply ih
        · intro x hx
          exact hsv x (hq ▸ List.mem_cons_of_mem _ hx)
        · unfold ucsMeasure at hm ⊢
          rw [hq, List.length_cons] at hm
          dsimp only
          omega
      · have hcur : current ∈ validCells g :=
          (mem_validCells g current).2 (hsv (curCost, ctr0, current) (hq ▸ List.mem_cons_self _ _))
        obtain ⟨hlen, hmem⟩ := ucsRelax_heap current curCost (get_neighbors g current)
          s.counter rest s.came_from s.cost_so_far
        apply ih
        · intro x hx
          rcases hmem x hx with hx2 | ⟨e2, he2, hee⟩
          · exact hsv x (hq ▸ List.mem_cons_of_mem _ hx2)
          · exact hee ▸ get_neighbors_valid g current e2 he2
        · unfold ucsMeasure at hm ⊢
          rw [hq, List.length_cons] at hm
          dsimp only
          have hc1 : current ∈ validCells g \ s.visited := by
            rw [Finset.mem_sdiff]
            exact ⟨hcur, hvis⟩
          have hc2 : (validCells g \ insert current s.visited).card + 1 =
              (validCells g \ s.visited).card := by
            rw [Finset.sdiff_insert, Finset.card_erase_of_mem hc1]
            have : 0 < (validCells g \ s.visited).card := Finset.card_pos.2 ⟨current, hc1⟩
            omega
          have hn6 : (get_neighbors g current).length ≤ 6 := get_neighbors_length_le g current
          omega

theorem ucs_run (g : Grid) (hw : is_valid g g.start = true) :
    ucsLoop g (ucsFuel g) (ucsInit g) = some (ucs g) := by
  have htot : ucsLoop g (ucsFuel g) (ucsInit g) ≠ none := by
    apply ucsLoop_total g _ _ (by
      intro x hx
      simp only [ucsInit, List.mem_singleton] at hx
      rw [hx]
      exact hw)
    unfold ucsMeasure ucsInit ucsFuel
    dsimp only
    have : (validCells g \ ∅).card ≤ (validCells g).card :=
      Finset.card_le_card Finset.sdiff_subset
    simp only [List.length_singleton]
    omega
  cases hr : ucsLoop g (ucsFuel g) (ucsInit g) with
  | none => exact absurd hr htot
  | some r =>
    unfold ucs
    rw [hr]
    rfl

theorem bidiPush_measure (g : Grid) (c : Pos) :
    ∀ (list : List (Pos × ℚ)) (q : List Pos) (vis : Finset Pos) (par : ParentMap),
      (∀ e ∈ list, is_valid g e.1 = true) →
      (bidiPush c list q vis par).1.length +
          (validCells g \ (bidiPush c list q vis par).2.1).card ≤
        q.length + (validCells g \ vis).card := by
  intro list
  induction list with
  | nil =>
    intro q vis par _
    simp [bidiPush]
  | cons e rest ih =>
    intro q vis par h
    obtain ⟨nbr, cost⟩ := e
    rw [bidiPush]
    by_cases hg : nbr ∉ vis
    · rw [if_pos hg]
      refine (ih (q ++ [nbr]) (insert nbr vis) ((nbr, some c) :: par)
        (fun e he => h e (List.mem_cons_of_mem _ he))).trans ?_
      rw [List.length_append, List.length_singleton]
      have hnm : nbr ∈ validCells g \ vis := by
        rw [Finset.mem_sdiff]
        exact ⟨(mem_validCells g nbr).2 (h _ (List.mem_cons_self _ _)), hg⟩
      have hcard : (validCells g \ insert nbr vis).card + 1 = (validCells g \ vis).card := by
        rw [Finset.sdiff_insert, Finset.card_erase_of_mem hnm]
        have : 0 < (validCells g \ vis).card := Finset.card_pos.2 ⟨nbr, hnm⟩
        omega
      omega
    · rw [if_neg hg]
      exact ih q vis par fun e he => h e (List.mem_cons_of_mem _ he)

/-- The loop measure of `bidirectional`. -/
def bidiMeasure (g : Grid) (s : BidiState) : ℕ :=
  s.fwd_queue.length + s.bwd_queue.length + 1 +
    (validCells g \ s.fwd_visited).card + (validCells g \ s.bwd_visited).card

theorem bidiFwd_measure (g : Grid) (s s2 : BidiState) (h : bidiFwd g s = Sum.inr s2) :
    (s.fwd_queue = [] ∧ s2 = s) ∨ bidiMeasure g s2 + 1 ≤ bidiMeasure g s := by
  unfold bidiFwd at h
  cases hq : s.fwd_queue with
  | nil =>
    rw [hq] at h
    simp at h
    exact Or.inl ⟨rfl, h.symm⟩
  | cons curF restF =>
    rw [hq] at h
    dsimp only at h
    split_ifs at h with hmeet
    right
    have hpm := bidiPush_measure g curF (get_neighbors g curF) restF s.fwd_visited s.fwd_parent
      (get_neighbors_valid g curF)
    injection h with h2
    rw [← h2]
    unfold bidiMeasure
    dsimp only
    rw [hq, List.length_cons]
    omega

theorem bidiBwd_measure (g : Grid) (s s2 : BidiState) (h : bidiBwd g s = Sum.inr s2) :
    (s.bwd_queue = [] ∧ s2 = s) ∨ bidiMeasure g s2 + 1 ≤ bidiMeasure g s := by
  unfold bidiBwd at h
  cases hq : s.bwd_queue with
  | nil =>
    rw [hq] at h
    simp at h
    exact Or.inl ⟨rfl, h.symm⟩
  | cons curB restB =>
    rw [hq] at h
    dsimp only at h
    split_ifs at h with hmeet
    right
    have hpm := bidiPush_measure g curB (get_neighbors g curB) restB s.bwd_visited s.bwd_parent
      (get_neighbors_valid g curB)
    injection h with h2
    rw [← h2]
    unfold bidiMeasure
    dsimp only
    rw [hq, List.length_cons]
    omega

theorem bidiFwd_queues (g : Grid) (s s2 : BidiState) (h : bidiFwd g s = Sum.inr s2) :
    s2.bwd_queue = s.bwd_queue := by
  unfold bidiFwd at h
  cases hq : s.fwd_queue with
  | nil =>
    rw [hq] at h
    simp at h
    rw [← h]
  | cons curF restF =>
    rw [hq] at h
    dsimp only at h
    split_ifs at h with hmeet
    injection h with h2
    rw [← h2]

theorem bidiLoop_total (g : Grid) :
    ∀ (fuel : ℕ) (s : BidiState), bidiMeasure g s ≤ fuel → bidiLoop g fuel s ≠ none := by
  intro fuel
  induction fuel with
  | zero =>
    intro s hm
    unfold bidiMeasure at hm
    omega
  | succ f ih =>
    intro s hm
    rw [bidiLoop]
    by_cases hempty : s.fwd_queue = [] ∧ s.bwd_queue = []
    · rw [if_pos hempty]
      simp
    · rw [if_neg hempty]
      cases hf : bidiFwd g s with
      | inl r => simp
      | inr s1 =>
        dsimp only
        cases hb : bidiBwd g s1 with
        | inl r => simp
        | inr s2 =>
          dsimp only
          apply ih
          rcases bidiFwd_measure g s s1 hf with ⟨hfe, rfl⟩ | hlt1
          · rcases bidiBwd_measure g s1 s2 hb with ⟨hbe, rfl⟩ | hlt2
            · exact absurd ⟨hfe, hbe⟩ hempty
            · omega
          · rcases bidiBwd_measure g s1 s2 hb with ⟨hbe, rfl⟩ | hlt2
            · omega
            · omega

theorem bidirectional_run (g : Grid) :
    bidiLoop g (bidiFuel g) (bidiInit g) = some (bidirectional g) := by
  have htot : bidiLoop g (bidiFuel g) (bidiInit g) ≠ none := by
    apply bidiLoop_total
    unfold bidiMeasure bidiInit bidiFuel
    dsimp only
    have h1 : (validCells g \ {g.start}).card ≤ (validCells g).card :=
      Finset.card_le_card Finset.sdiff_subset
    have h2 : (validCells g \ {g.goal}).card ≤ (validCells g).card :=
      Finset.card_le_card Finset.sdiff_subset
    simp only [List.length_singleton]
    omega
  cases hr : bidiLoop g (bidiFuel g) (bidiInit g) with
  | none => exact absurd hr htot
  | some r =>
    unfold bidirectional
    rw [hr]
    rfl


/-! Parent-map invariant shared by the searches that assign each parent at
most once (`bfs`, `dfs`, `dls`, and both sides of `bidirectional`): every key
has a duplicate-free parent chain that is a walk from the root over valid
cells. -/

def CfInv (g : Grid) (root : Pos) (cf : ParentMap) : Prop :=
  ∀ x, pmMem cf x = true →
    ∃ l, Chain cf x l ∧ l.Nodup ∧ WalkFrom g root l x ∧
      (∀ y ∈ l, pmMem cf y = true) ∧ ∀ y ∈ l, is_valid g y = true

theorem pmMem_cons (k : Pos) (v : Option Pos) (cf : ParentMap) (x : Pos) :
    pmMem ((k, v) :: cf) x = true ↔ x = k ∨ pmMem cf x = true := by
  unfold pmMem
  rw [pmLookup]
  by_cases h : k = x
  · subst h
    simp
  · rw [if_neg h]
    constructor
    · exact Or.inr
    · rintro (rfl | h2)
      · exact absurd rfl h
      · exact h2

theorem pmMem_mono (k : Pos) (v : Option Pos) (cf : ParentMap) (x : Pos)
    (h : pmMem cf x = true) : pmMem ((k, v) :: cf) x = true :=
  (pmMem_cons k v cf x).2 (Or.inr h)

theorem cfInv_init (g : Grid) (root : Pos) (hv : is_valid g root = true) :
    CfInv g root [(root, none)] := by
  intro x hx
  have hxr : x = root := by
    rw [pmMem_cons] at hx
    rcases hx with rfl | h2
    · rfl
    · simp [pmMem, pmLookup] at h2
  subst hxr
  refine ⟨[x], Chain.root x ?_, List.nodup_singleton x, walkFrom_singleton g x, ?_, ?_⟩
  · rw [pmGet, pmLookup]
    simp
  · intro y hy
    rw [List.mem_singleton] at hy
    subst hy
    rw [pmMem_cons]
    exact Or.inl rfl
  · intro y hy
    rw [List.mem_singleton] at hy
    subst hy
    exact hv

theorem cfInv_cons (g : Grid) (root : Pos) (cf : ParentMap) (hInv : CfInv g root cf)
    (k parent : Pos) (hk : ¬ pmMem cf k = true) (hkv : is_valid g k = true)
    (hp : pmMem cf parent = true) (hstep : stepRel g parent k) :
    CfInv g root ((k, some parent) :: cf) := by
  intro x hx
  rw [pmMem_cons] at hx
  rcases hx with rfl | hx2
  · -- the new key: extend the parent's chain
    obtain ⟨l, hc, hnd, hwalk, hkeys, hval⟩ := hInv parent hp
    have hknotl : x ∉ l := fun hm => hk (hkeys x hm)
    refine ⟨l ++ [x], ?_, ?_, walkFrom_snoc g root parent x l hwalk hstep, ?_, ?_⟩
    · refine Chain.step x parent l ?_ (chain_cons_of_not_mem cf x (some parent) parent l hc hknotl)
      rw [pmGet, pmLookup]
      simp
    · rw [List.nodup_append]
      refine ⟨hnd, List.nodup_singleton x, ?_⟩
      intro a ha hb
      rw [List.mem_singleton] at hb
      subst hb
      exact hknotl ha
    · intro y hy
      rcases List.mem_append.1 hy with hy2 | hy2
      · exact pmMem_mono _ _ _ _ (hkeys y hy2)
      · rw [List.mem_singleton] at hy2
        subst hy2
        rw [pmMem_cons]
        exact Or.inl rfl
    · intro y hy
      rcases List.mem_append.1 hy with hy2 | hy2
      · exact hval y hy2
      · rw [List.mem_singleton] at hy2
        subst hy2
        exact hkv
  · -- an old key: its chain is untouched
    obtain ⟨l, hc, hnd, hwalk, hkeys, hval⟩ := hInv x hx2
    have hknotl : k ∉ l := fun hm => hk (hkeys k hm)
    exact ⟨l, chain_cons_of_not_mem cf k (some parent) x l hc hknotl, hnd, hwalk,
      fun y hy => pmMem_mono _ _ _ _ (hkeys y hy), hval⟩

/-- Read a parent chain off an invariant map through `reconstruct_path`. -/
theorem cfInv_reconstruct (g : Grid) (root : Pos) (cf : ParentMap) (hInv : CfInv g root cf)
    (x : Pos) (hx : pmMem cf x = true) :
    WalkFrom g root (reconstruct_path cf x) x ∧ (reconstruct_path cf x).Nodup ∧
      ∀ y ∈ reconstruct_path cf x, is_valid g y = true := by
  obtain ⟨l, hc, hnd, hwalk, hkeys, hval⟩ := hInv x hx
  rw [reconstruct_path_of_chain cf x l hc hnd hkeys]
  exact ⟨hwalk, hnd, hval⟩


/-- A visited set closed under the move relation contains everything
reachable from any of its members. -/
theorem reach_subset_closed (g : Grid) (S : Finset Pos)
    (hS : ∀ v ∈ S, ∀ y, stepRel g v y → y ∈ S) (a b : Pos) (ha : a ∈ S)
    (h : Reach g a b) : b ∈ S := by
  induction h with
  | refl => exact ha
  | tail _ hs ih => exact hS _ ih _ hs

/-! Loop invariant and soundness for `dfs`. -/

theorem dfsPush_suffix (c : Pos) (vis : Finset Pos) :
    ∀ (list : List (Pos × ℚ)) (st : List Pos) (cf : ParentMap),
      ∃ pre, (dfsPush c vis list st cf).1 = pre ++ st := by
  intro list
  induction list with
  | nil => exact fun st cf => ⟨[], by simp [dfsPush]⟩
  | cons e rest ih =>
    intro st cf
    obtain ⟨nbr, cost⟩ := e
    rw [dfsPush]
    by_cases hg : nbr ∉ vis
    · rw [if_pos hg]
      obtain ⟨pre, hpre⟩ := ih (nbr :: st) (if pmMem cf nbr then cf else (nbr, some c) :: cf)
      exact ⟨pre ++ [nbr], by rw [hpre]; simp⟩
    · rw [if_neg hg]
      exact ih st cf

theorem dfsPush_complete (c : Pos) (vis : Finset Pos) :
    ∀ (list : List (Pos × ℚ)) (st : List Pos) (cf : ParentMap),
      ∀ e ∈ list, e.1 ∉ vis → e.1 ∈ (dfsPush c vis list st cf).1 := by
  intro list
  induction list with
  | nil => intro st cf e he; exact absurd he (List.not_mem_nil e)
  | cons d rest ih =>
    intro st cf e he hev
    obtain ⟨nbr, cost⟩ := d
    rw [dfsPush]
    rcases List.mem_cons.1 he with he1 | he2
    · subst he1
      have hev2 : nbr ∉ vis := hev
      rw [if_pos hev2]
      obtain ⟨pre, hpre⟩ := dfsPush_suffix c vis rest (nbr :: st)
        (if pmMem cf nbr then cf else (nbr, some c) :: cf)
      rw [hpre]
      exact List.mem_append_right pre (List.mem_cons_self _ _)
    · by_cases hg : nbr ∉ vis
      · rw [if_pos hg]
        exact ih (nbr :: st) _ e he2 hev
      · rw [if_neg hg]
        exact ih st cf e he2 hev

theorem dfsPush_cf (g : Grid) (root c : Pos) (vis : Finset Pos) :
    ∀ (list : List (Pos × ℚ)) (st : List Pos) (cf : ParentMap),
      CfInv g root cf → pmMem cf c = true →
      (∀ e ∈ list, stepRel g c e.1) →
      (∀ x ∈ st, pmMem cf x = true) →
      CfInv g root (dfsPush c vis list st cf).2 ∧
      (∀ x, pmMem cf x = true → pmMem (dfsPush c vis list st cf).2 x = true) ∧
      (∀ x ∈ (dfsPush c vis list st cf).1, pmMem (dfsPush c vis list st cf).2 x = true) := by
  intro list
  induction list with
  | nil =>
    intro st cf hInv hc _ hst
    exact ⟨hInv, fun x hx => hx, fun x hx => hst x (by simpa [dfsPush] using hx)⟩
  | cons d rest ih =>
    intro st cf hInv hc hstep hst
    obtain ⟨nbr, cost⟩ := d
    have hstep0 : stepRel g c nbr := hstep (nbr, cost) (List.mem_cons_self _ _)
    have hstepr : ∀ e ∈ rest, stepRel g c e.1 := fun e he => hstep e (List.mem_cons_of_mem _ he)
    rw [dfsPush]
    by_cases hg : nbr ∉ vis
    · rw [if_pos hg]
      by_cases hmem : pmMem cf nbr = true
      · rw [if_pos hmem]
        exact ih (nbr :: st) cf hInv hc hstepr (by
          intro x hx
          rcases List.mem_cons.1 hx with rfl | hx2
          · exact hmem
          · exact hst x hx2)
      · rw [if_neg hmem]
        have hInv2 : CfInv g root ((nbr, some c) :: cf) :=
          cfInv_cons g root cf hInv nbr c hmem (stepRel_valid g c nbr hstep0) hc hstep0
        obtain ⟨h1, h2, h3⟩ := ih (nbr :: st) ((nbr, some c) :: cf) hInv2
          (pmMem_mono _ _ _ _ hc) hstepr (by
            intro x hx
            rcases List.mem_cons.1 hx with rfl | hx2
            · rw [pmMem_cons]
              exact Or.inl rfl
            · exact pmMem_mono _ _ _ _ (hst x hx2))
        exact ⟨h1, fun x hx => h2 x (pmMem_mono _ _ _ _ hx), h3⟩
    · rw [if_neg hg]
      exact ih st cf hInv hc hstepr hst

/-- The loop invariant of `dfs`. -/
structure DfsInv (g : Grid) (s : DfsState) : Prop where
  stack_valid : ∀ x ∈ s.stack, is_valid g x = true
  stack_keys : ∀ x ∈ s.stack, pmMem s.came_from x = true
  cf_inv : CfInv g g.start s.came_from
  closure : ∀ v ∈ s.visited, ∀ y, stepRel g v y → y ∈ s.visited ∨ y ∈ s.stack
  start_mem : g.start ∈ s.visited ∨ g.start ∈ s.stack
  goal_not_vis : g.goal ∉ s.visited
  mono : SizesMono s.steps
  st_sub : ∀ st ∈ s.steps, st.visited ⊆ s.visited
  vop : VisitedOnlyPopped s.steps
  vis_cur : ∀ p ∈ s.visited, p ∈ s.steps.map Step.current

/-- What every claim needs from a finished `dfs`-style run. -/
structure SearchOK (g : Grid) (r : List Step × List Pos) : Prop where
  walk : r.2 ≠ [] → WalkFrom g g.start r.2 g.goal ∧ r.2.Nodup ∧
    ∀ y ∈ r.2, is_valid g y = true
  complete : r.2 = [] → ¬ Reach g g.start g.goal
  mono : SizesMono r.1
  vop : VisitedOnlyPopped r.1

theorem dfsLoop_sound (g : Grid) :
    ∀ (fuel : ℕ) (s : DfsState), DfsInv g s →
      ∀ r, dfsLoop g fuel s = some r → SearchOK g r := by
  intro fuel
  induction fuel with
  | zero =>
    intro s _ r hr
    rw [dfsLoop] at hr
    exact absurd hr (by simp)
  | succ f ih =>
    intro s hInv r hr
    rw [dfsLoop] at hr
    cases hq : s.stack with
    | nil =>
      rw [hq] at hr
      simp only [Option.some.injEq] at hr
      subst hr
      refine ⟨fun h => absurd rfl h, fun _ => ?_, hInv.mono, hInv.vop⟩
      intro hreach
      have hclosed : ∀ v ∈ s.visited, ∀ y, stepRel g v y → y ∈ s.visited := by
        intro v hv y hy
        rcases hInv.closure v hv y hy with h2 | h2
        · exact h2
        · rw [hq] at h2
          exact absurd h2 (List.not_mem_nil y)
      have hstart : g.start ∈ s.visited := by
        rcases hInv.start_mem with h2 | h2
        · exact h2
        · rw [hq] at h2
          exact absurd h2 (List.not_mem_nil _)
      exact hInv.goal_not_vis (reach_subset_closed g s.visited hclosed _ _ hstart hreach)
    | cons current rest =>
      rw [hq] at hr
      dsimp only at hr
      have hcur_key : pmMem s.came_from current = true :=
        hInv.stack_keys current (hq ▸ List.mem_cons_self _ _)
      have hnew_vop : VisitedOnlyPopped (s.steps ++ [make_step current rest.reverse s.visited]) := by
        apply vop_append _ _ hInv.vop
        intro p hp
        exact hInv.vis_cur p hp
      have hnew_mono : SizesMono (s.steps ++ [make_step current rest.reverse s.visited]) := by
        apply sizesMono_append _ _ hInv.mono
        intro s0 hs0
        exact Finset.card_le_card (hInv.st_sub s0 hs0)
      split_ifs at hr with hgoal hvis
      · -- goal reached
        simp only [Option.some.injEq] at hr
        subst hr
        obtain ⟨l, hc, hnd, hwalk, hkeys, hval⟩ := hInv.cf_inv current hcur_key
        have hrec : reconstruct_path s.came_from current = l :=
          reconstruct_path_of_chain s.came_from current l hc hnd hkeys
        subst hgoal
        refine ⟨fun _ => ?_, fun he => ?_, hnew_mono, hnew_vop⟩
        · show WalkFrom g g.start (reconstruct_path s.came_from g.goal) g.goal ∧ _
          rw [hrec]
          exact ⟨hwalk, hnd, hval⟩
        · exfalso
          have he2 : reconstruct_path s.came_from g.goal = [] := he
          rw [hrec] at he2
          exact chain_ne_nil _ _ _ hc he2
      · -- already visited: skip
        refine ih _ ?_ r hr
        refine ⟨fun x hx => hInv.stack_valid x (hq ▸ List.mem_cons_of_mem _ hx),
          fun x hx => hInv.stack_keys x (hq ▸ List.mem_cons_of_mem _ hx),
          hInv.cf_inv, ?_, ?_, hInv.goal_not_vis, hnew_mono, ?_, hnew_vop, ?_⟩
        · intro v hv y hy
          rcases hInv.closure v hv y hy with h2 | h2
          · exact Or.inl h2
          · rw [hq] at h2
            rcases List.mem_cons.1 h2 with rfl | h3
            · exact Or.inl hvis
            · exact Or.inr h3
        · rcases hInv.start_mem with h2 | h2
          · exact Or.inl h2
          · rw [hq] at h2
            rcases List.mem_cons.1 h2 with rfl | h3
            · exact Or.inl hvis
            · exact Or.inr h3
        · intro st hst
          rcases List.mem_append.1 hst with h2 | h2
          · exact hInv.st_sub st h2
          · rw [List.mem_singleton] at h2
            subst h2
            exact fun p hp => hp
        · intro p hp
          rw [List.map_append]
          exact List.mem_append_left _ (hInv.vis_cur p hp)
      · -- expand
        refine ih _ ?_ r hr
        have hpushed := dfsPush_cf g g.start current (insert current s.visited)
          (get_neighbors g current).reverse rest s.came_from hInv.cf_inv hcur_key
          (by
            intro e he
            rw [List.mem_reverse] at he
            unfold stepRel
            rw [List.mem_map]
            exact ⟨e, he, rfl⟩)
          (fun x hx => hInv.stack_keys x (hq ▸ List.mem_cons_of_mem _ hx))
        obtain ⟨hcf2, hmono2, hstack2⟩ := hpushed
        obtain ⟨hlen2, hsmem2⟩ := dfsPush_stack current (insert current s.visited)
          (get_neighbors g current).reverse rest s.came_from
        obtain ⟨pre, hpre⟩ := dfsPush_suffix current (insert current s.visited)
          (get_neighbors g current).reverse rest s.came_from
        refine ⟨?_, hstack2, hcf2, ?_, ?_, ?_, hnew_mono, ?_, hnew_vop, ?_⟩
        · intro x hx
          rcases hsmem2 x hx with h2 | ⟨e2, he2, hee⟩
          · exact hInv.stack_valid x (hq ▸ List.mem_cons_of_mem _ h2)
          · rw [List.mem_reverse] at he2
            exact hee ▸ get_neighbors_valid g current e2 he2
        · -- closure with the new visited set
          intro v hv y hy
          rcases Finset.mem_insert.1 hv with hvc | hv2
          · -- v = current: its unvisited neighbors were all pushed
            by_cases hyv : y ∈ insert current s.visited
            · exact Or.inl hyv
            · right
              unfold stepRel at hy
              rw [List.mem_map] at hy
              obtain ⟨e, he, hee⟩ := hy
              have hcomp := dfsPush_complete current (insert current s.visited)
                (get_neighbors g current).reverse rest s.came_from e
                (List.mem_reverse.2 (hvc ▸ he)) (hee ▸ hyv)
              exact hee ▸ hcomp
          · rcases hInv.closure v hv2 y hy with h2 | h2
            · exact Or.inl (Finset.mem_insert_of_mem h2)
            · rw [hq] at h2
              rcases List.mem_cons.1 h2 with rfl | h3
              · exact Or.inl (Finset.mem_insert_self _ _)
              · right
                rw [hpre]
                exact List.mem_append_right pre h3
        · rcases hInv.start_mem with h2 | h2
          · exact Or.inl (Finset.mem_insert_of_mem h2)
          · rw [hq] at h2
            rcases List.mem_cons.1 h2 with rfl | h3
            · exact Or.inl (Finset.mem_insert_self _ _)
            · right
              rw [hpre]
              exact List.mem_append_right pre h3
        · intro hgv
          rcases Finset.mem_insert.1 hgv with rfl | h2
          · exact hgoal rfl
          · exact hInv.goal_not_vis h2
        · intro st hst
          rcases List.mem_append.1 hst with h2 | h2
          · exact (hInv.st_sub st h2).trans (Finset.subset_insert _ _)
          · rw [List.mem_singleton] at h2
            subst h2
            exact Finset.subset_insert _ _
        · intro p hp
          rw [List.map_append]
          rcases Finset.mem_insert.1 hp with rfl | h2
          · exact List.mem_append_right _ (by simp [make_step])
          · exact List.mem_append_left _ (hInv.vis_cur p h2)


theorem sizesMono_nil : SizesMono [] := List.chain'_nil

theorem vop_nil : VisitedOnlyPopped [] := fun i h => by simp at h

theorem dfs_ok (g : Grid) (hw : WellFormed g) : SearchOK g (dfs g) := by
  refine dfsLoop_sound g (dfsFuel g) (dfsInit g) ?_ (dfs g) (dfs_run g hw.1)
  refine ⟨?_, ?_, cfInv_init g g.start hw.1, ?_, ?_, ?_, sizesMono_nil, ?_, vop_nil, ?_⟩
  · intro x hx
    rw [show (dfsInit g).stack = [g.start] from rfl, List.mem_singleton] at hx
    exact hx ▸ hw.1
  · intro x hx
    rw [show (dfsInit g).stack = [g.start] from rfl, List.mem_singleton] at hx
    subst hx
    show pmMem [(g.start, none)] g.start = true
    rw [pmMem_cons]
    exact Or.inl rfl
  · intro v hv
    exact absurd hv (Finset.not_mem_empty v)
  · exact Or.inr (List.mem_singleton_self _)
  · exact Finset.not_mem_empty _
  · intro st hst
    exact absurd hst (List.not_mem_nil st)
  · intro p hp
    exact absurd hp (Finset.not_mem_empty p)

/-! Loop invariant and soundness for `dls`. -/

theorem dlsPush_suffix (c : Pos) (d : ℕ) (vis : Finset Pos) :
    ∀ (list : List (Pos × ℚ)) (st : List (Pos × ℕ)) (cf : ParentMap),
      ∃ pre, (dlsPush c d vis list st cf).1 = pre ++ st := by
  intro list
  induction list with
  | nil => exact fun st cf => ⟨[], by simp [dlsPush]⟩
  | cons e rest ih =>
    intro st cf
    obtain ⟨nbr, cost⟩ := e
    rw [dlsPush]
    by_cases hg : nbr ∉ vis
    · rw [if_pos hg]
      obtain ⟨pre, hpre⟩ := ih ((nbr, d + 1) :: st) (if pmMem cf nbr then cf else (nbr, some c) :: cf)
      exact ⟨pre ++ [(nbr, d + 1)], by rw [hpre]; simp⟩
    · rw [if_neg hg]
      exact ih st cf

theorem dlsPush_complete (c : Pos) (d : ℕ) (vis : Finset Pos) :
    ∀ (list : List (Pos × ℚ)) (st : List (Pos × ℕ)) (cf : ParentMap),
      ∀ e ∈ list, e.1 ∉ vis → (e.1, d + 1) ∈ (dlsPush c d vis list st cf).1 := by
  intro list
  induction list with
  | nil => intro st cf e he; exact absurd he (List.not_mem_nil e)
  | cons d2 rest ih =>
    intro st cf e he hev
    obtain ⟨nbr, cost⟩ := d2
    rw [dlsPush]
    rcases List.mem_cons.1 he with he1 | he2
    · subst he1
      have hev2 : nbr ∉ vis := hev
      rw [if_pos hev2]
      obtain ⟨pre, hpre⟩ := dlsPush_suffix c d vis rest ((nbr, d + 1) :: st)
        (if pmMem cf nbr then cf else (nbr, some c) :: cf)
      rw [hpre]
      exact List.mem_append_right pre (List.mem_cons_self _ _)
    · by_cases hg : nbr ∉ vis
      · rw [if_pos hg]
        exact ih ((nbr, d + 1) :: st) _ e he2 hev
      · rw [if_neg hg]
        exact ih st cf e he2 hev

theorem dlsPush_cf (g : Grid) (root c : Pos) (d : ℕ) (vis : Finset Pos) :
    ∀ (list : List (Pos × ℚ)) (st : List (Pos × ℕ)) (cf : ParentMap),
      CfInv g root cf → pmMem cf c = true →
      (∀ e ∈ list, stepRel g c e.1) →
      (∀ x ∈ st, pmMem cf x.1 = true) →
      CfInv g root (dlsPush c d vis list st cf).2 ∧
      (∀ x, pmMem cf x = true → pmMem (dlsPush c d vis list st cf).2 x = true) ∧
      (∀ x ∈ (dlsPush c d vis list st cf).1, pmMem (dlsPush c d vis list st cf).2 x.1 = true) := by
  intro list
  induction list with
  | nil =>
    intro st cf hInv hc _ hst
    exact ⟨hInv, fun x hx => hx, fun x hx => hst x (by simpa [dlsPush] using hx)⟩
  | cons d2 rest ih =>
    intro st cf hInv hc hstep hst
    obtain ⟨nbr, cost⟩ := d2
    have hstep0 : stepRel g c nbr := hstep (nbr, cost) (List.mem_cons_self _ _)
    have hstepr : ∀ e ∈ rest, stepRel g c e.1 := fun e he => hstep e (List.mem_cons_of_mem _ he)
    rw [dlsPush]
    by_cases hg : nbr ∉ vis
    · rw [if_pos hg]
      by_cases hmem : pmMem cf nbr = true
      · rw [if_pos hmem]
        exact ih ((nbr, d + 1) :: st) cf hInv hc hstepr (by
          intro x hx
          rcases List.mem_cons.1 hx with rfl | hx2
          · exact hmem
          · exact hst x hx2)
      · rw [if_neg hmem]
        have hInv2 : CfInv g root ((nbr, some c) :: cf) :=
          cfInv_cons g root cf hInv nbr c hmem (stepRel_valid g c nbr hstep0) hc hstep0
        obtain ⟨h1, h2, h3⟩ := ih ((nbr, d + 1) :: st) ((nbr, some c) :: cf) hInv2
          (pmMem_mono _ _ _ _ hc) hstepr (by
            intro x hx
            rcases List.mem_cons.1 hx with rfl | hx2
            · rw [pmMem_cons]
              exact Or.inl rfl
            · exact pmMem_mono _ _ _ _ (hst x hx2))
        exact ⟨h1, fun x hx => h2 x (pmMem_mono _ _ _ _ hx), h3⟩
    · rw [if_neg hg]
      exact ih st cf hInv hc hstepr hst

/-- The loop invariant of `dls` (no completeness fields: `dls` may miss
routes beyond its limit). -/
structure DlsInv (g : Grid) (s : DlsState) : Prop where
  stack_valid : ∀ x ∈ s.stack, is_valid g x.1 = true
  stack_keys : ∀ x ∈ s.stack, pmMem s.came_from x.1 = true
  cf_inv : CfInv g g.start s.came_from
  mono : SizesMono s.steps
  st_sub : ∀ st ∈ s.steps, st.visited ⊆ s.visited
  vop : VisitedOnlyPopped s.steps
  vis_cur : ∀ p ∈ s.visited, p ∈ s.steps.map Step.current

/-- What `dls` guarantees: a sound path when non-empty, and the trace facts.
No completeness: an existing route longer than the limit is missed. -/
structure DlsOK (g : Grid) (r : List Step × List Pos) : Prop where
  walk : r.2 ≠ [] → WalkFrom g g.start r.2 g.goal ∧ r.2.Nodup ∧
    ∀ y ∈ r.2, is_valid g y = true
  mono : SizesMono r.1
  vop : VisitedOnlyPopped r.1

theorem dlsLoop_sound (g : Grid) (limit : ℕ) :
    ∀ (fuel : ℕ) (s : DlsState), DlsInv g s →
      ∀ r, dlsLoop g limit fuel s = some r → DlsOK g r := by
  intro fuel
  induction fuel with
  | zero =>
    intro s _ r hr
    rw [dlsLoop] at hr
    exact absurd hr (by simp)
  | succ f ih =>
    intro s hInv r hr
    rw [dlsLoop] at hr
    cases hq : s.stack with
    | nil =>
      rw [hq] at hr
      simp only [Option.some.injEq] at hr
      subst hr
      exact ⟨fun h => absurd rfl h, hInv.mono, hInv.vop⟩
    | cons ent rest =>
      obtain ⟨current, depth⟩ := ent
      rw [hq] at hr
      dsimp only at hr
      have hcur_key : pmMem s.came_from current = true :=
        hInv.stack_keys (current, depth) (hq ▸ List.mem_cons_self _ _)
      have hnew_vop : VisitedOnlyPopped
          (s.steps ++ [make_step current (rest.reverse.map Prod.fst) s.visited]) := by
        apply vop_append _ _ hInv.vop
        intro p hp
        exact hInv.vis_cur p hp
      have hnew_mono : SizesMono
          (s.steps ++ [make_step current (rest.reverse.map Prod.fst) s.visited]) := by
        apply sizesMono_append _ _ hInv.mono
        intro s0 hs0
        exact Finset.card_le_card (hInv.st_sub s0 hs0)
      split_ifs at hr with hgoal hvis
      · simp only [Option.some.injEq] at hr
        subst hr
        obtain ⟨l, hc, hnd, hwalk, hkeys, hval⟩ := hInv.cf_inv current hcur_key
        have hrec : reconstruct_path s.came_from current = l :=
          reconstruct_path_of_chain s.came_from current l hc hnd hkeys
        subst hgoal
        refine ⟨fun _ => ?_, hnew_mono, hnew_vop⟩
        show WalkFrom g g.start (reconstruct_path s.came_from g.goal) g.goal ∧ _
        rw [hrec]
        exact ⟨hwalk, hnd, hval⟩
      · -- skip (visited or depth-limited)
        refine ih _ ?_ r hr
        refine ⟨fun x hx => hInv.stack_valid x (hq ▸ List.mem_cons_of_mem _ hx),
          fun x hx => hInv.stack_keys x (hq ▸ List.mem_cons_of_mem _ hx),
          hInv.cf_inv, hnew_mono, ?_, hnew_vop, ?_⟩
        · intro st hst
          rcases List.mem_append.1 hst with h2 | h2
          · exact hInv.st_sub st h2
          · rw [List.mem_singleton] at h2
            subst h2
            exact fun p hp => hp
        · intro p hp
          rw [List.map_append]
          exact List.mem_append_left _ (hInv.vis_cur p hp)
      · -- expand
        push_neg at hvis
        refine ih _ ?_ r hr
        have hpushed := dlsPush_cf g g.start current depth (insert current s.visited)
          (get_neighbors g current).reverse rest s.came_from hInv.cf_inv hcur_key
          (by
            intro e he
            rw [List.mem_reverse] at he
            unfold stepRel
            rw [List.mem_map]
            exact ⟨e, he, rfl⟩)
          (fun x hx => hInv.stack_keys x (hq ▸ List.mem_cons_of_mem _ hx))
        obtain ⟨hcf2, hmono2, hstack2⟩ := hpushed
        obtain ⟨hlen2, hsmem2⟩ := dlsPush_stack current depth (insert current s.visited)
          (get_neighbors g current).reverse rest s.came_from
        refine ⟨?_, hstack2, hcf2, hnew_mono, ?_, hnew_vop, ?_⟩
        · intro x hx
          rcases hsmem2 x hx with h2 | ⟨e2, he2, hee⟩
          · exact hInv.stack_valid x (hq ▸ List.mem_cons_of_mem _ h2)
          · rw [List.mem_reverse] at he2
            exact hee ▸ get_neighbors_valid g current e2 he2
        · intro st hst
          rcases List.mem_append.1 hst with h2 | h2
          · exact (hInv.st_sub st h2).trans (Finset.subset_insert _ _)
          · rw [List.mem_singleton] at h2
            subst h2
            exact Finset.subset_insert _ _
        · intro p hp
          rw [List.map_append]
          rcases Finset.mem_insert.1 hp with rfl | h2
          · exact List.mem_append_right _ (by simp [make_step])
          · exact List.mem_append_left _ (hInv.vis_cur p h2)

theorem dls_ok (g : Grid) (limit : ℕ) (hw : WellFormed g) : DlsOK g (dls g limit) := by
  refine dlsLoop_sound g limit (dlsFuel g) (dlsInit g) ?_ (dls g limit) (dls_run g limit hw.1)
  refine ⟨?_, ?_, cfInv_init g g.start hw.1, sizesMono_nil, ?_, vop_nil, ?_⟩
  · intro x hx
    rw [show (dlsInit g).stack = [(g.start, 0)] from rfl, List.mem_singleton] at hx
    rw [hx]
    exact hw.1
  · intro x hx
    rw [show (dlsInit g).stack = [(g.start, 0)] from rfl, List.mem_singleton] at hx
    rw [hx]
    show pmMem [(g.start, none)] g.start = true
    rw [pmMem_cons]
    exact Or.inl rfl
  · intro st hst
    exact absurd hst (List.not_mem_nil st)
  · intro p hp
    exact absurd hp (Finset.not_mem_empty p)


theorem reconstructGo_ne_nil (m : ParentMap) :
    ∀ (fuel : ℕ) (x : Pos) (acc : List Pos), acc ≠ [] → reconstructGo m fuel x acc ≠ [] := by
  intro fuel
  induction fuel with
  | zero => intro x acc h; exact h
  | succ f ih =>
    intro x acc h
    rw [reconstructGo]
    cases hg : pmGet m x with
    | none => exact h
    | some y => exact ih y (y :: acc) (by simp)

theorem reconstruct_path_ne_nil (m : ParentMap) (x : Pos) : reconstruct_path m x ≠ [] :=
  reconstructGo_ne_nil m (m.length + 1) x [x] (by simp)

theorem dlsPush_depths (c : Pos) (d : ℕ) (vis : Finset Pos) :
    ∀ (list : List (Pos × ℚ)) (st : List (Pos × ℕ)) (cf : ParentMap),
      ∀ x ∈ (dlsPush c d vis list st cf).1, x ∈ st ∨ x.2 = d + 1 := by
  intro list
  induction list with
  | nil => intro st cf x hx; exact Or.inl (by simpa [dlsPush] using hx)
  | cons e rest ih =>
    intro st cf x hx
    obtain ⟨nbr, cost⟩ := e
    rw [dlsPush] at hx
    by_cases hg : nbr ∉ vis
    · rw [if_pos hg] at hx
      rcases ih ((nbr, d + 1) :: st) _ x hx with h2 | h2
      · rcases List.mem_cons.1 h2 with h3 | h3
        · exact Or.inr (by rw [h3])
        · exact Or.inl h3
      · exact Or.inr h2
    · rw [if_neg hg] at hx
      exact ih st cf x hx

/-- Completeness invariant for `dls`, valid when the limit is at least the
number of valid cells: every recorded stack depth is bounded by the visited
count, so the depth test never prunes. -/
structure DlsCompInv (g : Grid) (s : DlsState) : Prop where
  stack_valid : ∀ x ∈ s.stack, is_valid g x.1 = true
  depth_le : ∀ x ∈ s.stack, x.2 ≤ s.visited.card
  vis_valid : s.visited ⊆ validCells g
  closure : ∀ v ∈ s.visited, ∀ y, stepRel g v y → y ∈ s.visited ∨ ∃ d, (y, d) ∈ s.stack
  start_mem : g.start ∈ s.visited ∨ ∃ d, (g.start, d) ∈ s.stack
  goal_not_vis : g.goal ∉ s.visited

theorem dlsLoop_complete (g : Grid) (limit : ℕ) (hcard : (validCells g).card ≤ limit) :
    ∀ (fuel : ℕ) (s : DlsState), DlsCompInv g s →
      ∀ r, dlsLoop g limit fuel s = some r → r.2 = [] → ¬ Reach g g.start g.goal := by
  intro fuel
  induction fuel with
  | zero =>
    intro s _ r hr
    rw [dlsLoop] at hr
    exact absurd hr (by simp)
  | succ f ih =>
    intro s hInv r hr
    rw [dlsLoop] at hr
    cases hq : s.stack with
    | nil =>
      rw [hq] at hr
      simp only [Option.some.injEq] at hr
      subst hr
      intro _ hreach
      have hclosed : ∀ v ∈ s.visited, ∀ y, stepRel g v y → y ∈ s.visited := by
        intro v hv y hy
        rcases hInv.closure v hv y hy with h2 | ⟨d, h2⟩
        · exact h2
        · rw [hq] at h2
          exact absurd h2 (List.not_mem_nil _)
      have hstart : g.start ∈ s.visited := by
        rcases hInv.start_mem with h2 | ⟨d, h2⟩
        · exact h2
        · rw [hq] at h2
          exact absurd h2 (List.not_mem_nil _)
      exact hInv.goal_not_vis (reach_subset_closed g s.visited hclosed _ _ hstart hreach)
    | cons ent rest =>
      obtain ⟨current, depth⟩ := ent
      rw [hq] at hr
      dsimp only at hr
      split_ifs at hr with hgoal hskip
      · -- goal popped: the returned path is never empty
        simp only [Option.some.injEq] at hr
        subst hr
        intro he
        exact absurd he (reconstruct_path_ne_nil _ _)
      · -- skip branch: only possible here when already visited
        have hcv : current ∈ s.visited := by
          rcases hskip with h2 | h2
          · exact h2
          · by_cases hcvis : current ∈ s.visited
            · exact hcvis
            · exfalso
              have hcval : current ∈ validCells g :=
                (mem_validCells g current).2
                  (hInv.stack_valid (current, depth) (hq ▸ List.mem_cons_self _ _))
              have hlt : s.visited.card < (validCells g).card :=
                Finset.card_lt_card (Finset.ssubset_iff_of_subset hInv.vis_valid |>.2
                  ⟨current, hcval, hcvis⟩)
              have hd : depth ≤ s.visited.card :=
                hInv.depth_le (current, depth) (hq ▸ List.mem_cons_self _ _)
              omega
        refine ih _ ?_ r hr
        refine ⟨fun x hx => hInv.stack_valid x (hq ▸ List.mem_cons_of_mem _ hx),
          fun x hx => hInv.depth_le x (hq ▸ List.mem_cons_of_mem _ hx),
          hInv.vis_valid, ?_, ?_, hInv.goal_not_vis⟩
        · intro v hv y hy
          rcases hInv.closure v hv y hy with h2 | ⟨d, h2⟩
          · exact Or.inl h2
          · rw [hq] at h2
            rcases List.mem_cons.1 h2 with h3 | h3
            · have : y = current := congrArg Prod.fst h3
              exact Or.inl (this ▸ hcv)
            · exact Or.inr ⟨d, h3⟩
        · rcases hInv.start_mem with h2 | ⟨d, h2⟩
          · exact Or.inl h2
          · rw [hq] at h2
            rcases List.mem_cons.1 h2 with h3 | h3
            · have : g.start = current := congrArg Prod.fst h3
              exact Or.inl (this ▸ hcv)
            · exact Or.inr ⟨d, h3⟩
      · -- expand branch
        push_neg at hskip
        refine ih _ ?_ r hr
        obtain ⟨hlen2, hsmem2⟩ := dlsPush_stack current depth (insert current s.visited)
          (get_neighbors g current).reverse rest s.came_from
        obtain ⟨pre, hpre⟩ := dlsPush_suffix current depth (insert current s.visited)
          (get_neighbors g current).reverse rest s.came_from
        have hcval : current ∈ validCells g :=
          (mem_validCells g current).2
            (hInv.stack_valid (current, depth) (hq ▸ List.mem_cons_self _ _))
        have hccard : (insert current s.visited).card = s.visited.card + 1 :=
          Finset.card_insert_of_not_mem hskip.1
        refine ⟨?_, ?_, ?_, ?_, ?_, ?_⟩
        · intro x hx
          rcases hsmem2 x hx with h2 | ⟨e2, he2, hee⟩
          · exact hInv.stack_valid x (hq ▸ List.mem_cons_of_mem _ h2)
          · rw [List.mem_reverse] at he2
            exact hee ▸ get_neighbors_valid g current e2 he2
        · -- depth bound: new pushes carry depth + 1 ≤ new card
          intro x hx
          show x.2 ≤ (insert current s.visited).card
          have hd0 : depth ≤ s.visited.card :=
            hInv.depth_le (current, depth) (hq ▸ List.mem_cons_self _ _)
          rcases dlsPush_depths current depth (insert current s.visited)
            (get_neighbors g current).reverse rest s.came_from x hx with h2 | h2
          · have := hInv.depth_le x (hq ▸ List.mem_cons_of_mem _ h2)
            omega
          · omega
        · intro v hv
          rcases Finset.mem_insert.1 hv with rfl | h2
          · exact hcval
          · exact hInv.vis_valid h2
        · intro v hv y hy
          rcases Finset.mem_insert.1 hv with hvc | hv2
          · by_cases hyv : y ∈ insert current s.visited
            · exact Or.inl hyv
            · right
              unfold stepRel at hy
              rw [List.mem_map] at hy
              obtain ⟨e, he, hee⟩ := hy
              refine ⟨depth + 1, ?_⟩
              have hcomp := dlsPush_complete current depth (insert current s.visited)
                (get_neighbors g current).reverse rest s.came_from e
                (List.mem_reverse.2 (hvc ▸ he)) (hee ▸ hyv)
              exact hee ▸ hcomp
          · rcases hInv.closure v hv2 y hy with h2 | ⟨d, h2⟩
            · exact Or.inl (Finset.mem_insert_of_mem h2)
            · rw [hq] at h2
              rcases List.mem_cons.1 h2 with h3 | h3
              · have : y = current := congrArg Prod.fst h3
                exact Or.inl (this ▸ Finset.mem_insert_self _ _)
              · refine Or.inr ⟨d, ?_⟩
                rw [hpre]
                exact List.mem_append_right pre h3
        · rcases hInv.start_mem with h2 | ⟨d, h2⟩
          · exact Or.inl (Finset.mem_insert_of_mem h2)
          · rw [hq] at h2
            rcases List.mem_cons.1 h2 with h3 | h3
            · have : g.start = current := congrArg Prod.fst h3
              exact Or.inl (this ▸ Finset.mem_insert_self _ _)
            · refine Or.inr ⟨d, ?_⟩
              rw [hpre]
              exact List.mem_append_right pre h3
        · intro hgv
          rcases Finset.mem_insert.1 hgv with h2 | h2
          · exact hgoal h2.symm
          · exact hInv.goal_not_vis h2


theorem dls_complete (g : Grid) (limit : ℕ) (hw : WellFormed g)
    (hcard : (validCells g).card ≤ limit) (he : (dls g limit).2 = []) :
    ¬ Reach g g.start g.goal := by
  refine dlsLoop_complete g limit hcard (dlsFuel g) (dlsInit g) ?_ (dls g limit)
    (dls_run g limit hw.1) he
  refine ⟨?_, ?_, ?_, ?_, ?_, Finset.not_mem_empty _⟩
  · intro x hx
    rw [show (dlsInit g).stack = [(g.start, 0)] from rfl, List.mem_singleton] at hx
    rw [hx]
    exact hw.1
  · intro x hx
    rw [show (dlsInit g).stack = [(g.start, 0)] from rfl, List.mem_singleton] at hx
    rw [hx]
    exact Nat.zero_le _
  · intro v hv
    exact absurd hv (Finset.not_mem_empty v)
  · intro v hv
    exact absurd hv (Finset.not_mem_empty v)
  · exact Or.inr ⟨0, List.mem_singleton_self _⟩

/-! Facts about `iddfs`, assembled from the `dls` results. -/

theorem vop_concat (s1 s2 : List Step) (h1 : VisitedOnlyPopped s1)
    (h2 : VisitedOnlyPopped s2) : VisitedOnlyPopped (s1 ++ s2) := by
  intro i hi p hp
  rw [List.length_append] at hi
  by_cases hlt : i < s1.length
  · have hget : (s1 ++ s2).get ⟨i, by rw [List.length_append]; omega⟩ =
        s1.get ⟨i, hlt⟩ := List.get_append i hlt
    rw [List.take_append_of_le_length (by omega)]
    exact h1 i hlt p (by rw [← hget]; exact hp)
  · have hieq : i = s1.length + (i - s1.length) := by omega
    have hj : i - s1.length < s2.length := by omega
    have hget : (s1 ++ s2).get ⟨i, by rw [List.length_append]; omega⟩ =
        s2.get ⟨i - s1.length, hj⟩ := by
      simp only [List.get_eq_getElem]
      rw [List.getElem_append_right (by omega)]
    rw [hget] at hp
    have := h2 (i - s1.length) hj p hp
    have htake : (s1 ++ s2).take i = s1 ++ s2.take (i - s1.length) := by
      rw [List.take_append_eq_append_take]
      congr 1
      rw [List.take_of_length_le (by omega)]

    rw [htake, List.map_append]
    exact List.mem_append_right _ this

theorem iddfsGo_walk (g : Grid) (hw : WellFormed g) :
    ∀ (limits : List ℕ) (acc : List Step),
      (iddfsGo g limits acc).2 ≠ [] →
      WalkFrom g g.start (iddfsGo g limits acc).2 g.goal ∧ (iddfsGo g limits acc).2.Nodup ∧
        ∀ y ∈ (iddfsGo g limits acc).2, is_valid g y = true := by
  intro limits
  induction limits with
  | nil => intro acc h; exact absurd rfl h
  | cons l ls ih =>
    intro acc h
    rw [iddfsGo] at h ⊢
    by_cases hp : (dls g l).2 ≠ []
    · rw [if_pos hp] at h ⊢
      exact (dls_ok g l hw).walk hp
    · rw [if_neg hp] at h ⊢
      exact ih _ h

theorem iddfsGo_vop (g : Grid) (hw : WellFormed g) :
    ∀ (limits : List ℕ) (acc : List Step), VisitedOnlyPopped acc →
      VisitedOnlyPopped (iddfsGo g limits acc).1 := by
  intro limits
  induction limits with
  | nil => intro acc h; exact h
  | cons l ls ih =>
    intro acc h
    rw [iddfsGo]
    have hcat : VisitedOnlyPopped (acc ++ (dls g l).1) :=
      vop_concat acc (dls g l).1 h (dls_ok g l hw).vop
    by_cases hp : (dls g l).2 ≠ []
    · rw [if_pos hp]
      exact hcat
    · rw [if_neg hp]
      exact ih _ hcat

theorem iddfsGo_complete (g : Grid) :
    ∀ (limits : List ℕ) (acc : List Step), (∃ l ∈ limits, (dls g l).2 ≠ []) →
      (iddfsGo g limits acc).2 ≠ [] := by
  intro limits
  induction limits with
  | nil => rintro acc ⟨l, hl, _⟩; exact absurd hl (List.not_mem_nil l)
  | cons l0 ls ih =>
    rintro acc ⟨l, hl, hne⟩
    rw [iddfsGo]
    by_cases hp : (dls g l0).2 ≠ []
    · rw [if_pos hp]
      exact hp
    · rw [if_neg hp]
      refine ih _ ⟨l, ?_, hne⟩
      rcases List.mem_cons.1 hl with rfl | h2
      · exact absurd hne hp
      · exact h2

theorem iddfs_walk (g : Grid) (hw : WellFormed g) (h : (iddfs g).2 ≠ []) :
    WalkFrom g g.start (iddfs g).2 g.goal ∧ (iddfs g).2.Nodup ∧
      ∀ y ∈ (iddfs g).2, is_valid g y = true :=
  iddfsGo_walk g hw (List.range (ROWS * COLS)) [] h

theorem iddfs_vop (g : Grid) (hw : WellFormed g) : VisitedOnlyPopped (iddfs g).1 :=
  iddfsGo_vop g hw (List.range (ROWS * COLS)) [] vop_nil

theorem iddfs_complete (g : Grid) (hw : WellFormed g)
    (hcard : (validCells g).card ≤ 99) (hreach : Reach g g.start g.goal) :
    (iddfs g).2 ≠ [] := by
  refine iddfsGo_complete g (List.range (ROWS * COLS)) [] ⟨99, ?_, ?_⟩
  · rw [List.mem_range]
    norm_num [ROWS, COLS]
  · intro he
    exact dls_complete g 99 hw hcard he hreach


/-! Walk reversal and concatenation, for `merge_paths`. -/

theorem chain'_symm_of_valid (g : Grid) :
    ∀ l : List Pos, (∀ x ∈ l, is_valid g x = true) → List.Chain' (stepRel g) l →
      List.Chain' (fun a b => stepRel g b a) l
  | [] => fun _ _ => List.chain'_nil
  | [_] => fun _ _ => List.chain'_singleton _
  | a :: b :: t => by
    intro hval hch
    rw [List.chain'_cons] at hch ⊢
    refine ⟨stepRel_symm g a b hch.1 (hval a (List.mem_cons_self _ _)), ?_⟩
    exact chain'_symm_of_valid g (b :: t) (fun x hx => hval x (List.mem_cons_of_mem _ hx)) hch.2

theorem walkFrom_reverse (g : Grid) (a b : Pos) (l : List Pos) (h : WalkFrom g a l b)
    (hval : ∀ x ∈ l, is_valid g x = true) : WalkFrom g b l.reverse a := by
  obtain ⟨h1, h2, h3⟩ := h
  refine ⟨?_, ?_, ?_⟩
  · rw [List.head?_reverse]
    exact h2
  · rw [List.getLast?_reverse]
    exact h1
  · show List.Chain' (stepRel g) l.reverse
    rw [List.chain'_reverse]
    exact chain'_symm_of_valid g l hval h3

theorem walkFrom_append (g : Grid) (a m y b : Pos) (l1 l2 : List Pos)
    (h1 : WalkFrom g a l1 m) (h2 : WalkFrom g y l2 b) (hs : stepRel g m y) :
    WalkFrom g a (l1 ++ l2) b := by
  obtain ⟨h1a, h1b, h1c⟩ := h1
  obtain ⟨h2a, h2b, h2c⟩ := h2
  have hne1 : l1 ≠ [] := walkFrom_ne_nil g a m l1 ⟨h1a, h1b, h1c⟩
  have hne2 : l2 ≠ [] := walkFrom_ne_nil g y b l2 ⟨h2a, h2b, h2c⟩
  refine ⟨?_, ?_, ?_⟩
  · rw [List.head?_append_of_ne_nil _ hne1]
    exact h1a
  · rw [List.getLast?_append_of_ne_nil l1 hne2]
    exact h2b
  · show List.Chain' (stepRel g) (l1 ++ l2)
    rw [List.chain'_append]
    refine ⟨h1c, h2c, ?_⟩
    intro x hx z hz
    rw [h1b] at hx
    rw [h2a] at hz
    simp at hx hz
    subst hx
    subst hz
    exact hs

theorem walkParents_none (m : ParentMap) (fuel : ℕ) : walkParents m fuel none = [] := by
  cases fuel <;> rfl

/-- Correctness of `merge_paths` under the two chain invariants. -/
theorem merge_paths_walk (g : Grid) (fp bp : ParentMap) (meeting : Pos)
    (hf : CfInv g g.start fp) (hb : CfInv g g.goal bp)
    (hfm : pmMem fp meeting = true) (hbm : pmMem bp meeting = true) :
    merge_paths fp bp meeting ≠ [] ∧ WalkFrom g g.start (merge_paths fp bp meeting) g.goal := by
  obtain ⟨lf, hcf, hndf, hwf, hkf, hvf⟩ := hf meeting hfm
  have hlf : walkParents fp (fp.length + 1) (some meeting) = lf.reverse := by
    apply walkParents_of_chain fp meeting lf hcf
    have := nodup_length_le_keys fp lf hndf hkf
    omega
  obtain ⟨lb, hcb, hndb, hwb, hkb, hvb⟩ := hb meeting hbm
  unfold merge_paths
  rw [hlf, List.reverse_reverse]
  have hlfne : lf ≠ [] := chain_ne_nil fp meeting lf hcf
  cases hcb with
  | root _ hget =>
    -- the meeting node is the backward root, i.e. the goal itself
    rw [hget, walkParents_none]
    have hmg : meeting = g.goal := by
      obtain ⟨hh, _, _⟩ := hwb
      simp at hh
      exact hh
    rw [List.append_nil]
    exact ⟨hlfne, hmg ▸ hwf⟩
  | step _ y ly hget hcy =>
    rw [hget]
    have hlyne : ly ≠ [] := chain_ne_nil bp y ly hcy
    have hndy : ly.Nodup := (List.nodup_append.1 hndb).1
    have hly : walkParents bp (bp.length + 1) (some y) = ly.reverse := by
      apply walkParents_of_chain bp y ly hcy
      have : ly.length ≤ bp.length := by
        apply nodup_length_le_keys bp ly hndy
        intro z hz
        exact hkb z (List.mem_append_left _ hz)
      omega
    rw [hly]
    -- decompose the backward walk goal → … → y → meeting
    obtain ⟨hbh, hbl, hbc⟩ := hwb
    have hbh2 : ly.head? = some g.goal := by
      rwa [List.head?_append_of_ne_nil _ hlyne] at hbh
    have hylast : ly.getLast? = some y := chain_getLast bp y ly hcy
    have hbc2 : List.Chain' (stepRel g) (ly ++ [meeting]) := hbc
    rw [List.chain'_append] at hbc2
    have hstep_ym : stepRel g y meeting := by
      have := hbc2.2.2 y (by simpa using hylast) meeting (by simp)
      exact this
    have hwly : WalkFrom g g.goal ly y := ⟨hbh2, hylast, hbc2.1⟩
    have hvly : ∀ x ∈ ly, is_valid g x = true := fun x hx =>
      hvb x (List.mem_append_left _ hx)
    have hwrev : WalkFrom g y ly.reverse g.goal := walkFrom_reverse g g.goal y ly hwly hvly
    have hyval : is_valid g y = true := by
      apply hvly y
      exact List.mem_of_mem_getLast? hylast
    have hstep_my : stepRel g meeting y := stepRel_symm g y meeting hstep_ym hyval
    refine ⟨?_, walkFrom_append g g.start meeting y g.goal lf ly.reverse hwf hwrev hstep_my⟩
    intro he
    rw [List.append_eq_nil] at he
    exact hlfne he.1


/-! Loop invariant and soundness for `bidirectional`. -/

theorem bidiPush_spec (g : Grid) (root c : Pos) :
    ∀ (list : List (Pos × ℚ)) (q : List Pos) (vis : Finset Pos) (par : ParentMap),
      CfInv g root par → (∀ x, x ∈ vis ↔ pmMem par x = true) → pmMem par c = true →
      (∀ e ∈ list, stepRel g c e.1) → (∀ x ∈ q, x ∈ vis) →
      CfInv g root (bidiPush c list q vis par).2.2 ∧
      (∀ x, x ∈ (bidiPush c list q vis par).2.1 ↔ pmMem (bidiPush c list q vis par).2.2 x = true) ∧
      (∀ x ∈ vis, x ∈ (bidiPush c list q vis par).2.1) ∧
      (∀ x ∈ (bidiPush c list q vis par).1, x ∈ (bidiPush c list q vis par).2.1) ∧
      (∃ suf, (bidiPush c list q vis par).1 = q ++ suf) ∧
      (∀ e ∈ list, e.1 ∈ (bidiPush c list q vis par).2.1) ∧
      (∀ x, x ∈ (bidiPush c list q vis par).2.1 → x ∈ vis ∨ x ∈ (bidiPush c list q vis par).1) := by
  intro list
  induction list with
  | nil =>
    intro q vis par hcf hkv hc _ hq
    refine ⟨hcf, hkv, fun x hx => hx, hq, ⟨[], by simp [bidiPush]⟩,
      fun e he => absurd he (List.not_mem_nil e), fun x hx => Or.inl hx⟩
  | cons e rest ih =>
    intro q vis par hcf hkv hc hstep hq
    obtain ⟨nbr, cost⟩ := e
    have hstep0 : stepRel g c nbr := hstep (nbr, cost) (List.mem_cons_self _ _)
    have hstepr : ∀ e ∈ rest, stepRel g c e.1 := fun e he => hstep e (List.mem_cons_of_mem _ he)
    rw [bidiPush]
    by_cases hg : nbr ∉ vis
    · rw [if_pos hg]
      have hfresh : ¬ pmMem par nbr = true := fun h2 => hg ((hkv nbr).2 h2)
      have hcf2 : CfInv g root ((nbr, some c) :: par) :=
        cfInv_cons g root par hcf nbr c hfresh (stepRel_valid g c nbr hstep0) hc hstep0
      have hkv2 : ∀ x, x ∈ insert nbr vis ↔ pmMem ((nbr, some c) :: par) x = true := by
        intro x
        rw [Finset.mem_insert, pmMem_cons]
        constructor
        · rintro (rfl | h2)
          · exact Or.inl rfl
          · exact Or.inr ((hkv x).1 h2)
        · rintro (rfl | h2)
          · exact Or.inl rfl
          · exact Or.inr ((hkv x).2 h2)
      have hq2 : ∀ x ∈ q ++ [nbr], x ∈ insert nbr vis := by
        intro x hx
        rcases List.mem_append.1 hx with h2 | h2
        · exact Finset.mem_insert_of_mem (hq x h2)
        · rw [List.mem_singleton] at h2
          exact h2 ▸ Finset.mem_insert_self _ _
      obtain ⟨j1, j2, j3, j4, ⟨suf, hsuf⟩, j6, j7⟩ := ih (q ++ [nbr]) (insert nbr vis)
        ((nbr, some c) :: par) hcf2 hkv2 (pmMem_mono _ _ _ _ hc) hstepr hq2
      refine ⟨j1, j2, ?_, j4, ⟨[nbr] ++ suf, by rw [hsuf, List.append_assoc]⟩, ?_, ?_⟩
      · intro x hx
        exact j3 x (Finset.mem_insert_of_mem hx)
      · intro e he
        rcases List.mem_cons.1 he with rfl | h2
        · exact j3 nbr (Finset.mem_insert_self _ _)
        · exact j6 e h2
      · intro x hx
        rcases j7 x hx with h2 | h2
        · rcases Finset.mem_insert.1 h2 with rfl | h3
          · right
            rw [hsuf]
            exact List.mem_append_left _ (List.mem_append_right _ (List.mem_singleton_self _))
          · exact Or.inl h3
        · exact Or.inr h2
    · rw [if_neg hg]
      push_neg at hg
      obtain ⟨j1, j2, j3, j4, j5, j6, j7⟩ := ih q vis par hcf hkv hc hstepr hq
      refine ⟨j1, j2, j3, j4, j5, ?_, j7⟩
      intro e he
      rcases List.mem_cons.1 he with rfl | h2
      · exact j3 nbr hg
      · exact j6 e h2

/-- The loop invariant of `bidirectional`. -/
structure BidiInv (g : Grid) (s : BidiState) : Prop where
  f_q_vis : ∀ x ∈ s.fwd_queue, x ∈ s.fwd_visited
  f_keys : ∀ x, x ∈ s.fwd_visited ↔ pmMem s.fwd_parent x = true
  f_cf : CfInv g g.start s.fwd_parent
  f_closed : ∀ v ∈ s.fwd_visited, v ∈ s.fwd_queue ∨ ∀ y, stepRel g v y → y ∈ s.fwd_visited
  f_start : g.start ∈ s.fwd_visited
  f_goal : g.goal ∈ s.fwd_visited → g.goal ∈ s.fwd_queue
  b_q_vis : ∀ x ∈ s.bwd_queue, x ∈ s.bwd_visited
  b_keys : ∀ x, x ∈ s.bwd_visited ↔ pmMem s.bwd_parent x = true
  b_cf : CfInv g g.goal s.bwd_parent
  b_goal : g.goal ∈ s.bwd_visited
  mono : SizesMono s.steps
  st_sub : ∀ st ∈ s.steps, st.visited ⊆ s.fwd_visited ∪ s.bwd_visited

/-- What `bidirectional` guarantees. -/
structure BidiOK (g : Grid) (r : List Step × List Pos) : Prop where
  walk : r.2 ≠ [] → WalkFrom g g.start r.2 g.goal
  complete : r.2 = [] → ¬ Reach g g.start g.goal
  mono : SizesMono r.1


theorem bidiFwd_inr_inv (g : Grid) (s s1 : BidiState) (h : bidiFwd g s = Sum.inr s1)
    (hInv : BidiInv g s) :
    BidiInv g s1 ∧ s1.bwd_queue = s.bwd_queue ∧ s1.bwd_visited = s.bwd_visited := by
  unfold bidiFwd at h
  cases hq : s.fwd_queue with
  | nil =>
    rw [hq] at h
    simp at h
    subst h
    exact ⟨hInv, rfl, rfl⟩
  | cons curF restF =>
    rw [hq] at h
    dsimp only at h
    split_ifs at h with hmeet
    injection h with h2
    subst h2
    have hcvis : curF ∈ s.fwd_visited := hInv.f_q_vis curF (hq ▸ List.mem_cons_self _ _)
    have hckey : pmMem s.fwd_parent curF = true := (hInv.f_keys curF).1 hcvis
    obtain ⟨j1, j2, j3, j4, ⟨suf, hsuf⟩, j6, j7⟩ := bidiPush_spec g g.start curF
      (get_neighbors g curF) restF s.fwd_visited s.fwd_parent hInv.f_cf hInv.f_keys hckey
      (by
        intro e he
        unfold stepRel
        rw [List.mem_map]
        exact ⟨e, he, rfl⟩)
      (fun x hx => hInv.f_q_vis x (hq ▸ List.mem_cons_of_mem _ hx))
    refine ⟨⟨j4, j2, j1, ?_, j3 _ hInv.f_start, ?_, hInv.b_q_vis, hInv.b_keys, hInv.b_cf,
      hInv.b_goal, ?_, ?_⟩, rfl, rfl⟩
    · -- f_closed
      intro v hv
      rcases j7 v hv with hvold | hvq
      · rcases hInv.f_closed v hvold with hq2 | hcl
        · rw [hq] at hq2
          rcases List.mem_cons.1 hq2 with rfl | h3
          · right
            intro y hy
            unfold stepRel at hy
            rw [List.mem_map] at hy
            obtain ⟨e, he, hee⟩ := hy
            exact hee ▸ j6 e he
          · left
            rw [hsuf]
            exact List.mem_append_left _ h3
        · right
          intro y hy
          exact j3 _ (hcl y hy)
      · exact Or.inl hvq
    · -- f_goal
      intro hg2
      rcases j7 _ hg2 with hvold | hvq
      · have := hInv.f_goal hvold
        rw [hq] at this
        rcases List.mem_cons.1 this with h3 | h3
        · exact absurd (h3 ▸ hInv.b_goal) hmeet
        · rw [hsuf]
          exact List.mem_append_left _ h3
      · exact hvq
    · -- mono
      apply sizesMono_append _ _ hInv.mono
      intro s0 hs0
      exact Finset.card_le_card (hInv.st_sub s0 hs0)
    · -- st_sub
      intro st hst
      rcases List.mem_append.1 hst with h3 | h3
      · refine (hInv.st_sub st h3).trans ?_
        intro x hx
        rcases Finset.mem_union.1 hx with h4 | h4
        · exact Finset.mem_union_left _ (j3 x h4)
        · exact Finset.mem_union_right _ h4
      · rw [List.mem_singleton] at h3
        subst h3
        intro x hx
        rcases Finset.mem_union.1 hx with h4 | h4
        · exact Finset.mem_union_left _ (j3 x h4)
        · exact Finset.mem_union_right _ h4

theorem bidiBwd_inr_inv (g : Grid) (s s1 : BidiState) (h : bidiBwd g s = Sum.inr s1)
    (hInv : BidiInv g s) : BidiInv g s1 := by
  unfold bidiBwd at h
  cases hq : s.bwd_queue with
  | nil =>
    rw [hq] at h
    simp at h
    subst h
    exact hInv
  | cons curB restB =>
    rw [hq] at h
    dsimp only at h
    split_ifs at h with hmeet
    injection h with h2
    subst h2
    have hcvis : curB ∈ s.bwd_visited := hInv.b_q_vis curB (hq ▸ List.mem_cons_self _ _)
    have hckey : pmMem s.bwd_parent curB = true := (hInv.b_keys curB).1 hcvis
    obtain ⟨j1, j2, j3, j4, ⟨suf, hsuf⟩, j6, j7⟩ := bidiPush_spec g g.goal curB
      (get_neighbors g curB) restB s.bwd_visited s.bwd_parent hInv.b_cf hInv.b_keys hckey
      (by
        intro e he
        unfold stepRel
        rw [List.mem_map]
        exact ⟨e, he, rfl⟩)
      (fun x hx => hInv.b_q_vis x (hq ▸ List.mem_cons_of_mem _ hx))
    refine ⟨hInv.f_q_vis, hInv.f_keys, hInv.f_cf, hInv.f_closed, hInv.f_start, hInv.f_goal,
      j4, j2, j1, j3 _ hInv.b_goal, ?_, ?_⟩
    · apply sizesMono_append _ _ hInv.mono
      intro s0 hs0
      exact Finset.card_le_card (hInv.st_sub s0 hs0)
    · intro st hst
      rcases List.mem_append.1 hst with h3 | h3
      · refine (hInv.st_sub st h3).trans ?_
        intro x hx
        rcases Finset.mem_union.1 hx with h4 | h4
        · exact Finset.mem_union_left _ h4
        · exact Finset.mem_union_right _ (j3 x h4)
      · rw [List.mem_singleton] at h3
        subst h3
        intro x hx
        rcases Finset.mem_union.1 hx with h4 | h4
        · exact Finset.mem_union_left _ h4
        · exact Finset.mem_union_right _ (j3 x h4)

theorem bidiFwd_inl_ok (g : Grid) (s : BidiState) (r : List Step × List Pos)
    (h : bidiFwd g s = Sum.inl r) (hInv : BidiInv g s) : BidiOK g r := by
  unfold bidiFwd at h
  cases hq : s.fwd_queue with
  | nil =>
    rw [hq] at h
    simp at h
  | cons curF restF =>
    rw [hq] at h
    dsimp only at h
    split_ifs at h with hmeet
    injection h with h2
    subst h2
    have hcvis : curF ∈ s.fwd_visited := hInv.f_q_vis curF (hq ▸ List.mem_cons_self _ _)
    have hfm : pmMem s.fwd_parent curF = true := (hInv.f_keys curF).1 hcvis
    have hbm : pmMem s.bwd_parent curF = true := (hInv.b_keys curF).1 hmeet
    obtain ⟨hne, hwalk⟩ := merge_paths_walk g s.fwd_parent s.bwd_parent curF
      hInv.f_cf hInv.b_cf hfm hbm
    refine ⟨fun _ => hwalk, fun he => absurd he hne, ?_⟩
    apply sizesMono_append _ _ hInv.mono
    intro s0 hs0
    exact Finset.card_le_card (hInv.st_sub s0 hs0)

theorem bidiBwd_inl_ok (g : Grid) (s : BidiState) (r : List Step × List Pos)
    (h : bidiBwd g s = Sum.inl r) (hInv : BidiInv g s) : BidiOK g r := by
  unfold bidiBwd at h
  cases hq : s.bwd_queue with
  | nil =>
    rw [hq] at h
    simp at h
  | cons curB restB =>
    rw [hq] at h
    dsimp only at h
    split_ifs at h with hmeet
    injection h with h2
    subst h2
    have hcvis : curB ∈ s.bwd_visited := hInv.b_q_vis curB (hq ▸ List.mem_cons_self _ _)
    have hfm : pmMem s.fwd_parent curB = true := (hInv.f_keys curB).1 hmeet
    have hbm : pmMem s.bwd_parent curB = true := (hInv.b_keys curB).1 hcvis
    obtain ⟨hne, hwalk⟩ := merge_paths_walk g s.fwd_parent s.bwd_parent curB
      hInv.f_cf hInv.b_cf hfm hbm
    refine ⟨fun _ => hwalk, fun he => absurd he hne, ?_⟩
    apply sizesMono_append _ _ hInv.mono
    intro s0 hs0
    exact Finset.card_le_card (hInv.st_sub s0 hs0)

theorem bidiLoop_sound (g : Grid) :
    ∀ (fuel : ℕ) (s : BidiState), BidiInv g s →
      ∀ r, bidiLoop g fuel s = some r → BidiOK g r := by
  intro fuel
  induction fuel with
  | zero =>
    intro s _ r hr
    rw [bidiLoop] at hr
    exact absurd hr (by simp)
  | succ f ih =>
    intro s hInv r hr
    rw [bidiLoop] at hr
    by_cases hempty : s.fwd_queue = [] ∧ s.bwd_queue = []
    · rw [if_pos hempty] at hr
      simp only [Option.some.injEq] at hr
      subst hr
      refine ⟨fun h => absurd rfl h, fun _ hreach => ?_, hInv.mono⟩
      have hclosed : ∀ v ∈ s.fwd_visited, ∀ y, stepRel g v y → y ∈ s.fwd_visited := by
        intro v hv y hy
        rcases hInv.f_closed v hv with h2 | h2
        · rw [hempty.1] at h2
          exact absurd h2 (List.not_mem_nil v)
        · exact h2 y hy
      have hgoal2 : g.goal ∈ s.fwd_visited :=
        reach_subset_closed g s.fwd_visited hclosed _ _ hInv.f_start hreach
      have := hInv.f_goal hgoal2
      rw [hempty.1] at this
      exact absurd this (List.not_mem_nil _)
    · rw [if_neg hempty] at hr
      cases hf : bidiFwd g s with
      | inl r2 =>
        rw [hf] at hr
        simp only [Option.some.injEq] at hr
        subst hr
        exact bidiFwd_inl_ok g s r2 hf hInv
      | inr s1 =>
        rw [hf] at hr
        dsimp only at hr
        obtain ⟨hInv1, _, _⟩ := bidiFwd_inr_inv g s s1 hf hInv
        cases hb : bidiBwd g s1 with
        | inl r2 =>
          rw [hb] at hr
          simp only [Option.some.injEq] at hr
          subst hr
          exact bidiBwd_inl_ok g s1 r2 hb hInv1
        | inr s2 =>
          rw [hb] at hr
          dsimp only at hr
          exact ih s2 (bidiBwd_inr_inv g s1 s2 hb hInv1) r hr

theorem bidirectional_ok (g : Grid) (hw : WellFormed g) : BidiOK g (bidirectional g) := by
  refine bidiLoop_sound g (bidiFuel g) (bidiInit g) ?_ (bidirectional g) (bidirectional_run g)
  refine ⟨?_, ?_, cfInv_init g g.start hw.1, ?_, ?_, ?_, ?_, ?_,
    cfInv_init g g.goal hw.2, ?_, sizesMono_nil, ?_⟩
  · intro x hx
    rw [show (bidiInit g).fwd_queue = [g.start] from rfl, List.mem_singleton] at hx
    subst hx
    exact Finset.mem_singleton_self _
  · intro x
    show x ∈ ({g.start} : Finset Pos) ↔ pmMem [(g.start, none)] x = true
    rw [Finset.mem_singleton, pmMem_cons]
    constructor
    · exact Or.inl
    · rintro (rfl | h2)
      · rfl
      · simp [pmMem, pmLookup] at h2
  · intro v hv
    rw [show (bidiInit g).fwd_visited = {g.start} from rfl, Finset.mem_singleton] at hv
    subst hv
    exact Or.inl (List.mem_singleton_self _)
  · exact Finset.mem_singleton_self _
  · intro hg2
    rw [show (bidiInit g).fwd_visited = {g.start} from rfl, Finset.mem_singleton] at hg2
    rw [show (bidiInit g).fwd_queue = [g.start] from rfl]
    rw [hg2]
    exact List.mem_singleton_self _
  · intro x hx
    rw [show (bidiInit g).bwd_queue = [g.goal] from rfl, List.mem_singleton] at hx
    subst hx
    exact Finset.mem_singleton_self _
  · intro x
    show x ∈ ({g.goal} : Finset Pos) ↔ pmMem [(g.goal, none)] x = true
    rw [Finset.mem_singleton, pmMem_cons]
    constructor
    · exact Or.inl
    · rintro (rfl | h2)
      · rfl
      · simp [pmMem, pmLookup] at h2
  · exact Finset.mem_singleton_self _
  · intro st hst
    exact absurd hst (List.not_mem_nil st)


/-! Loop invariant and soundness for `bfs`, including shortest-path
optimality. -/

/-- Length (in cells) of the recorded parent chain of `x`. -/
def dlen (cf : ParentMap) (x : Pos) : ℕ := (reconstruct_path cf x).length

theorem pmGet_cons_ne (k : Pos) (v : Option Pos) (cf : ParentMap) (x : Pos) (h : k ≠ x) :
    pmGet ((k, v) :: cf) x = pmGet cf x := by
  rw [pmGet, pmLookup, if_neg h, pmGet]

theorem dlen_start (g : Grid) (root : Pos) (cf : ParentMap) (hInv : CfInv g root cf)
    (hmem : pmMem cf root = true) (hroot : pmGet cf root = none) : dlen cf root = 1 := by
  have hchain : Chain cf root [root] := Chain.root root hroot
  unfold dlen
  rw [reconstruct_path_of_chain cf root [root] hchain (List.nodup_singleton root)
    (by
      intro y hy
      rw [List.mem_singleton] at hy
      exact hy ▸ hmem)]
  rfl

theorem dlen_cons_fresh (g : Grid) (root : Pos) (cf : ParentMap) (hInv : CfInv g root cf)
    (k c : Pos) (hk : ¬ pmMem cf k = true) (hc : pmMem cf c = true) :
    dlen ((k, some c) :: cf) k = dlen cf c + 1 ∧
    ∀ x, pmMem cf x = true → dlen ((k, some c) :: cf) x = dlen cf x := by
  obtain ⟨l, hch, hnd, hwalk, hkeys, hval⟩ := hInv c hc
  have hknotl : k ∉ l := fun hm => hk (hkeys k hm)
  have hrecold : reconstruct_path cf c = l :=
    reconstruct_path_of_chain cf c l hch hnd hkeys
  constructor
  · have hch2 : Chain ((k, some c) :: cf) k (l ++ [k]) := by
      refine Chain.step k c l ?_ (chain_cons_of_not_mem cf k (some c) c l hch hknotl)
      rw [pmGet, pmLookup]
      simp
    have hnd2 : (l ++ [k]).Nodup := by
      rw [List.nodup_append]
      refine ⟨hnd, List.nodup_singleton k, ?_⟩
      intro a ha hb
      rw [List.mem_singleton] at hb
      subst hb
      exact hknotl ha
    have hrec : reconstruct_path ((k, some c) :: cf) k = l ++ [k] := by
      apply reconstruct_path_of_chain _ _ _ hch2 hnd2
      intro y hy
      rcases List.mem_append.1 hy with h2 | h2
      · exact pmMem_mono _ _ _ _ (hkeys y h2)
      · rw [List.mem_singleton] at h2
        subst h2
        rw [pmMem_cons]
        exact Or.inl rfl
    unfold dlen
    rw [hrec, hrecold, List.length_append, List.length_singleton]
  · intro x hx
    obtain ⟨lx, hchx, hndx, hwalkx, hkeysx, hvalx⟩ := hInv x hx
    have hknotlx : k ∉ lx := fun hm => hk (hkeysx k hm)
    unfold dlen
    rw [reconstruct_path_of_chain cf x lx hchx hndx hkeysx,
      reconstruct_path_of_chain ((k, some c) :: cf) x lx
        (chain_cons_of_not_mem cf k (some c) x lx hchx hknotlx) hndx
        (fun y hy => pmMem_mono _ _ _ _ (hkeysx y hy))]

theorem walkFrom_length_pos (g : Grid) (a b : Pos) (l : List Pos) (h : WalkFrom g a l b) :
    1 ≤ l.length :=
  List.length_pos.2 (walkFrom_ne_nil g a b l h)

/-- The loop invariant of `bfs`. -/
structure BfsInv (g : Grid) (s : BfsState) : Prop where
  iq_eq : s.in_queue = s.queue.toFinset
  nodup : s.queue.Nodup
  q_not_vis : ∀ x ∈ s.queue, x ∉ s.visited
  keys : ∀ x, pmMem s.came_from x = true ↔ (x ∈ s.visited ∨ x ∈ s.queue)
  cf_inv : CfInv g g.start s.came_from
  start_root : pmGet s.came_from g.start = none
  start_mem : g.start ∈ s.visited ∨ g.start ∈ s.queue
  opt_vis : ∀ v ∈ s.visited, ∀ w, WalkFrom g g.start w v → dlen s.came_from v ≤ w.length
  sorted : List.Pairwise (fun a b => dlen s.came_from a ≤ dlen s.came_from b) s.queue
  spread : ∀ a ∈ s.queue, ∀ b ∈ s.queue, dlen s.came_from b ≤ dlen s.came_from a + 1
  vis_le : ∀ v ∈ s.visited, ∀ x ∈ s.queue, dlen s.came_from v ≤ dlen s.came_from x
  closure : ∀ v ∈ s.visited, ∀ y, stepRel g v y →
    (y ∈ s.visited ∨ y ∈ s.queue) ∧ dlen s.came_from y ≤ dlen s.came_from v + 1
  goal_not_vis : g.goal ∉ s.visited
  mono : SizesMono s.steps
  st_sub : ∀ st ∈ s.steps, st.visited ⊆ s.visited
  vop : VisitedOnlyPopped s.steps
  vis_cur : ∀ p ∈ s.visited, p ∈ s.steps.map Step.current
  cur_vis : ∀ c ∈ s.steps.map Step.current, c ∈ s.visited
  cur_nodup : (s.steps.map Step.current).Nodup
  cur_not_own : ∀ st ∈ s.steps, st.current ∉ st.visited

/-- Pop-time optimality: when `current` heads the queue, its recorded chain is
at most as long as any walk ending at any unvisited node, and visited chains
are bounded by walks to them. -/
theorem bfs_pop_opt (g : Grid) (s : BfsState) (hInv : BfsInv g s) (current : Pos)
    (rest : List Pos) (hq : s.queue = current :: rest) :
    ∀ (w : List Pos) (z : Pos), WalkFrom g g.start w z →
      (z ∈ s.visited → dlen s.came_from z ≤ w.length) ∧
      (z ∉ s.visited → dlen s.came_from current ≤ w.length) := by
  have hstart_key : pmMem s.came_from g.start = true := by
    rw [hInv.keys]
    exact hInv.start_mem
  have hds : dlen s.came_from g.start = 1 :=
    dlen_start g g.start s.came_from hInv.cf_inv hstart_key hInv.start_root
  have hcur_min : ∀ x ∈ s.queue, dlen s.came_from current ≤ dlen s.came_from x := by
    intro x hx
    rw [hq] at hx
    rcases List.mem_cons.1 hx with rfl | h2
    · exact le_refl _
    · have := hInv.sorted
      rw [hq, List.pairwise_cons] at this
      exact this.1 x h2
  intro w
  induction w using List.reverseRecOn with
  | nil =>
    intro z hw
    exact absurd (walkFrom_ne_nil g g.start z [] hw) (by simp)
  | append_singleton l x ihw =>
    intro z hw
    have hxz : x = z := by
      have := hw.2.1
      simp at this
      exact this
    subst hxz
    cases hl : l with
    | nil =>
      -- the walk is the singleton [start]
      subst hl
      have hzs : g.start = x := by
        have := hw.1
        simp at this
        exact this.symm
      subst hzs
      constructor
      · intro _
        rw [hds]
        simp
      · intro hnv
        have hq2 : g.start ∈ s.queue := by
          rcases hInv.start_mem with h2 | h2
          · exact absurd h2 hnv
          · exact h2
        calc dlen s.came_from current ≤ dlen s.came_from g.start := hcur_min _ hq2
          _ = 1 := hds
          _ ≤ _ := by simp
    | cons c0 t0 =>
      -- decompose: l is a walk to its last node p, and p steps to x
      subst hl
      have hlne : (c0 :: t0) ≠ [] := by simp
      obtain ⟨p, hp⟩ : ∃ p, (c0 :: t0).getLast? = some p := by
        cases hg2 : (c0 :: t0).getLast? with
        | none => rw [List.getLast?_eq_none_iff] at hg2; exact absurd hg2 hlne
        | some p => exact ⟨p, rfl⟩
      have hwl : WalkFrom g g.start (c0 :: t0) p := by
        refine ⟨?_, hp, ?_⟩
        · have := hw.1
          rwa [List.head?_append_of_ne_nil _ hlne] at this
        · have := hw.2.2
          have h3 : List.Chain' (stepRel g) ((c0 :: t0) ++ [x]) := this
          rw [List.chain'_append] at h3
          exact h3.1
      have hstep : stepRel g p x := by
        have h3 : List.Chain' (stepRel g) ((c0 :: t0) ++ [x]) := hw.2.2
        rw [List.chain'_append] at h3
        exact h3.2.2 p (by simpa using hp) x (by simp)
      have hlen : ((c0 :: t0) ++ [x]).length = (c0 :: t0).length + 1 := by
        rw [List.length_append, List.length_singleton]
      obtain ⟨ihv, ihnv⟩ := ihw p hwl
      by_cases hpv : p ∈ s.visited
      · -- predecessor already visited
        have hpd := ihv hpv
        obtain ⟨hymem, hyle⟩ := hInv.closure p hpv x hstep
        constructor
        · intro _
          rw [hlen]
          omega
        · intro hxv
          have hxq : x ∈ s.queue := by
            rcases hymem with h2 | h2
            · exact absurd h2 hxv
            · exact h2
          have := hcur_min x hxq
          rw [hlen]
          omega
      · -- predecessor not visited: the current head is already within bound
        have hcd := ihnv hpv
        constructor
        · intro hxv
          -- x visited while the queue head bounds the walk prefix
          have hxc : dlen s.came_from x ≤ dlen s.came_from current := by
            have hcq : current ∈ s.queue := by
              rw [hq]
              exact List.mem_cons_self _ _
            exact hInv.vis_le x hxv current hcq
          rw [hlen]
          omega
        · intro _
          rw [hlen]
          omega


/-- Bundle of facts maintained through `bfsPush`: `D` is the chain length of
the node being expanded; every queued node sits at depth `D` or `D + 1`. -/
structure BfsPushState (g : Grid) (vis2 : Finset Pos) (D : ℕ) (q : List Pos)
    (iq : Finset Pos) (cf : ParentMap) : Prop where
  iq_eq : iq = q.toFinset
  nodup : q.Nodup
  q_not_vis : ∀ x ∈ q, x ∉ vis2
  keys : ∀ x, pmMem cf x = true ↔ (x ∈ vis2 ∨ x ∈ q)
  cf_inv : CfInv g g.start cf
  start_key : pmMem cf g.start = true
  start_root : pmGet cf g.start = none
  opt_vis : ∀ v ∈ vis2, ∀ w, WalkFrom g g.start w v → dlen cf v ≤ w.length
  vis_le : ∀ v ∈ vis2, dlen cf v ≤ D
  q_bounds : ∀ x ∈ q, D ≤ dlen cf x ∧ dlen cf x ≤ D + 1
  sorted : List.Pairwise (fun a b => dlen cf a ≤ dlen cf b) q

theorem bfsPush_inv (g : Grid) (current : Pos) (vis2 : Finset Pos) (D : ℕ) :
    ∀ (list : List (Pos × ℚ)) (q : List Pos) (iq : Finset Pos) (cf : ParentMap),
      BfsPushState g vis2 D q iq cf →
      pmMem cf current = true → dlen cf current = D →
      (∀ e ∈ list, stepRel g current e.1) →
      BfsPushState g vis2 D (bfsPush current vis2 list q iq cf).1
        (bfsPush current vis2 list q iq cf).2.1 (bfsPush current vis2 list q iq cf).2.2 ∧
      (∀ x, pmMem cf x = true →
        pmMem (bfsPush current vis2 list q iq cf).2.2 x = true ∧
        dlen (bfsPush current vis2 list q iq cf).2.2 x = dlen cf x) ∧
      (∀ e ∈ list, e.1 ∈ vis2 ∨ e.1 ∈ (bfsPush current vis2 list q iq cf).1) ∧
      (∃ suf, (bfsPush current vis2 list q iq cf).1 = q ++ suf) := by
  intro list
  induction list with
  | nil =>
    intro q iq cf hS _ _ _
    rw [bfsPush]
    exact ⟨hS, fun x hx => ⟨hx, rfl⟩, fun e he => absurd he (List.not_mem_nil e),
      ⟨[], (List.append_nil q).symm⟩⟩
  | cons e rest ih =>
    intro q iq cf hS hc hD hlist
    obtain ⟨nbr, cost⟩ := e
    have hstep : stepRel g current nbr := hlist (nbr, cost) (List.mem_cons_self _ _)
    rw [bfsPush]
    by_cases hg : nbr ∉ vis2 ∧ nbr ∉ iq
    · rw [if_pos hg]
      have hnq : nbr ∉ q := by
        intro hm
        exact hg.2 (hS.iq_eq ▸ List.mem_toFinset.2 hm)
      have hfresh : ¬ pmMem cf nbr = true := by
        rw [hS.keys]
        push_neg
        exact ⟨hg.1, hnq⟩
      have hval : is_valid g nbr = true := stepRel_valid g current nbr hstep
      have hcf2 : CfInv g g.start ((nbr, some current) :: cf) :=
        cfInv_cons g g.start cf hS.cf_inv nbr current hfresh hval hc hstep
      obtain ⟨hdnew, hdold⟩ :=
        dlen_cons_fresh g g.start cf hS.cf_inv nbr current hfresh hc
      rw [hD] at hdnew
      have hns : nbr ≠ g.start := by
        intro h2
        exact hfresh (h2 ▸ hS.start_key)
      have hS2 : BfsPushState g vis2 D (q ++ [nbr]) (insert nbr iq)
          ((nbr, some current) :: cf) := by
        refine ⟨?_, ?_, ?_, ?_, hcf2, pmMem_mono _ _ _ _ hS.start_key, ?_, ?_, ?_, ?_, ?_⟩
        · rw [hS.iq_eq]
          ext a
          simp [or_comm]
        · rw [List.nodup_append]
          refine ⟨hS.nodup, List.nodup_singleton _, ?_⟩
          intro a ha hb
          rw [List.mem_singleton] at hb
          subst hb
          exact hnq ha
        · intro x hx
          rcases List.mem_append.1 hx with h2 | h2
          · exact hS.q_not_vis x h2
          · rw [List.mem_singleton] at h2
            subst h2
            exact hg.1
        · intro x
          rw [pmMem_cons, hS.keys, List.mem_append, List.mem_singleton]
          tauto
        · rw [pmGet_cons_ne nbr (some current) cf g.start hns]
          exact hS.start_root
        · intro v hv w hw
          rw [hdold v ((hS.keys v).2 (Or.inl hv))]
          exact hS.opt_vis v hv w hw
        · intro v hv
          rw [hdold v ((hS.keys v).2 (Or.inl hv))]
          exact hS.vis_le v hv
        · intro x hx
          rcases List.mem_append.1 hx with h2 | h2
          · rw [hdold x ((hS.keys x).2 (Or.inr h2))]
            exact hS.q_bounds x h2
          · rw [List.mem_singleton] at h2
            subst h2
            rw [hdnew]
            omega
        · rw [List.pairwise_append]
          refine ⟨?_, List.pairwise_singleton _ _, ?_⟩
          · refine List.Pairwise.imp_of_mem ?_ hS.sorted
            intro a b ha hb hab
            rw [hdold a ((hS.keys a).2 (Or.inr ha)), hdold b ((hS.keys b).2 (Or.inr hb))]
            exact hab
          · intro a ha b hb
            rw [List.mem_singleton] at hb
            subst hb
            rw [hdold a ((hS.keys a).2 (Or.inr ha)), hdnew]
            exact le_trans (hS.q_bounds a ha).2 (le_refl _)
      have hc2 : pmMem ((nbr, some current) :: cf) current = true := pmMem_mono _ _ _ _ hc
      have hD2 : dlen ((nbr, some current) :: cf) current = D := by
        rw [hdold current hc]
        exact hD
      obtain ⟨rS, rKeys, rCov, rSuf⟩ := ih (q ++ [nbr]) (insert nbr iq)
        ((nbr, some current) :: cf) hS2 hc2 hD2
        (fun e he => hlist e (List.mem_cons_of_mem _ he))
      refine ⟨rS, ?_, ?_, ?_⟩
      · intro x hx
        obtain ⟨h1, h2⟩ := rKeys x (pmMem_mono _ _ _ _ hx)
        exact ⟨h1, by rw [h2, hdold x hx]⟩
      · intro e2 he2
        rcases List.mem_cons.1 he2 with rfl | h2
        · right
          obtain ⟨suf, hsuf⟩ := rSuf
          rw [hsuf, List.mem_append]
          left
          rw [List.mem_append, List.mem_singleton]
          right
          rfl
        · exact rCov e2 h2
      · obtain ⟨suf, hsuf⟩ := rSuf
        exact ⟨[nbr] ++ suf, by rw [hsuf, List.append_assoc]⟩
    · rw [if_neg hg]
      obtain ⟨rS, rKeys, rCov, rSuf⟩ := ih q iq cf hS hc hD
        (fun e he => hlist e (List.mem_cons_of_mem _ he))
      refine ⟨rS, rKeys, ?_, rSuf⟩
      intro e2 he2
      rcases List.mem_cons.1 he2 with rfl | h2
      · push_neg at hg
        by_cases hv2 : nbr ∈ vis2
        · exact Or.inl hv2
        · right
          obtain ⟨suf, hsuf⟩ := rSuf
          rw [hsuf, List.mem_append]
          left
          exact List.mem_toFinset.1 (hS.iq_eq ▸ hg hv2)
      · exact rCov e2 h2


/-- What the claims need from a finished `bfs` run. -/
structure BfsOK (g : Grid) (r : List Step × List Pos) : Prop where
  walk : r.2 ≠ [] → WalkFrom g g.start r.2 g.goal ∧ r.2.Nodup ∧
    (∀ y ∈ r.2, is_valid g y = true) ∧
    ∀ w, WalkFrom g g.start w g.goal → r.2.length ≤ w.length
  complete : r.2 = [] → ¬ Reach g g.start g.goal
  mono : SizesMono r.1
  vop : VisitedOnlyPopped r.1
  cur_nodup : (r.1.map Step.current).Nodup
  cur_not_own : ∀ st ∈ r.1, st.current ∉ st.visited

theorem bfsInv_init (g : Grid) (hv : is_valid g g.start = true) :
    BfsInv g (bfsInit g) := by
  refine ⟨by simp [bfsInit], by simp [bfsInit], ?_, ?_, cfInv_init g g.start hv, ?_, ?_,
    ?_, ?_, ?_, ?_, ?_, ?_, List.chain'_nil, ?_, ?_, ?_, ?_, by simp [bfsInit], ?_⟩
  · intro x _
    exact Finset.not_mem_empty x
  · intro x
    show pmMem [(g.start, none)] x = true ↔ (x ∈ (∅ : Finset Pos) ∨ x ∈ [g.start])
    rw [pmMem_cons]
    constructor
    · rintro (rfl | h2)
      · exact Or.inr (List.mem_cons_self _ _)
      · simp [pmMem, pmLookup] at h2
    · rintro (h2 | h2)
      · exact absurd h2 (Finset.not_mem_empty x)
      · rw [List.mem_singleton] at h2
        exact Or.inl h2
  · show pmGet [(g.start, none)] g.start = none
    simp [pmGet, pmLookup]
  · exact Or.inr (List.mem_cons_self _ _)
  · intro v hv2
    exact absurd hv2 (Finset.not_mem_empty v)
  · exact List.pairwise_singleton _ _
  · intro a ha b hb
    simp only [bfsInit, List.mem_singleton] at ha hb
    subst ha
    subst hb
    exact Nat.le_succ _
  · intro v hv2
    exact absurd hv2 (Finset.not_mem_empty v)
  · intro v hv2
    exact absurd hv2 (Finset.not_mem_empty v)
  · exact Finset.not_mem_empty _
  · intro st hst
    exact absurd hst (List.not_mem_nil st)
  · intro i hi
    simp [bfsInit] at hi
  · intro p hp
    exact absurd hp (Finset.not_mem_empty p)
  · intro c hc
    simp [bfsInit] at hc
  · intro st hst
    exact absurd hst (List.not_mem_nil st)

theorem bfsLoop_sound (g : Grid) :
    ∀ (fuel : ℕ) (s : BfsState), BfsInv g s →
      ∀ r, bfsLoop g fuel s = some r → BfsOK g r := by
  intro fuel
  induction fuel with
  | zero =>
    intro s _ r hr
    rw [bfsLoop] at hr
    exact absurd hr (by simp)
  | succ f ih =>
    intro s hInv r hr
    rw [bfsLoop] at hr
    cases hq : s.queue with
    | nil =>
      rw [hq] at hr
      simp only [Option.some.injEq] at hr
      subst hr
      refine ⟨fun h => absurd rfl h, fun _ => ?_, hInv.mono, hInv.vop, hInv.cur_nodup,
        hInv.cur_not_own⟩
      intro hreach
      have hclosed : ∀ v ∈ s.visited, ∀ y, stepRel g v y → y ∈ s.visited := by
        intro v hv y hy
        rcases (hInv.closure v hv y hy).1 with h2 | h2
        · exact h2
        · rw [hq] at h2
          exact absurd h2 (List.not_mem_nil y)
      have hstart : g.start ∈ s.visited := by
        rcases hInv.start_mem with h2 | h2
        · exact h2
        · rw [hq] at h2
          exact absurd h2 (List.not_mem_nil _)
      exact hInv.goal_not_vis (reach_subset_closed g s.visited hclosed _ _ hstart hreach)
    | cons current rest =>
      rw [hq] at hr
      dsimp only at hr
      have hcur_q : current ∈ s.queue := hq ▸ List.mem_cons_self _ _
      have hcur_key : pmMem s.came_from current = true :=
        (hInv.keys current).2 (Or.inr hcur_q)
      have hcur_nvis : current ∉ s.visited := hInv.q_not_vis current hcur_q
      have hcur_rest : current ∉ rest := by
        have := hInv.nodup
        rw [hq, List.nodup_cons] at this
        exact this.1
      have hcur_nc : current ∉ s.steps.map Step.current := by
        intro hm
        exact hcur_nvis (hInv.cur_vis current hm)
      have hnew_vop : VisitedOnlyPopped (s.steps ++ [make_step current rest s.visited]) := by
        apply vop_append _ _ hInv.vop
        intro p hp
        exact hInv.vis_cur p hp
      have hnew_mono : SizesMono (s.steps ++ [make_step current rest s.visited]) := by
        apply sizesMono_append _ _ hInv.mono
        intro s0 hs0
        exact Finset.card_le_card (hInv.st_sub s0 hs0)
      have hnew_cur_nodup :
          ((s.steps ++ [make_step current rest s.visited]).map Step.current).Nodup := by
        rw [List.map_append]
        rw [List.nodup_append]
        refine ⟨hInv.cur_nodup, by simp [make_step], ?_⟩
        intro a ha hb
        simp [make_step] at hb
        subst hb
        exact hcur_nc ha
      have hnew_cur_not_own :
          ∀ st ∈ s.steps ++ [make_step current rest s.visited], st.current ∉ st.visited := by
        intro st hst
        rcases List.mem_append.1 hst with h2 | h2
        · exact hInv.cur_not_own st h2
        · rw [List.mem_singleton] at h2
          subst h2
          exact hcur_nvis
      by_cases hgoal : current = g.goal
      · -- goal reached: the recorded chain is a shortest walk
        rw [if_pos hgoal] at hr
        simp only [Option.some.injEq] at hr
        subst hr
        obtain ⟨l, hc, hnd, hwalk, hkeys, hval⟩ := hInv.cf_inv current hcur_key
        have hrec : reconstruct_path s.came_from current = l :=
          reconstruct_path_of_chain s.came_from current l hc hnd hkeys
        have hopt : ∀ w, WalkFrom g g.start w current →
            (reconstruct_path s.came_from current).length ≤ w.length := by
          intro w hw
          exact (bfs_pop_opt g s hInv current rest hq w current hw).2 hcur_nvis
        refine ⟨fun _ => ?_, fun he => ?_, hnew_mono, hnew_vop, hnew_cur_nodup,
          hnew_cur_not_own⟩
        · show WalkFrom g g.start (reconstruct_path s.came_from current) g.goal ∧ _
          rw [hrec, ← hgoal]
          refine ⟨hwalk, hnd, hval, ?_⟩
          intro w hw
          rw [← hrec]
          exact hopt w hw
        · exfalso
          have he2 : reconstruct_path s.came_from current = [] := he
          rw [hrec] at he2
          exact chain_ne_nil _ _ _ hc he2
      · -- not the goal: the skip test fails, so expand current
        rw [if_neg hgoal, if_neg hcur_nvis] at hr
        refine ih _ ?_ r hr
        have hpop := bfs_pop_opt g s hInv current rest hq
        have hsorted_tail := hInv.sorted
        rw [hq, List.pairwise_cons] at hsorted_tail
        have hPS0 : BfsPushState g (insert current s.visited)
            (dlen s.came_from current) rest (s.in_queue.erase current) s.came_from := by
          refine ⟨?_, ?_, ?_, ?_, hInv.cf_inv, ?_, hInv.start_root, ?_, ?_, ?_,
            hsorted_tail.2⟩
          · rw [hInv.iq_eq, hq, List.toFinset_cons]
            exact Finset.erase_insert (fun hm => hcur_rest (List.mem_toFinset.1 hm))
          · have := hInv.nodup
            rw [hq, List.nodup_cons] at this
            exact this.2
          · intro x hx
            rw [Finset.mem_insert]
            push_neg
            refine ⟨?_, hInv.q_not_vis x (hq ▸ List.mem_cons_of_mem _ hx)⟩
            intro h2
            exact hcur_rest (h2 ▸ hx)
          · intro x
            rw [hInv.keys, hq, Finset.mem_insert, List.mem_cons]
            tauto
          · rw [hInv.keys]
            exact hInv.start_mem
          · intro v hv w hw
            rcases Finset.mem_insert.1 hv with rfl | h2
            · exact (hpop w v hw).2 hcur_nvis
            · exact hInv.opt_vis v h2 w hw
          · intro v hv
            rcases Finset.mem_insert.1 hv with rfl | h2
            · exact le_refl _
            · exact hInv.vis_le v h2 current hcur_q
          · intro x hx
            exact ⟨hsorted_tail.1 x hx,
              hInv.spread current hcur_q x (hq ▸ List.mem_cons_of_mem _ hx)⟩
        have hlist : ∀ e ∈ get_neighbors g current, stepRel g current e.1 := by
          intro e he
          exact List.mem_map_of_mem Prod.fst he
        obtain ⟨rS, rKeys, rCov, rSuf⟩ := bfsPush_inv g current (insert current s.visited)
          (dlen s.came_from current) (get_neighbors g current) rest
          (s.in_queue.erase current) s.came_from hPS0 hcur_key rfl hlist
        refine ⟨rS.iq_eq, rS.nodup, rS.q_not_vis, rS.keys, rS.cf_inv, rS.start_root,
          (rS.keys g.start).1 rS.start_key, rS.opt_vis, rS.sorted, ?_, ?_, ?_, ?_,
          hnew_mono, ?_, hnew_vop, ?_, ?_, hnew_cur_nodup, hnew_cur_not_own⟩
        · dsimp only
          intro a ha b hb
          have hba := rS.q_bounds b hb
          have haa := rS.q_bounds a ha
          omega
        · intro v hv x hx
          exact le_trans (rS.vis_le v hv) (rS.q_bounds x hx).1
        · dsimp only
          intro v hv y hy
          have hdc : dlen (bfsPush current (insert current s.visited)
              (get_neighbors g current) rest (s.in_queue.erase current) s.came_from).2.2
              current = dlen s.came_from current := (rKeys current hcur_key).2
          rcases Finset.mem_insert.1 hv with rfl | hvold
          · -- v is the node just expanded
            obtain ⟨e, he, he1⟩ := List.mem_map.1 hy
            have hcov := rCov e he
            rw [he1] at hcov
            refine ⟨hcov, ?_⟩
            rw [hdc]
            rcases hcov with h2 | h2
            · have := rS.vis_le y h2
              omega
            · exact (rS.q_bounds y h2).2
          · obtain ⟨hm, hd⟩ := hInv.closure v hvold y hy
            have hykey : pmMem s.came_from y = true := by
              rw [hInv.keys]
              rcases hm with h2 | h2
              · exact Or.inl h2
              · exact Or.inr h2
            have hvkey : pmMem s.came_from v = true :=
              (hInv.keys v).2 (Or.inl hvold)
            refine ⟨?_, ?_⟩
            · rcases hm with h2 | h2
              · exact Or.inl (Finset.mem_insert_of_mem h2)
              · rw [hq, List.mem_cons] at h2
                rcases h2 with rfl | h3
                · exact Or.inl (Finset.mem_insert_self _ _)
                · right
                  obtain ⟨suf, hsuf⟩ := rSuf
                  rw [hsuf, List.mem_append]
                  exact Or.inl h3
            · rw [(rKeys y hykey).2, (rKeys v hvkey).2]
              exact hd
        · rw [Finset.mem_insert]
          push_neg
          exact ⟨fun h2 => hgoal h2.symm, hInv.goal_not_vis⟩
        · intro st hst
          rcases List.mem_append.1 hst with h2 | h2
          · exact (hInv.st_sub st h2).trans (Finset.subset_insert _ _)
          · rw [List.mem_singleton] at h2
            subst h2
            exact Finset.subset_insert _ _
        · intro p hp
          rw [List.map_append, List.mem_append]
          rcases Finset.mem_insert.1 hp with rfl | h2
          · right
            simp [make_step]
          · exact Or.inl (hInv.vis_cur p h2)
        · intro c hc2
          rw [List.map_append, List.mem_append] at hc2
          rcases hc2 with h2 | h2
          · exact Finset.mem_insert_of_mem (hInv.cur_vis c h2)
          · simp [make_step] at h2
            subst h2
            exact Finset.mem_insert_self _ _

/-- Soundness of `bfs` on any grid with a valid start cell. -/
theorem bfs_ok (g : Grid) (hv : is_valid g g.start = true) : BfsOK g (bfs g) :=
  bfsLoop_sound g (bfsFuel g) (bfsInit g) (bfsInv_init g hv) (bfs g) (bfs_run g)


/-! Loop invariant and soundness for `ucs` (Dijkstra with the module's move
costs). -/

/-- Total read of `cost_so_far`; all uses are at recorded keys. -/
def csD (cs : CostMap) (x : Pos) : ℚ := (csLookup cs x).getD 0

theorem csLookup_cons (k : Pos) (v : ℚ) (cs : CostMap) (x : Pos) :
    csLookup ((k, v) :: cs) x = if k = x then some v else csLookup cs x := rfl

theorem moveCost_nonneg (a b : Pos) : 0 ≤ moveCost a b := by
  rw [moveCost]
  split_ifs <;> norm_num

theorem walkCost_snoc : ∀ (l : List Pos) (p z : Pos), l.getLast? = some p →
    walkCost (l ++ [z]) = walkCost l + moveCost p z
  | [], p, z, h => by simp at h
  | [a], p, z, h => by
    simp at h
    subst h
    show moveCost a z + walkCost [z] = walkCost [a] + moveCost a z
    show moveCost a z + 0 = 0 + moveCost a z
    ring
  | a :: b :: t, p, z, h => by
    rw [List.getLast?_cons_cons] at h
    show moveCost a b + walkCost ((b :: t) ++ [z]) = moveCost a b + walkCost (b :: t) + moveCost p z
    rw [walkCost_snoc (b :: t) p z h]
    ring

theorem get_neighbors_cost (g : Grid) (p : Pos) :
    ∀ e ∈ get_neighbors g p, e.2 = moveCost p e.1 := by
  intro e he
  obtain ⟨e1, e2⟩ := e
  have h := (mem_get_neighbors_iff g p e1 e2).1 he
  rw [h.2.2, moveCost]
  by_cases hc : e1.1 ≠ p.1 ∧ e1.2 ≠ p.2
  · rw [if_pos hc, if_pos ⟨hc.1.symm, hc.2.symm⟩]
  · rw [if_neg hc, if_neg ?_]
    intro h2
    exact hc ⟨h2.1.symm, h2.2.symm⟩

theorem chain_mem_dropLast_or_eq (l : List Pos) (x : Pos) (hlast : l.getLast? = some x) :
    ∀ y ∈ l, y ∈ l.dropLast ∨ y = x := by
  intro y hy
  have hne : l ≠ [] := by
    rintro rfl
    simp at hlast
  conv at hy => rw [← List.dropLast_append_getLast hne]
  rcases List.mem_append.1 hy with h | h
  · exact Or.inl h
  · right
    rw [List.mem_singleton] at h
    rw [List.getLast?_eq_getLast _ hne] at hlast
    rw [h]
    exact Option.some.inj hlast

theorem entryLE_cost_le (a b : UEntry) (h : entryLE a b) : a.1 ≤ b.1 := by
  rcases h with h | ⟨h, _⟩
  · exact le_of_lt h
  · exact le_of_eq h

/-- A recorded parent chain of `ucs`: a simple valid walk from the start whose
interior nodes are settled and whose cost is the recorded `cost_so_far`. -/
def UChain (g : Grid) (vis : Finset Pos) (cf : ParentMap) (cs : CostMap) (x : Pos) : Prop :=
  ∃ l, Chain cf x l ∧ l.Nodup ∧ WalkFrom g g.start l x ∧
    (∀ y ∈ l, pmMem cf y = true) ∧ (∀ y ∈ l, is_valid g y = true) ∧
    (∀ y ∈ l.dropLast, y ∈ vis) ∧ walkCost l = csD cs x

/-- The loop invariant of `ucs`. -/
structure UcsInv (g : Grid) (s : UcsState) : Prop where
  sorted : List.Pairwise entryLE s.heap
  cs_keys : ∀ x, pmMem s.came_from x = true ↔ (csLookup s.cost_so_far x).isSome = true
  chains : ∀ x, pmMem s.came_from x = true → UChain g s.visited s.came_from s.cost_so_far x
  cs_nonneg : ∀ x c, csLookup s.cost_so_far x = some c → 0 ≤ c
  vis_key : ∀ v ∈ s.visited, (csLookup s.cost_so_far v).isSome = true
  vis_opt : ∀ v ∈ s.visited, ∀ w, WalkFrom g g.start w v → csD s.cost_so_far v ≤ walkCost w
  vis_heap_le : ∀ v ∈ s.visited, ∀ e ∈ s.heap, csD s.cost_so_far v ≤ e.1
  heap_key : ∀ e ∈ s.heap, (csLookup s.cost_so_far e.2.2).isSome = true ∧
    csD s.cost_so_far e.2.2 ≤ e.1
  front : ∀ x, (csLookup s.cost_so_far x).isSome = true → x ∉ s.visited →
    ∃ e ∈ s.heap, e.2.2 = x ∧ e.1 = csD s.cost_so_far x
  clos : ∀ v ∈ s.visited, ∀ y, stepRel g v y →
    (csLookup s.cost_so_far y).isSome = true ∧
    csD s.cost_so_far y ≤ csD s.cost_so_far v + moveCost v y
  start_cs : csLookup s.cost_so_far g.start = some 0
  start_root : pmGet s.came_from g.start = none
  goal_not_vis : g.goal ∉ s.visited
  mono : SizesMono s.steps
  st_sub : ∀ st ∈ s.steps, st.visited ⊆ s.visited
  vop : VisitedOnlyPopped s.steps
  vis_cur : ∀ p ∈ s.visited, p ∈ s.steps.map Step.current

/-- What the claims need from a finished `ucs` run. -/
structure UcsOK (g : Grid) (r : List Step × List Pos) : Prop where
  walk : r.2 ≠ [] → WalkFrom g g.start r.2 g.goal ∧ r.2.Nodup ∧
    (∀ y ∈ r.2, is_valid g y = true) ∧
    ∀ w, WalkFrom g g.start w g.goal → walkCost r.2 ≤ walkCost w
  complete : r.2 = [] → ¬ Reach g g.start g.goal
  mono : SizesMono r.1
  vop : VisitedOnlyPopped r.1


/-- Pop-time optimality for `ucs`: when `(c, k, p)` heads the sorted heap,
`c` bounds the cost of any walk ending at any unvisited node, and settled
costs are bounded by walks to them. -/
theorem ucs_pop_opt (g : Grid) (s : UcsState) (hInv : UcsInv g s) (c : ℚ) (k : ℕ)
    (p : Pos) (rest : List UEntry) (hq : s.heap = (c, k, p) :: rest) :
    ∀ (w : List Pos) (z : Pos), WalkFrom g g.start w z →
      (z ∈ s.visited → csD s.cost_so_far z ≤ walkCost w) ∧
      (z ∉ s.visited → c ≤ walkCost w) := by
  have hstart_key : (csLookup s.cost_so_far g.start).isSome = true := by
    rw [hInv.start_cs]
    rfl
  have hstart_d : csD s.cost_so_far g.start = 0 := by
    rw [csD, hInv.start_cs]
    rfl
  have hhead_min : ∀ e ∈ s.heap, c ≤ e.1 := by
    intro e he
    rw [hq] at he
    rcases List.mem_cons.1 he with rfl | h2
    · exact le_refl c
    · have hs := hInv.sorted
      rw [hq, List.pairwise_cons] at hs
      exact entryLE_cost_le _ _ (hs.1 e h2)
  intro w
  induction w using List.reverseRecOn with
  | nil =>
    intro z hw
    exact absurd (walkFrom_ne_nil g g.start z [] hw) (by simp)
  | append_singleton l x ihw =>
    intro z hw
    have hxz : x = z := by
      have := hw.2.1
      simp at this
      exact this
    subst hxz
    cases hl : l with
    | nil =>
      subst hl
      have hzs : g.start = x := by
        have := hw.1
        simp at this
        exact this.symm
      subst hzs
      constructor
      · intro hv
        exact hInv.vis_opt _ hv _ hw
      · intro hnv
        obtain ⟨e, he, he2, he3⟩ := hInv.front g.start hstart_key hnv
        have hc0 : c ≤ 0 := by
          have := hhead_min e he
          rw [he3, hstart_d] at this
          exact this
        exact hc0
    | cons c0 t0 =>
      subst hl
      have hlne : (c0 :: t0) ≠ [] := by simp
      obtain ⟨q, hq2⟩ : ∃ q, (c0 :: t0).getLast? = some q := by
        cases hg2 : (c0 :: t0).getLast? with
        | none => rw [List.getLast?_eq_none_iff] at hg2; exact absurd hg2 hlne
        | some q => exact ⟨q, rfl⟩
      have hwl : WalkFrom g g.start (c0 :: t0) q := by
        refine ⟨?_, hq2, ?_⟩
        · have := hw.1
          rwa [List.head?_append_of_ne_nil _ hlne] at this
        · have h3 : List.Chain' (stepRel g) ((c0 :: t0) ++ [x]) := hw.2.2
          rw [List.chain'_append] at h3
          exact h3.1
      have hstep : stepRel g q x := by
        have h3 : List.Chain' (stepRel g) ((c0 :: t0) ++ [x]) := hw.2.2
        rw [List.chain'_append] at h3
        exact h3.2.2 q (by simpa using hq2) x (by simp)
      have hcost : walkCost ((c0 :: t0) ++ [x]) = walkCost (c0 :: t0) + moveCost q x :=
        walkCost_snoc (c0 :: t0) q x hq2
      have hmove : 0 ≤ moveCost q x := moveCost_nonneg q x
      obtain ⟨ihv, ihnv⟩ := ihw q hwl
      by_cases hqv : q ∈ s.visited
      · have hqd := ihv hqv
        obtain ⟨hxkey, hxle⟩ := hInv.clos q hqv x hstep
        constructor
        · intro _
          rw [hcost]
          linarith
        · intro hxv
          obtain ⟨e, he, he2, he3⟩ := hInv.front x hxkey hxv
          have hce : c ≤ csD s.cost_so_far x := by
            have := hhead_min e he
            rw [he3] at this
            exact this
          rw [hcost]
          linarith
      · have hcd := ihnv hqv
        constructor
        · intro hxv
          have hxc : csD s.cost_so_far x ≤ c := by
            have := hInv.vis_heap_le x hxv (c, k, p) (hq ▸ List.mem_cons_self _ _)
            exact this
          rw [hcost]
          linarith
        · intro _
          rw [hcost]
          linarith


/-- Bundle of facts maintained through `ucsRelax`: `c` is the settled cost of
the node being expanded. -/
structure UcsRelaxState (g : Grid) (vis2 : Finset Pos) (c : ℚ) (hp : List UEntry)
    (cf : ParentMap) (cs : CostMap) : Prop where
  sorted : List.Pairwise entryLE hp
  cs_keys : ∀ x, pmMem cf x = true ↔ (csLookup cs x).isSome = true
  chains : ∀ x, pmMem cf x = true → UChain g vis2 cf cs x
  cs_nonneg : ∀ x c0, csLookup cs x = some c0 → 0 ≤ c0
  vis_key : ∀ v ∈ vis2, (csLookup cs v).isSome = true
  vis_opt : ∀ v ∈ vis2, ∀ w, WalkFrom g g.start w v → csD cs v ≤ walkCost w
  vis_le_c : ∀ v ∈ vis2, csD cs v ≤ c
  vis_heap_le : ∀ v ∈ vis2, ∀ e ∈ hp, csD cs v ≤ e.1
  heap_key : ∀ e ∈ hp, (csLookup cs e.2.2).isSome = true ∧ csD cs e.2.2 ≤ e.1
  front : ∀ x, (csLookup cs x).isSome = true → x ∉ vis2 →
    ∃ e ∈ hp, e.2.2 = x ∧ e.1 = csD cs x
  start_cs : csLookup cs g.start = some 0
  start_root : pmGet cf g.start = none

theorem ucsRelax_push (g : Grid) (p : Pos) (vis2 : Finset Pos) (c : ℚ) (hpv : p ∈ vis2)
    (hp : List UEntry) (cf : ParentMap) (cs : CostMap)
    (hS : UcsRelaxState g vis2 c hp cf cs) (hp_cs : csLookup cs p = some c)
    (nbr : Pos) (edge : ℚ) (hstep : stepRel g p nbr) (hedge : edge = moveCost p nbr)
    (hnv : nbr ∉ vis2)
    (himp : ∀ c0, csLookup cs nbr = some c0 → c + edge < c0)
    (ctr2 : ℕ) :
    UcsRelaxState g vis2 c (hp.orderedInsert entryLE (c + edge, ctr2, nbr))
      ((nbr, some p) :: cf) ((nbr, c + edge) :: cs) ∧
    (∀ v ∈ vis2, csLookup ((nbr, c + edge) :: cs) v = csLookup cs v) ∧
    (∀ x c0, csLookup cs x = some c0 →
      ∃ c1, csLookup ((nbr, c + edge) :: cs) x = some c1 ∧ c1 ≤ c0) := by
  have hlk_ne : ∀ x, nbr ≠ x → csLookup ((nbr, c + edge) :: cs) x = csLookup cs x := by
    intro x hx
    rw [csLookup_cons, if_neg hx]
  have hlk_self : csLookup ((nbr, c + edge) :: cs) nbr = some (c + edge) := by
    rw [csLookup_cons, if_pos rfl]
  have hD_self : csD ((nbr, c + edge) :: cs) nbr = c + edge := by
    rw [csD, hlk_self]
    rfl
  have hD_ne : ∀ x, nbr ≠ x → csD ((nbr, c + edge) :: cs) x = csD cs x := by
    intro x hx
    rw [csD, hlk_ne x hx, csD]
  have hpD : csD cs p = c := by
    rw [csD, hp_cs]
    rfl
  have hc_nonneg : 0 ≤ c := hS.cs_nonneg p c hp_cs
  have hedge_nonneg : 0 ≤ edge := hedge ▸ moveCost_nonneg p nbr
  have hnp : nbr ≠ p := fun h2 => hnv (h2 ▸ hpv)
  have hns : nbr ≠ g.start := by
    intro h2
    have := himp 0 (h2 ▸ hS.start_cs)
    linarith
  have hp_key : pmMem cf p = true := (hS.cs_keys p).2 (by rw [hp_cs]; rfl)
  obtain ⟨lp, hch, hnd, hwalk, hkeys, hval, hint, hcost⟩ := hS.chains p hp_key
  have hlp_last : lp.getLast? = some p := hwalk.2.1
  have hlp_vis : ∀ y ∈ lp, y ∈ vis2 := by
    intro y hy
    rcases chain_mem_dropLast_or_eq lp p hlp_last y hy with h2 | rfl
    · exact hint y h2
    · exact hpv
  have hnbr_lp : nbr ∉ lp := fun h2 => hnv (hlp_vis nbr h2)
  refine ⟨⟨List.Sorted.orderedInsert _ _ hS.sorted, ?_, ?_, ?_, ?_, ?_, ?_, ?_, ?_, ?_,
    ?_, ?_⟩, ?_, ?_⟩
  · -- cs_keys
    intro x
    rw [pmMem_cons, csLookup_cons]
    by_cases hnx : nbr = x
    · subst hnx
      simp
    · rw [if_neg hnx]
      constructor
      · rintro (rfl | h2)
        · exact absurd rfl hnx
        · exact (hS.cs_keys x).1 h2
      · intro h2
        exact Or.inr ((hS.cs_keys x).2 h2)
  · -- chains
    intro x hx
    by_cases hxn : x = nbr
    · subst hxn
      refine ⟨lp ++ [x], ?_, ?_, walkFrom_snoc g g.start p x lp hwalk hstep, ?_, ?_, ?_, ?_⟩
      · refine Chain.step x p lp ?_ (chain_cons_of_not_mem cf x (some p) p lp hch hnbr_lp)
        rw [pmGet, pmLookup]
        simp
      · rw [List.nodup_append]
        refine ⟨hnd, List.nodup_singleton _, ?_⟩
        intro a ha hb
        rw [List.mem_singleton] at hb
        subst hb
        exact hnbr_lp ha
      · intro y hy
        rcases List.mem_append.1 hy with h2 | h2
        · exact pmMem_mono _ _ _ _ (hkeys y h2)
        · rw [List.mem_singleton] at h2
          subst h2
          rw [pmMem_cons]
          exact Or.inl rfl
      · intro y hy
        rcases List.mem_append.1 hy with h2 | h2
        · exact hval y h2
        · rw [List.mem_singleton] at h2
          rw [h2]
          exact stepRel_valid g p _ hstep
      · have hdrop : (lp ++ [x]).dropLast = lp := by simp
        rw [hdrop]
        exact hlp_vis
      · rw [walkCost_snoc lp p x hlp_last, hD_self, hcost, hpD, hedge]
    · rw [pmMem_cons] at hx
      have hx2 : pmMem cf x = true := by
        rcases hx with h2 | h2
        · exact absurd h2 hxn
        · exact h2
      obtain ⟨lx, hchx, hndx, hwalkx, hkeysx, hvalx, hintx, hcostx⟩ := hS.chains x hx2
      have hnbr_lx : nbr ∉ lx := by
        intro h2
        rcases chain_mem_dropLast_or_eq lx x hwalkx.2.1 nbr h2 with h3 | h3
        · exact hnv (hintx nbr h3)
        · exact hxn h3.symm
      refine ⟨lx, chain_cons_of_not_mem cf nbr (some p) x lx hchx hnbr_lx, hndx, hwalkx,
        ?_, hvalx, hintx, ?_⟩
      · intro y hy
        exact pmMem_mono _ _ _ _ (hkeysx y hy)
      · rw [hD_ne x (fun h2 => hxn h2.symm)]
        exact hcostx
  · -- cs_nonneg
    intro x c0 hx
    rw [csLookup_cons] at hx
    by_cases hnx : nbr = x
    · rw [if_pos hnx] at hx
      injection hx with hx
      rw [← hx]
      linarith
    · rw [if_neg hnx] at hx
      exact hS.cs_nonneg x c0 hx
  · -- vis_key
    intro v hv
    rw [hlk_ne v (fun h2 => hnv (h2 ▸ hv))]
    exact hS.vis_key v hv
  · -- vis_opt
    intro v hv w hw
    rw [hD_ne v (fun h2 => hnv (h2 ▸ hv))]
    exact hS.vis_opt v hv w hw
  · -- vis_le_c
    intro v hv
    rw [hD_ne v (fun h2 => hnv (h2 ▸ hv))]
    exact hS.vis_le_c v hv
  · -- vis_heap_le
    intro v hv e he
    rw [hD_ne v (fun h2 => hnv (h2 ▸ hv))]
    rcases (List.mem_orderedInsert entryLE).1 he with rfl | h2
    · show csD cs v ≤ c + edge
      have := hS.vis_le_c v hv
      linarith
    · exact hS.vis_heap_le v hv e h2
  · -- heap_key
    intro e he
    rcases (List.mem_orderedInsert entryLE).1 he with rfl | h2
    · exact ⟨by rw [hlk_self]; rfl, by rw [hD_self]⟩
    · obtain ⟨hek, hele⟩ := hS.heap_key e h2
      by_cases hen : e.2.2 = nbr
      · rw [hen, hlk_self, hD_self]
        refine ⟨rfl, ?_⟩
        cases hsome : csLookup cs nbr with
        | none =>
          rw [hen, hsome] at hek
          simp at hek
        | some old =>
          have h3 := himp old hsome
          have h4 : csD cs nbr = old := by rw [csD, hsome]; rfl
          rw [hen, h4] at hele
          linarith
      · rw [hlk_ne _ (fun h3 => hen h3.symm), hD_ne _ (fun h3 => hen h3.symm)]
        exact ⟨hek, hele⟩
  · -- front
    intro x hx hxv
    by_cases hxn : x = nbr
    · subst hxn
      exact ⟨(c + edge, ctr2, x), (List.mem_orderedInsert entryLE).2 (Or.inl rfl),
        rfl, by rw [hD_self]⟩
    · rw [hlk_ne x (fun h2 => hxn h2.symm)] at hx
      obtain ⟨e, he, he2, he3⟩ := hS.front x hx hxv
      exact ⟨e, (List.mem_orderedInsert entryLE).2 (Or.inr he), he2,
        by rw [he3, hD_ne x (fun h2 => hxn h2.symm)]⟩
  · -- start_cs
    rw [hlk_ne g.start hns]
    exact hS.start_cs
  · -- start_root
    rw [pmGet_cons_ne nbr (some p) cf g.start hns]
    exact hS.start_root
  · -- visited costs unchanged
    intro v hv
    exact hlk_ne v (fun h2 => hnv (h2 ▸ hv))
  · -- recorded costs only decrease
    intro x c0 hx
    by_cases hxn : nbr = x
    · subst hxn
      exact ⟨c + edge, hlk_self, le_of_lt (himp c0 hx)⟩
    · exact ⟨c0, by rw [hlk_ne x hxn]; exact hx, le_refl c0⟩


theorem ucsRelax_inv (g : Grid) (p : Pos) (vis2 : Finset Pos) (c : ℚ) (hpv : p ∈ vis2) :
    ∀ (list : List (Pos × ℚ)) (ctr : ℕ) (hp : List UEntry) (cf : ParentMap) (cs : CostMap),
      UcsRelaxState g vis2 c hp cf cs →
      csLookup cs p = some c →
      (∀ e ∈ list, stepRel g p e.1 ∧ e.2 = moveCost p e.1) →
      UcsRelaxState g vis2 c (ucsRelax p c list ctr hp cf cs).2.1
        (ucsRelax p c list ctr hp cf cs).2.2.1 (ucsRelax p c list ctr hp cf cs).2.2.2 ∧
      (∀ v ∈ vis2, csLookup (ucsRelax p c list ctr hp cf cs).2.2.2 v = csLookup cs v) ∧
      (∀ x c0, csLookup cs x = some c0 →
        ∃ c1, csLookup (ucsRelax p c list ctr hp cf cs).2.2.2 x = some c1 ∧ c1 ≤ c0) ∧
      (∀ e ∈ list, ∃ c1, csLookup (ucsRelax p c list ctr hp cf cs).2.2.2 e.1 = some c1 ∧
        c1 ≤ c + e.2) := by
  intro list
  induction list with
  | nil =>
    intro ctr hp cf cs hS _ _
    rw [ucsRelax]
    exact ⟨hS, fun v _ => rfl, fun x c0 hx => ⟨c0, hx, le_refl c0⟩,
      fun e he => absurd he (List.not_mem_nil e)⟩
  | cons d rest ih =>
    intro ctr hp cf cs hS hcsp hlist
    obtain ⟨nbr, edge⟩ := d
    obtain ⟨hstep, hedge⟩ := hlist (nbr, edge) (List.mem_cons_self _ _)
    have hnp : ∀ (hnv : nbr ∉ vis2), nbr ≠ p := fun hnv h2 => hnv (h2 ▸ hpv)
    -- common continuation once the entry is pushed
    have hrelax : ∀ (hnv : nbr ∉ vis2)
        (himp : ∀ c0, csLookup cs nbr = some c0 → c + edge < c0),
        UcsRelaxState g vis2 c
          (ucsRelax p c rest (ctr + 1) (hp.orderedInsert entryLE (c + edge, ctr + 1, nbr))
            ((nbr, some p) :: cf) ((nbr, c + edge) :: cs)).2.1
          (ucsRelax p c rest (ctr + 1) (hp.orderedInsert entryLE (c + edge, ctr + 1, nbr))
            ((nbr, some p) :: cf) ((nbr, c + edge) :: cs)).2.2.1
          (ucsRelax p c rest (ctr + 1) (hp.orderedInsert entryLE (c + edge, ctr + 1, nbr))
            ((nbr, some p) :: cf) ((nbr, c + edge) :: cs)).2.2.2 ∧
        (∀ v ∈ vis2, csLookup (ucsRelax p c rest (ctr + 1)
            (hp.orderedInsert entryLE (c + edge, ctr + 1, nbr))
            ((nbr, some p) :: cf) ((nbr, c + edge) :: cs)).2.2.2 v = csLookup cs v) ∧
        (∀ x c0, csLookup cs x = some c0 →
          ∃ c1, csLookup (ucsRelax p c rest (ctr + 1)
            (hp.orderedInsert entryLE (c + edge, ctr + 1, nbr))
            ((nbr, some p) :: cf) ((nbr, c + edge) :: cs)).2.2.2 x = some c1 ∧ c1 ≤ c0) ∧
        (∀ e ∈ (nbr, edge) :: rest, ∃ c1, csLookup (ucsRelax p c rest (ctr + 1)
            (hp.orderedInsert entryLE (c + edge, ctr + 1, nbr))
            ((nbr, some p) :: cf) ((nbr, c + edge) :: cs)).2.2.2 e.1 = some c1 ∧
          c1 ≤ c + e.2) := by
      intro hnv himp
      obtain ⟨pS, pVis, pDec⟩ :=
        ucsRelax_push g p vis2 c hpv hp cf cs hS hcsp nbr edge hstep hedge hnv himp (ctr + 1)
      have hcsp2 : csLookup ((nbr, c + edge) :: cs) p = some c := by
        rw [csLookup_cons, if_neg (hnp hnv)]
        exact hcsp
      obtain ⟨rS, rVis, rDec, rCov⟩ := ih (ctr + 1)
        (hp.orderedInsert entryLE (c + edge, ctr + 1, nbr)) ((nbr, some p) :: cf)
        ((nbr, c + edge) :: cs) pS hcsp2 (fun e he => hlist e (List.mem_cons_of_mem _ he))
      refine ⟨rS, ?_, ?_, ?_⟩
      · intro v hv
        rw [rVis v hv, pVis v hv]
      · intro x c0 hx
        obtain ⟨c1, h1, h2⟩ := pDec x c0 hx
        obtain ⟨c2, h3, h4⟩ := rDec x c1 h1
        exact ⟨c2, h3, le_trans h4 h2⟩
      · intro e he
        rcases List.mem_cons.1 he with rfl | h2
        · have hself : csLookup ((nbr, c + edge) :: cs) nbr = some (c + edge) := by
            rw [csLookup_cons, if_pos rfl]
          obtain ⟨c1, h1, h3⟩ := rDec nbr (c + edge) hself
          exact ⟨c1, h1, h3⟩
        · exact rCov e h2
    rw [ucsRelax]
    cases hlk : csLookup cs nbr with
    | some old =>
      dsimp only
      split_ifs with hlt
      · -- strict improvement: the improved node cannot be settled
        have hnv : nbr ∉ vis2 := by
          intro hmem
          have hp_key : pmMem cf p = true := (hS.cs_keys p).2 (by rw [hcsp]; rfl)
          obtain ⟨lp, hch, hnd, hwalk, hkeys, hval, hint, hcost⟩ := hS.chains p hp_key
          have hvo := hS.vis_opt nbr hmem (lp ++ [nbr])
            (walkFrom_snoc g g.start p nbr lp hwalk hstep)
          rw [walkCost_snoc lp p nbr hwalk.2.1] at hvo
          have hD : csD cs nbr = old := by
            rw [csD, hlk]
            rfl
          have hpD : csD cs p = c := by
            rw [csD, hcsp]
            rfl
          rw [hD, hcost, hpD, ← hedge] at hvo
          linarith
        exact hrelax hnv (by
          intro c0 h0
          rw [hlk] at h0
          injection h0 with h0
          rw [← h0]
          exact hlt)
      · -- no improvement: nothing changes for this neighbor
        obtain ⟨rS, rVis, rDec, rCov⟩ := ih ctr hp cf cs hS hcsp
          (fun e he => hlist e (List.mem_cons_of_mem _ he))
        refine ⟨rS, rVis, rDec, ?_⟩
        intro e he
        rcases List.mem_cons.1 he with rfl | h2
        · obtain ⟨c1, h1, h3⟩ := rDec nbr old hlk
          push_neg at hlt
          exact ⟨c1, h1, by linarith⟩
        · exact rCov e h2
    | none =>
      dsimp only
      have hnv : nbr ∉ vis2 := by
        intro hmem
        have := hS.vis_key nbr hmem
        rw [hlk] at this
        simp at this
      exact hrelax hnv (by
        intro c0 h0
        rw [hlk] at h0
        exact absurd h0 (by simp))


theorem ucsInv_init (g : Grid) (hv : is_valid g g.start = true) :
    UcsInv g (ucsInit g) := by
  unfold ucsInit
  have hkey : ∀ x, pmMem [(g.start, (none : Option Pos))] x = true ↔ x = g.start := by
    intro x
    rw [pmMem_cons]
    constructor
    · rintro (rfl | h2)
      · rfl
      · simp [pmMem, pmLookup] at h2
    · intro h2
      exact Or.inl h2
  refine ⟨List.pairwise_singleton _ _, ?_, ?_, ?_, ?_, ?_, ?_, ?_, ?_, ?_, ?_, ?_,
    Finset.not_mem_empty _, List.chain'_nil, ?_, ?_, ?_⟩
  · intro x
    dsimp only
    rw [hkey, csLookup_cons]
    by_cases hx : g.start = x
    · rw [if_pos hx]
      constructor
      · intro _
        rfl
      · intro _
        exact hx.symm
    · rw [if_neg hx]
      constructor
      · intro h2
        exact absurd h2.symm hx
      · intro h2
        exact absurd h2 (by simp [csLookup])
  · intro x hx
    dsimp only at hx ⊢
    rw [hkey] at hx
    subst hx
    refine ⟨[g.start], Chain.root g.start (by simp [pmGet, pmLookup]),
      List.nodup_singleton _, ⟨rfl, rfl, List.chain'_singleton _⟩, ?_, ?_, ?_, ?_⟩
    · intro y hy
      rw [List.mem_singleton] at hy
      subst hy
      rw [hkey]
    · intro y hy
      rw [List.mem_singleton] at hy
      subst hy
      exact hv
    · intro y hy
      simp at hy
    · show walkCost [g.start] = csD [(g.start, 0)] g.start
      rw [csD, csLookup_cons, if_pos rfl]
      rfl
  · intro x c hx
    dsimp only at hx
    rw [csLookup_cons] at hx
    by_cases h2 : g.start = x
    · rw [if_pos h2] at hx
      injection hx with hx
      rw [← hx]
    · rw [if_neg h2] at hx
      exact absurd hx (by simp [csLookup])
  · intro v hv2
    exact absurd hv2 (Finset.not_mem_empty v)
  · intro v hv2
    exact absurd hv2 (Finset.not_mem_empty v)
  · intro v hv2
    exact absurd hv2 (Finset.not_mem_empty v)
  · intro e he
    dsimp only at he ⊢
    rw [List.mem_singleton] at he
    subst he
    refine ⟨?_, ?_⟩
    · show (csLookup [(g.start, 0)] g.start).isSome = true
      rw [csLookup_cons, if_pos rfl]
      rfl
    · show csD [(g.start, 0)] g.start ≤ 0
      rw [csD, csLookup_cons, if_pos rfl]
      exact le_refl _
  · intro x hx _
    dsimp only at hx ⊢
    have hxs : x = g.start := by
      rw [csLookup_cons] at hx
      by_cases h2 : g.start = x
      · exact h2.symm
      · rw [if_neg h2] at hx
        exact absurd hx (by simp [csLookup])
    subst hxs
    refine ⟨(0, 0, g.start), List.mem_singleton_self _, rfl, ?_⟩
    show (0 : ℚ) = csD [(g.start, 0)] g.start
    rw [csD, csLookup_cons, if_pos rfl]
    rfl
  · intro v hv2
    exact absurd hv2 (Finset.not_mem_empty v)
  · show csLookup [(g.start, 0)] g.start = some 0
    rw [csLookup_cons, if_pos rfl]
  · simp [pmGet, pmLookup]
  · intro st hst
    exact absurd hst (List.not_mem_nil st)
  · intro i hi
    simp at hi
  · intro p hp
    exact absurd hp (Finset.not_mem_empty p)

theorem ucsLoop_sound (g : Grid) :
    ∀ (fuel : ℕ) (s : UcsState), UcsInv g s →
      ∀ r, ucsLoop g fuel s = some r → UcsOK g r := by
  intro fuel
  induction fuel with
  | zero =>
    intro s _ r hr
    rw [ucsLoop] at hr
    exact absurd hr (by simp)
  | succ f ih =>
    intro s hInv r hr
    rw [ucsLoop] at hr
    cases hq : s.heap with
    | nil =>
      rw [hq] at hr
      simp only [Option.some.injEq] at hr
      subst hr
      refine ⟨fun h => absurd rfl h, fun _ => ?_, hInv.mono, hInv.vop⟩
      intro hreach
      have hclosed : ∀ v ∈ s.visited, ∀ y, stepRel g v y → y ∈ s.visited := by
        intro v hv y hy
        obtain ⟨hykey, _⟩ := hInv.clos v hv y hy
        by_contra hynv
        obtain ⟨e, he, _, _⟩ := hInv.front y hykey hynv
        rw [hq] at he
        exact absurd he (List.not_mem_nil e)
      have hstart : g.start ∈ s.visited := by
        by_contra hsnv
        obtain ⟨e, he, _, _⟩ := hInv.front g.start (by rw [hInv.start_cs]; rfl) hsnv
        rw [hq] at he
        exact absurd he (List.not_mem_nil e)
      exact hInv.goal_not_vis (reach_subset_closed g s.visited hclosed _ _ hstart hreach)
    | cons e0 rest =>
      obtain ⟨c, k, current⟩ := e0
      rw [hq] at hr
      dsimp only at hr
      have hhead : (c, k, current) ∈ s.heap := hq ▸ List.mem_cons_self _ _
      have hkey : (csLookup s.cost_so_far current).isSome = true :=
        (hInv.heap_key _ hhead).1
      have hcfkey : pmMem s.came_from current = true := (hInv.cs_keys current).2 hkey
      have hmin : ∀ e ∈ s.heap, c ≤ e.1 := by
        intro e he
        rw [hq] at he
        rcases List.mem_cons.1 he with rfl | h2
        · exact le_refl c
        · have hs := hInv.sorted
          rw [hq, List.pairwise_cons] at hs
          exact entryLE_cost_le _ _ (hs.1 e h2)
      have hceq : current ∉ s.visited → csD s.cost_so_far current = c := by
        intro hnv
        have h1 : csD s.cost_so_far current ≤ c := (hInv.heap_key _ hhead).2
        obtain ⟨e, he, he2, he3⟩ := hInv.front current hkey hnv
        have h2 : c ≤ csD s.cost_so_far current := by
          rw [← he3]
          exact hmin e he
        linarith
      have hnew_vop : VisitedOnlyPopped
          (s.steps ++ [make_step current (rest.map fun e => e.2.2) s.visited]) := by
        apply vop_append _ _ hInv.vop
        intro p hp
        exact hInv.vis_cur p hp
      have hnew_mono : SizesMono
          (s.steps ++ [make_step current (rest.map fun e => e.2.2) s.visited]) := by
        apply sizesMono_append _ _ hInv.mono
        intro s0 hs0
        exact Finset.card_le_card (hInv.st_sub s0 hs0)
      by_cases hgoal : current = g.goal
      · -- goal reached: the recorded chain has minimal cost
        rw [if_pos hgoal] at hr
        simp only [Option.some.injEq] at hr
        subst hr
        have hnvis : current ∉ s.visited := hgoal ▸ hInv.goal_not_vis
        obtain ⟨l, hch, hnd, hwalk, hkeys, hval, hint, hcost⟩ := hInv.chains current hcfkey
        have hrec : reconstruct_path s.came_from current = l :=
          reconstruct_path_of_chain s.came_from current l hch hnd hkeys
        refine ⟨fun _ => ?_, fun he => ?_, hnew_mono, hnew_vop⟩
        · show WalkFrom g g.start (reconstruct_path s.came_from current) g.goal ∧ _
          rw [hrec, ← hgoal]
          refine ⟨hwalk, hnd, hval, ?_⟩
          intro w hw
          have h2 := (ucs_pop_opt g s hInv c k current rest hq w current hw).2 hnvis
          rw [hcost, hceq hnvis]
          exact h2
        · exfalso
          have he2 : reconstruct_path s.came_from current = [] := he
          rw [hrec] at he2
          exact chain_ne_nil _ _ _ hch he2
      · by_cases hvis : current ∈ s.visited
        · -- stale entry: skip it
          rw [if_neg hgoal, if_pos hvis] at hr
          refine ih _ ?_ r hr
          refine ⟨?_, hInv.cs_keys, hInv.chains, hInv.cs_nonneg, hInv.vis_key,
            hInv.vis_opt, ?_, ?_, ?_, hInv.clos, hInv.start_cs, hInv.start_root,
            hInv.goal_not_vis, hnew_mono, ?_, hnew_vop, ?_⟩
          · have hs := hInv.sorted
            rw [hq, List.pairwise_cons] at hs
            exact hs.2
          · intro v hv e he
            exact hInv.vis_heap_le v hv e (hq ▸ List.mem_cons_of_mem _ he)
          · intro e he
            exact hInv.heap_key e (hq ▸ List.mem_cons_of_mem _ he)
          · intro x hx hxv
            obtain ⟨e, he, he2, he3⟩ := hInv.front x hx hxv
            rw [hq] at he
            rcases List.mem_cons.1 he with rfl | h2
            · exact absurd (he2 ▸ hvis) hxv
            · exact ⟨e, h2, he2, he3⟩
          · intro st hst
            rcases List.mem_append.1 hst with h2 | h2
            · exact hInv.st_sub st h2
            · rw [List.mem_singleton] at h2
              subst h2
              exact fun x hx => hx
          · intro p hp
            rw [List.map_append, List.mem_append]
            exact Or.inl (hInv.vis_cur p hp)
        · -- expand current
          rw [if_neg hgoal, if_neg hvis] at hr
          refine ih _ ?_ r hr
          have hcd := hceq hvis
          have hcsp : csLookup s.cost_so_far current = some c := by
            cases hlk2 : csLookup s.cost_so_far current with
            | none =>
              rw [hlk2] at hkey
              simp at hkey
            | some cc =>
              rw [csD, hlk2] at hcd
              simp at hcd
              rw [hcd]
          have hentry : UcsRelaxState g (insert current s.visited) c rest
              s.came_from s.cost_so_far := by
            refine ⟨?_, hInv.cs_keys, ?_, hInv.cs_nonneg, ?_, ?_, ?_, ?_, ?_, ?_,
              hInv.start_cs, hInv.start_root⟩
            · have hs := hInv.sorted
              rw [hq, List.pairwise_cons] at hs
              exact hs.2
            · intro x hx
              obtain ⟨l, hch, hnd, hwalk, hkeys, hval, hint, hcost⟩ := hInv.chains x hx
              exact ⟨l, hch, hnd, hwalk, hkeys, hval,
                fun y hy => Finset.mem_insert_of_mem (hint y hy), hcost⟩
            · intro v hv
              rcases Finset.mem_insert.1 hv with rfl | h2
              · exact hkey
              · exact hInv.vis_key v h2
            · intro v hv w hw
              rcases Finset.mem_insert.1 hv with rfl | h2
              · rw [hcd]
                exact (ucs_pop_opt g s hInv c k v rest hq w v hw).2 hvis
              · exact hInv.vis_opt v h2 w hw
            · intro v hv
              rcases Finset.mem_insert.1 hv with rfl | h2
              · rw [hcd]
              · exact hInv.vis_heap_le v h2 (c, k, current) hhead
            · intro v hv e he
              rcases Finset.mem_insert.1 hv with rfl | h2
              · rw [hcd]
                have hs := hInv.sorted
                rw [hq, List.pairwise_cons] at hs
                exact entryLE_cost_le _ _ (hs.1 e he)
              · exact hInv.vis_heap_le v h2 e (hq ▸ List.mem_cons_of_mem _ he)
            · intro e he
              exact hInv.heap_key e (hq ▸ List.mem_cons_of_mem _ he)
            · intro x hx hxv
              have hxv2 : x ∉ s.visited := fun h2 => hxv (Finset.mem_insert_of_mem h2)
              have hxc : x ≠ current := by
                intro h2
                exact hxv (h2 ▸ Finset.mem_insert_self _ _)
              obtain ⟨e, he, he2, he3⟩ := hInv.front x hx hxv2
              rw [hq] at he
              rcases List.mem_cons.1 he with rfl | h2
              · exact absurd he2.symm hxc
              · exact ⟨e, h2, he2, he3⟩
          have hlist : ∀ e ∈ get_neighbors g current,
              stepRel g current e.1 ∧ e.2 = moveCost current e.1 := by
            intro e he
            exact ⟨List.mem_map_of_mem Prod.fst he, get_neighbors_cost g current e he⟩
          obtain ⟨rS, rVis, rDec, rCov⟩ := ucsRelax_inv g current (insert current s.visited)
            c (Finset.mem_insert_self _ _) (get_neighbors g current) s.counter rest
            s.came_from s.cost_so_far hentry hcsp hlist
          refine ⟨rS.sorted, rS.cs_keys, rS.chains, rS.cs_nonneg, rS.vis_key, rS.vis_opt,
            rS.vis_heap_le, rS.heap_key, rS.front, ?_, rS.start_cs, rS.start_root, ?_,
            hnew_mono, ?_, hnew_vop, ?_⟩
          · -- closure for the enlarged visited set
            dsimp only
            intro v hv y hy
            rcases Finset.mem_insert.1 hv with rfl | hvold
            · obtain ⟨e, he, he1⟩ := List.mem_map.1 hy
              obtain ⟨c1, hc1, hc2⟩ := rCov e he
              have hmove : e.2 = moveCost v y := by
                rw [← he1]
                exact get_neighbors_cost g v e he
              have hvc : csLookup (ucsRelax v c (get_neighbors g v) s.counter rest
                  s.came_from s.cost_so_far).2.2.2 v = some c :=
                (rVis v (Finset.mem_insert_self _ _)).trans hcsp
              rw [he1] at hc1
              refine ⟨by rw [hc1]; rfl, ?_⟩
              rw [csD, hc1, csD, hvc]
              show c1 ≤ c + moveCost v y
              rw [hmove] at hc2
              exact hc2
            · obtain ⟨hykey, hyle⟩ := hInv.clos v hvold y hy
              obtain ⟨cy, hcy⟩ := Option.isSome_iff_exists.1 hykey
              obtain ⟨c1, hc1, hc2⟩ := rDec y cy hcy
              have hvc := rVis v (Finset.mem_insert_of_mem hvold)
              refine ⟨by rw [hc1]; rfl, ?_⟩
              rw [csD, hc1, csD, hvc]
              calc c1 ≤ cy := hc2
                _ = csD s.cost_so_far y := by rw [csD, hcy]; rfl
                _ ≤ csD s.cost_so_far v + moveCost v y := hyle
                _ = (csLookup s.cost_so_far v).getD 0 + moveCost v y := rfl
          · dsimp only
            rw [Finset.mem_insert]
            push_neg
            exact ⟨fun h2 => hgoal h2.symm, hInv.goal_not_vis⟩
          · dsimp only
            intro st hst
            rcases List.mem_append.1 hst with h2 | h2
            · exact (hInv.st_sub st h2).trans (Finset.subset_insert _ _)
            · rw [List.mem_singleton] at h2
              subst h2
              exact Finset.subset_insert _ _
          · dsimp only
            intro p hp
            rw [List.map_append, List.mem_append]
            rcases Finset.mem_insert.1 hp with rfl | h2
            · right
              simp [make_step]
            · exact Or.inl (hInv.vis_cur p h2)

/-- Soundness of `ucs` on any grid with a valid start cell. -/
theorem ucs_ok (g : Grid) (hv : is_valid g g.start = true) : UcsOK g (ucs g) :=
  ucsLoop_sound g (ucsFuel g) (ucsInit g) (ucsInv_init g hv) (ucs g) (ucs_run g hv)


/-! The remaining claims, assembled from the per-algorithm soundness
developments above. -/

instance (g : Grid) (a b : Pos) (l : List Pos) : Decidable (WalkFrom g a l b) :=
  inferInstanceAs (Decidable (_ ∧ _ ∧ _))

/-- C1: for every one of the six search functions run on a grid whose start
and goal are in-bounds non-wall cells, a non-empty returned path starts at
the grid's start, ends at its goal, and every consecutive pair is a valid
neighbor transition per `get_neighbors`. -/
theorem paths_connect_start_to_goal :
    ∀ (g : Grid) (limit : ℕ), WellFormed g →
      ∀ p, (p = (bfs g).2 ∨ p = (dfs g).2 ∨ p = (ucs g).2 ∨ p = (dls g limit).2 ∨
          p = (iddfs g).2 ∨ p = (bidirectional g).2) →
        p ≠ [] → p.head? = some g.start ∧ p.getLast? = some g.goal ∧ ValidSteps g p := by
  rintro g limit hw p (rfl | rfl | rfl | rfl | rfl | rfl) hne
  · obtain ⟨hwk, _, _, _⟩ := (bfs_ok g hw.1).walk hne
    exact ⟨hwk.1, hwk.2.1, hwk.2.2⟩
  · obtain ⟨hwk, _, _⟩ := (dfs_ok g hw).walk hne
    exact ⟨hwk.1, hwk.2.1, hwk.2.2⟩
  · obtain ⟨hwk, _, _, _⟩ := (ucs_ok g hw.1).walk hne
    exact ⟨hwk.1, hwk.2.1, hwk.2.2⟩
  · obtain ⟨hwk, _, _⟩ := (dls_ok g limit hw).walk hne
    exact ⟨hwk.1, hwk.2.1, hwk.2.2⟩
  · obtain ⟨hwk, _, _⟩ := iddfs_walk g hw hne
    exact ⟨hwk.1, hwk.2.1, hwk.2.2⟩
  · have hwk := (bidirectional_ok g hw).walk hne
    exact ⟨hwk.1, hwk.2.1, hwk.2.2⟩

/-- Witness for C1 at the concrete 2 by 2 grid, on the `bfs` result. -/
theorem paths_connect_start_to_goal_witness :
    WellFormed gridA ∧ (bfs gridA).2 ≠ [] ∧
      ((bfs gridA).2.head? = some gridA.start ∧
        (bfs gridA).2.getLast? = some gridA.goal ∧ ValidSteps gridA (bfs gridA).2) :=
  ⟨by decide, by decide,
    paths_connect_start_to_goal gridA 15 (by decide) (bfs gridA).2 (Or.inl rfl) (by decide)⟩

/-- C2: on a wall-free grid with in-bounds, mutually reachable start and goal,
`bfs` returns a non-empty path whose edge count equals the least edge count of
any start-to-goal walk over the 6-neighbor move relation. -/
theorem bfs_shortest_path (g : Grid) (hwalls : g.walls = ∅)
    (hs : is_valid g g.start = true) (hg : is_valid g g.goal = true)
    (h1 : Reach g g.start g.goal) (h2 : Reach g g.goal g.start) :
    (bfs g).2 ≠ [] ∧
      (bfs g).2.length - 1 =
        sInf {n : ℕ | ∃ w, WalkFrom g g.start w g.goal ∧ n = w.length - 1} := by
  have hOK := bfs_ok g hs
  have hne : (bfs g).2 ≠ [] := fun he => hOK.complete he h1
  obtain ⟨hwk, hnd, hval, hmin⟩ := hOK.walk hne
  refine ⟨hne, ?_⟩
  have hmem : (bfs g).2.length - 1 ∈
      {n : ℕ | ∃ w, WalkFrom g g.start w g.goal ∧ n = w.length - 1} :=
    ⟨(bfs g).2, hwk, rfl⟩
  obtain ⟨w0, hw0, hw0e⟩ :=
    Nat.sInf_mem (Set.nonempty_of_mem hmem)
  apply le_antisymm
  · have := hmin w0 hw0
    omega
  · exact Nat.sInf_le hmem

/-- Witness for C2 at the concrete wall-free 2 by 2 grid. -/
theorem bfs_shortest_path_witness :
    gridA.walls = ∅ ∧ is_valid gridA gridA.start = true ∧
      is_valid gridA gridA.goal = true ∧ Reach gridA gridA.start gridA.goal ∧
      Reach gridA gridA.goal gridA.start ∧
      ((bfs gridA).2 ≠ [] ∧
        (bfs gridA).2.length - 1 =
          sInf {n : ℕ | ∃ w, WalkFrom gridA gridA.start w gridA.goal ∧
            n = w.length - 1}) := by
  have hr1 : Reach gridA gridA.start gridA.goal :=
    walkFrom_reach gridA _ _ [(0, 0), (1, 1)] (by with_unfolding_all decide)
  have hr2 : Reach gridA gridA.goal gridA.start :=
    walkFrom_reach gridA _ _ [(1, 1), (0, 0)] (by with_unfolding_all decide)
  exact ⟨rfl, by decide, by decide, hr1, hr2,
    bfs_shortest_path gridA rfl (by decide) (by decide) hr1 hr2⟩

/-- C3: on a grid with in-bounds non-wall start and goal and the goal
reachable, `ucs` returns a path of minimal accumulated cost (1.0 per
orthogonal move, 1.414 per diagonal move) among all start-to-goal walks. -/
theorem ucs_minimal_cost (g : Grid) (hw : WellFormed g)
    (hreach : Reach g g.start g.goal) :
    (ucs g).2 ≠ [] ∧ WalkFrom g g.start (ucs g).2 g.goal ∧
      ∀ w, WalkFrom g g.start w g.goal → walkCost (ucs g).2 ≤ walkCost w := by
  have hOK := ucs_ok g hw.1
  have hne : (ucs g).2 ≠ [] := fun he => hOK.complete he hreach
  obtain ⟨hwk, _, _, hmin⟩ := hOK.walk hne
  exact ⟨hne, hwk, hmin⟩

/-- Witness for C3 at the concrete 2 by 2 grid. -/
theorem ucs_minimal_cost_witness :
    WellFormed gridA ∧ Reach gridA gridA.start gridA.goal ∧
      ((ucs gridA).2 ≠ [] ∧ WalkFrom gridA gridA.start (ucs gridA).2 gridA.goal ∧
        ∀ w, WalkFrom gridA gridA.start w gridA.goal →
          walkCost (ucs gridA).2 ≤ walkCost w) := by
  have hr : Reach gridA gridA.start gridA.goal :=
    walkFrom_reach gridA _ _ [(0, 0), (1, 1)] (by with_unfolding_all decide)
  exact ⟨by decide, hr, ucs_minimal_cost gridA (by decide) hr⟩


/-- C4 counterexample: on the wall-free 4 by 4 grid with start `(0,2)` and
goal `(3,0)`, `dls` with limit 5 returns a 7-cell path, exceeding `L + 1 = 6`
cells (stale parent chains recorded at deeper discovery survive a later
shallower re-expansion). -/
theorem dls_length_counterexample : ¬ ((dls gridC4 5).2.length ≤ 5 + 1) := by decide

/-- C4 (amended): the path returned by `dls` is a simple walk over valid
cells, so it contains at most as many cells as the grid has valid cells; the
claimed bound of `L + 1` cells does not hold (see
`dls_length_counterexample`). -/
theorem dls_path_bounded (g : Grid) (limit : ℕ) (hw : WellFormed g)
    (h : (dls g limit).2 ≠ []) :
    (dls g limit).2.length ≤ (validCells g).card := by
  obtain ⟨hwk, hnd, hval⟩ := (dls_ok g limit hw).walk h
  have h1 : (dls g limit).2.length = (dls g limit).2.toFinset.card :=
    (List.toFinset_card_of_nodup hnd).symm
  have h2 : (dls g limit).2.toFinset ⊆ validCells g := by
    intro y hy
    rw [List.mem_toFinset] at hy
    exact (mem_validCells g y).2 (hval y hy)
  rw [h1]
  exact Finset.card_le_card h2

/-- Witness for the amended C4 at the 4 by 4 grid with limit 5. -/
theorem dls_path_bounded_witness :
    WellFormed gridC4 ∧ (dls gridC4 5).2 ≠ [] ∧
      (dls gridC4 5).2.length ≤ (validCells gridC4).card :=
  ⟨by decide, by decide, dls_path_bounded gridC4 5 (by decide) (by decide)⟩

/-- C5 counterexample: on a wall-free 1 by 18 corridor the goal is reachable,
yet `dls` with its default limit 15 returns the empty path, so "empty iff no
route exists" fails for `dls`. -/
theorem dls_misses_existing_route :
    (dls gridLine18 15).2 = [] ∧ Reach gridLine18 gridLine18.start gridLine18.goal :=
  ⟨by decide, walkFrom_reach gridLine18 _ _ [(0, 0), (0, 1), (0, 2), (0, 3), (0, 4), (0, 5), (0, 6), (0, 7), (0, 8), (0, 9), (0, 10), (0, 11), (0, 12), (0, 13), (0, 14), (0, 15), (0, 16), (0, 17)] (by with_unfolding_all decide)⟩

/-- C5 (amended): "empty path iff no route" holds for `bfs`, `dfs`, `ucs` and
`bidirectional`; for `dls` and `iddfs` only the forward direction holds in
general (a non-empty path implies a route), while the converse needs the
grid's valid-cell count to fit under the depth limit (`limit` for `dls`, 99
for `iddfs`, whose limits range over `ROWS * COLS = 100` module constants);
`dls_misses_existing_route` refutes the unconditional converse. -/
theorem empty_path_iff_no_route (g : Grid) (limit : ℕ) (hw : WellFormed g) :
    ((bfs g).2 = [] ↔ ¬ Reach g g.start g.goal) ∧
    ((dfs g).2 = [] ↔ ¬ Reach g g.start g.goal) ∧
    ((ucs g).2 = [] ↔ ¬ Reach g g.start g.goal) ∧
    ((bidirectional g).2 = [] ↔ ¬ Reach g g.start g.goal) ∧
    ((dls g limit).2 ≠ [] → Reach g g.start g.goal) ∧
    ((validCells g).card ≤ limit → Reach g g.start g.goal → (dls g limit).2 ≠ []) ∧
    ((iddfs g).2 ≠ [] → Reach g g.start g.goal) ∧
    ((validCells g).card ≤ 99 → Reach g g.start g.goal → (iddfs g).2 ≠ []) := by
  refine ⟨⟨(bfs_ok g hw.1).complete, ?_⟩, ⟨(dfs_ok g hw).complete, ?_⟩,
    ⟨(ucs_ok g hw.1).complete, ?_⟩, ⟨(bidirectional_ok g hw).complete, ?_⟩,
    ?_, ?_, ?_, ?_⟩
  · intro hnr
    by_contra hne
    exact hnr (walkFrom_reach g _ _ _ ((bfs_ok g hw.1).walk hne).1)
  · intro hnr
    by_contra hne
    exact hnr (walkFrom_reach g _ _ _ ((dfs_ok g hw).walk hne).1)
  · intro hnr
    by_contra hne
    exact hnr (walkFrom_reach g _ _ _ ((ucs_ok g hw.1).walk hne).1)
  · intro hnr
    by_contra hne
    exact hnr (walkFrom_reach g _ _ _ ((bidirectional_ok g hw).walk hne))
  · intro hne
    exact walkFrom_reach g _ _ _ ((dls_ok g limit hw).walk hne).1
  · intro hcard hre he
    exact dls_complete g limit hw hcard he hre
  · intro hne
    exact walkFrom_reach g _ _ _ (iddfs_walk g hw hne).1
  · intro hcard hre
    exact iddfs_complete g hw hcard hre

/-- Witness for the amended C5 at the 2 by 2 grid (the `bfs` equivalence). -/
theorem empty_path_iff_no_route_witness :
    WellFormed gridA ∧ ((bfs gridA).2 = [] ↔ ¬ Reach gridA gridA.start gridA.goal) :=
  ⟨by decide, (empty_path_iff_no_route gridA 15 (by decide)).1⟩

/-- C6 counterexample: on a wall-free 1 by 3 corridor the `iddfs` trace's
visited snapshots are not non-decreasing in size — `visited` is reset between
the `dls` sweeps that `iddfs` concatenates. -/
theorem iddfs_visited_sizes_not_mono : ¬ SizesMono (iddfs gridLine3).1 := by decide

/-- C6 (amended): the visited snapshots' sizes are non-decreasing across the
returned trace for `bfs`, `dfs`, `ucs`, `dls` and `bidirectional`; for
`iddfs` the property fails (see `iddfs_visited_sizes_not_mono`). -/
theorem visited_sizes_mono (g : Grid) (limit : ℕ) (hw : WellFormed g) :
    SizesMono (bfs g).1 ∧ SizesMono (dfs g).1 ∧ SizesMono (ucs g).1 ∧
      SizesMono (dls g limit).1 ∧ SizesMono (bidirectional g).1 :=
  ⟨(bfs_ok g hw.1).mono, (dfs_ok g hw).mono, (ucs_ok g hw.1).mono,
    (dls_ok g limit hw).mono, (bidirectional_ok g hw).mono⟩

/-- Witness for the amended C6 at the 2 by 2 grid. -/
theorem visited_sizes_mono_witness :
    WellFormed gridA ∧ SizesMono (bfs gridA).1 :=
  ⟨by decide, (visited_sizes_mono gridA 15 (by decide)).1⟩

/-- C7 counterexample: on a wall-free 1 by 2 corridor, `bidirectional`'s
trace contains visited positions that were never popped as `current` — the
function marks neighbors visited at enqueue time and pre-seeds both visited
sets with `start` and `goal`. -/
theorem bidirectional_visited_not_popped :
    ¬ VisitedOnlyPopped (bidirectional gridPair).1 := by decide

/-- C7 (amended): every recorded visited snapshot contains only previously
popped positions for `bfs`, `dfs`, `ucs`, `dls` and `iddfs`; for
`bidirectional` the property fails (see `bidirectional_visited_not_popped`). -/
theorem visited_only_popped (g : Grid) (limit : ℕ) (hw : WellFormed g) :
    VisitedOnlyPopped (bfs g).1 ∧ VisitedOnlyPopped (dfs g).1 ∧
      VisitedOnlyPopped (ucs g).1 ∧ VisitedOnlyPopped (dls g limit).1 ∧
      VisitedOnlyPopped (iddfs g).1 :=
  ⟨(bfs_ok g hw.1).vop, (dfs_ok g hw).vop, (ucs_ok g hw.1).vop,
    (dls_ok g limit hw).vop, iddfs_vop g hw⟩

/-- Witness for the amended C7 at the 2 by 2 grid. -/
theorem visited_only_popped_witness :
    WellFormed gridA ∧ VisitedOnlyPopped (bfs gridA).1 :=
  ⟨by decide, (visited_only_popped gridA 15 (by decide)).1⟩

/-- C10: in `bfs`, every position is popped as `current` at most once (the
`in_queue` set bars re-insertion, so the already-visited skip branch is never
taken — at every pop the current node is outside the step's visited
snapshot), and the number of recorded steps equals the number of distinct
popped positions. -/
theorem bfs_no_requeue (g : Grid) (hw : WellFormed g) :
    ((bfs g).1.map Step.current).Nodup ∧
      (∀ st ∈ (bfs g).1, st.current ∉ st.visited) ∧
      (bfs g).1.length = ((bfs g).1.map Step.current).dedup.length := by
  have hOK := bfs_ok g hw.1
  refine ⟨hOK.cur_nodup, hOK.cur_not_own, ?_⟩
  rw [List.dedup_eq_self.2 hOK.cur_nodup, List.length_map]

/-- Witness for C10 at the 2 by 2 grid. -/
theorem bfs_no_requeue_witness :
    WellFormed gridA ∧
      (((bfs gridA).1.map Step.current).Nodup ∧
        (∀ st ∈ (bfs gridA).1, st.current ∉ st.visited) ∧
        (bfs gridA).1.length = ((bfs gridA).1.map Step.current).dedup.length) :=
  ⟨by decide, bfs_no_requeue gridA (by decide)⟩

end AIPF
